import Mathlib

/-!
# XML data binding (hw16/xmlDataBind): a verification development

The development embeds

* the run-time support that the generated binding file carries with it
  (`munchSpace`, the builtin `fromXML` / `toXML` specialisations) and the
  generated binding for `note_type` (`note.h`);
* the shape of the deserializer that `struct_formatter<complex_type>`
  generates for an arbitrary complex type (`struct_formatter.h`);
* the schema ingestion engine (`xmlbind.h`, `xsd2cpp.h`);
* the struct-style and declaration-only emitters.
-/

namespace XmlBind

/-! ## Parse events and the pull parser -/

/-- Kinds of parse event the binding code tests for (`xml::parser::event_type`).
`eof` is the sentinel returned once the document is exhausted. -/
inductive event_type where
  | start_element
  | end_element
  | characters
  | eof
  deriving DecidableEq, Repr

/-- One event of an instance document: a start tag with its name, an end tag,
or a piece of character data. -/
inductive Event where
  | start_element (name : String)
  | end_element
  | characters (value : String)
  deriving DecidableEq, Repr

/-- The kind of an event. -/
def Event.type : Event → event_type
  | .start_element _ => .start_element
  | .end_element => .end_element
  | .characters _ => .characters

/-- Modelled from the spec: the pull parser `xml::parser` (its class declaration
is not part of the sources). `input` holds the events not yet consumed, `cur` the
event last returned by `next()` or `peek()`; `name()` and `value()` read `cur`. -/
structure parser where
  input : List Event
  cur : Option Event
  deriving DecidableEq, Repr

/-- The kind of an optional event, `eof` when there is none. -/
def typeOf : Option Event → event_type
  | some e => e.type
  | none => .eof

/-- Modelled from the spec: `peek()` reports the kind of the next event without
consuming it and makes that event the current one. -/
def parser.peek (p : parser) : event_type × parser :=
  (typeOf p.input.head?, { input := p.input, cur := p.input.head? })

/-- Modelled from the spec: `next()` consumes the next event, makes it the
current one and reports its kind. -/
def parser.next (p : parser) : event_type × parser :=
  (typeOf p.input.head?, { input := p.input.tail, cur := p.input.head? })

/-- Modelled from the spec: `name()` is the element name of the current event. -/
def parser.name (p : parser) : String :=
  match p.cur with
  | some (.start_element n) => n
  | _ => ""

/-- Modelled from the spec: `value()` is the text of the current event. -/
def parser.value (p : parser) : String :=
  match p.cur with
  | some (.characters s) => s
  | _ => ""

/-- Exceptions raised by the binding code. -/
inductive XmlError where
  /-- Thrown by `next_expect` (an `xml::parsing` exception). -/
  | parsing
  /-- A `std::runtime_error` carrying the given message. -/
  | runtime_error (what : String)
  /-- Thrown by `std::stoi` when no conversion could be performed. -/
  | invalid_argument
  /-- Thrown by `std::stoi` when the value does not fit an `int`. -/
  | out_of_range
  deriving DecidableEq, Repr

/-- Outcome of running a piece of binding code on a parser: normal return with
a value and the new parser state, an exception, or no return at all. -/
inductive Result (α : Type) where
  | ok (v : α) (p : parser)
  | error (e : XmlError)
  | diverge
  deriving Repr

/-- Sequencing of two pieces of binding code. -/
def Result.bind {α β : Type} (r : Result α) (f : α → parser → Result β) : Result β :=
  match r with
  | .ok v p => f v p
  | .error e => .error e
  | .diverge => .diverge

/-- Modelled from the spec: `next_expect(e)` consumes the next event and throws
unless it has kind `e`. -/
def parser.next_expect (p : parser) (e : event_type) : Result Unit :=
  if (p.next).1 = e then .ok () (p.next).2 else .error .parsing

/-! ## Run-time support of the generated file (`note.h`) -/

/-- The predicate `std::isspace` in the "C" locale. -/
def isspace (c : Char) : Bool :=
  c == ' ' || c == '\t' || c == '\n' || c == '\x0b' || c == '\x0c' || c == '\r'

/-- The test `std::all_of(s.begin(), s.end(), isspace)`. -/
def allSpace (s : String) : Bool := s.data.all isspace

/-- The loop of `munchSpace`, by recursion on the unread events: while the next
event is character data, consume it and throw if its text has a non-space
character. The second argument is the current event on entry. -/
def munchSpaceLoop : List Event → Option Event → Result Unit
  | .characters s :: rest, _ =>
      if allSpace s then munchSpaceLoop rest (some (.characters s))
      else .error (.runtime_error ("Unexpected characters: " ++ s))
  | .start_element n :: rest, _ =>
      .ok () { input := .start_element n :: rest, cur := some (.start_element n) }
  | .end_element :: rest, _ =>
      .ok () { input := .end_element :: rest, cur := some .end_element }
  | [], _ => .ok () { input := [], cur := none }

/-- Skip over whitespace: `void munchSpace(xml::parser &p)`. -/
def munchSpace (p : parser) : Result Unit := munchSpaceLoop p.input p.cur

/-- The loop `while(p.peek() == characters) { p.next(); x += p.value(); }` of the
builtin deserializers, by recursion on the unread events. -/
def collectLoop : List Event → Option Event → String → Result String
  | .characters s :: rest, _, x => collectLoop rest (some (.characters s)) (x ++ s)
  | .start_element n :: rest, _, x =>
      .ok x { input := .start_element n :: rest, cur := some (.start_element n) }
  | .end_element :: rest, _, x =>
      .ok x { input := .end_element :: rest, cur := some .end_element }
  | [], _, x => .ok x { input := [], cur := none }

/-- The common body of the builtin deserializers up to the conversion: expect a
start tag (of any name), accumulate the character data, expect an end tag. -/
def fromXML_chars (p : parser) (_name : String) : Result String :=
  (p.next_expect .start_element).bind fun _ p1 =>
  (collectLoop p1.input p1.cur "").bind fun x p2 =>
  (p2.next_expect .end_element).bind fun _ p3 =>
  .ok x p3

/-- The specialisation `fromXML<std::string>`: the conversion is the identity. -/
def fromXML_string (p : parser) (name : String) : Result String :=
  fromXML_chars p name

/-- Modelled from the spec: the serializer `xml::serializer` (an external
library) records the events written to it, in order. -/
abbrev serializer := List Event

/-- The specialisation `toXML<std::string>`. -/
def toXML_string (x : String) (s : serializer) (name : String) : serializer :=
  s ++ [.start_element name, .characters x, .end_element]

/-- The generated aggregate `struct note_type`. -/
structure note_type where
  «to» : String
  cc : Option String
  «from» : String
  heading : String
  body : String
  deriving DecidableEq, Repr

/-- The specialisation `toXML<note_type>`. -/
def toXML_note_type (x : note_type) (s : serializer) (name : String) : serializer :=
  let name := if name.isEmpty then "note" else name
  let s := s ++ [.start_element name]
  let s := toXML_string x.«to» s "to"
  let s := match x.cc with
    | some c => toXML_string c s "cc"
    | none => s
  let s := toXML_string x.«from» s "from"
  let s := toXML_string x.heading s "heading"
  let s := toXML_string x.body s "body"
  s ++ [.end_element]

/-- The specialisation `fromXML<note_type>`. The test
`auto e = p.peek() != start_element` yields `true`, printed as `1`. -/
def fromXML_note_type (p : parser) (name : String) : Result note_type :=
  let name := if name.isEmpty then "note" else name
  (p.next_expect .start_element).bind fun _ p =>
  if p.name != name then
    .error (.runtime_error ("expected " ++ name ++ ". Got " ++ p.name))
  else
  (munchSpace p).bind fun _ p =>
  (fromXML_string p "to").bind fun t p =>
  (munchSpace p).bind fun _ p =>
  if (p.peek).1 != .start_element then
    .error (.runtime_error "Expected start element. Got 1")
  else
  let p := (p.peek).2
  (if p.name == "cc" then
      (fromXML_string p "cc").bind fun c p => .ok (some c) p
    else .ok none p).bind fun cc p =>
  (munchSpace p).bind fun _ p =>
  (fromXML_string p "from").bind fun frm p =>
  (munchSpace p).bind fun _ p =>
  (fromXML_string p "heading").bind fun heading p =>
  (munchSpace p).bind fun _ p =>
  (fromXML_string p "body").bind fun body p =>
  (munchSpace p).bind fun _ p =>
  (p.next_expect .end_element).bind fun _ p =>
  .ok { «to» := t, cc := cc, «from» := frm, heading := heading, body := body } p

/-- An event list that does not begin with character data. -/
def noLeadingChars (rest : List Event) : Prop := ∀ s r, rest ≠ Event.characters s :: r

/-! ## The other builtin specialisations of `note.h` -/

/-- The conversion `std::stoi(x)` (base 10): skip leading whitespace, read an
optional sign and the longest run of decimal digits; `invalid_argument` when
there is no digit, `out_of_range` when the value does not fit a 32-bit `int`. -/
def stoi (x : String) : Except XmlError Int :=
  let cs := x.data.dropWhile isspace
  let signed : Bool × List Char :=
    match cs with
    | '-' :: r => (true, r)
    | '+' :: r => (false, r)
    | _ => (false, cs)
  let ds := signed.2.takeWhile Char.isDigit
  if ds.isEmpty then .error .invalid_argument
  else
    let n : Nat := ds.foldl (fun a c => 10 * a + (c.toNat - '0'.toNat)) 0
    let v : Int := if signed.1 then -(n : Int) else (n : Int)
    if v < -2147483648 ∨ 2147483647 < v then .error .out_of_range else .ok v

/-- Conversion of an `int` to the return type `signed char` (modulo 2^8). -/
def toSignedChar (v : Int) : Int := (v + 128) % 256 - 128

/-- The specialisation `fromXML<int>`. -/
def fromXML_int (p : parser) (name : String) : Result Int :=
  (fromXML_chars p name).bind fun x p =>
  match stoi x with
  | .ok v => .ok v p
  | .error e => .error e

/-- The specialisation `fromXML<signed char>`. -/
def fromXML_signed_char (p : parser) (name : String) : Result Int :=
  (fromXML_chars p name).bind fun x p =>
  match stoi x with
  | .ok v => .ok (toSignedChar v) p
  | .error e => .error e

/-- The specialisation `fromXML<bool>`. -/
def fromXML_bool (p : parser) (name : String) : Result Bool :=
  (fromXML_chars p name).bind fun x p => .ok (x == "true") p

/-! ## The type graph (`xmlbind.h`) -/

/-- The four builtin type classes derived from `builtin_type`. -/
inductive builtin_kind where
  | string_type
  | int_type
  | boolean_type
  | byte_type
  deriving DecidableEq, Repr

/-- The target-language name a builtin type is constructed with. -/
def builtin_kind.name : builtin_kind → String
  | .string_type => "std::string"
  | .int_type => "int"
  | .boolean_type => "bool"
  | .byte_type => "signed char"

/-- The schema name (`xsdName`) a builtin type is constructed with. -/
def builtin_kind.xsdName : builtin_kind → String
  | .string_type => "xs:string"
  | .int_type => "xs:int"
  | .boolean_type => "xs:boolean"
  | .byte_type => "xs:byte"

/-- The non-owning reference `type_base&` held by a data member. `path` locates
the referenced node: the keys of the member-type maps leading to it from the
global scope. `name` is the referenced node's `name`, which never changes after
construction. -/
structure type_ref where
  path : List String
  name : String
  deriving DecidableEq, Repr

/-- The dynamic class of a data member: `data_member` (exactly one occurrence),
`optional_data_member` or `multiple_data_member`. -/
inductive member_kind where
  | required
  | optional
  | multiple
  deriving DecidableEq, Repr

/-- A data member: its dynamic class, its name and the type it refers to. -/
structure data_member where
  kind : member_kind
  name : String
  type : type_ref
  deriving DecidableEq, Repr

/-- A node of the type graph below the global scope: a builtin type, or a
`complex_type` with its own `scope` (`memberTypes`, a map kept in key order, and
`dataMembers`). -/
inductive type_base where
  | builtin (k : builtin_kind)
  | complex_type (name : String) (containingElementName : String) (anonymous : Bool)
      (memberTypes : List (String × type_base)) (dataMembers : List data_member)
  deriving Repr

/-- The member `name` of a node. -/
def type_base.name : type_base → String
  | .builtin k => k.name
  | .complex_type n _ _ _ _ => n

/-- The base `scope` of a complex type: the member types it owns, as a map kept
in key order, and its data members in order of insertion. -/
structure scope where
  memberTypes : List (String × type_base)
  dataMembers : List data_member
  deriving Repr

/-- The root of the type graph: a `global_scope` is a complex type of which only
the `scope` part is ever read. -/
abbrev global_scope := scope

/-! ## The deserializer generated for a complex type (`struct_formatter.h`) -/

/-- Values of the generated types: the four builtin representations, the
wrappers `std::optional` and `std::vector`, and a generated aggregate given by
its fields in declaration order. -/
inductive Value where
  | string (s : String)
  | int (i : Int)
  | bool (b : Bool)
  | signed_char (i : Int)
  | optional (v : Option Value)
  | vector (vs : List Value)
  | struct (fields : List (String × Value))
  deriving Repr

/-- The meaning of the call `fromXML<T>(p, name)` in generated code: the
specialisation is selected by the target name `T`. -/
abbrev Deserializers := String → parser → String → Result Value

/-- The builtin specialisations, selected by target name. For any other name no
definition of the primary template exists (modelled as no return). -/
def fromXML_builtin : Deserializers := fun T p name =>
  if T = "std::string" then (fromXML_string p name).bind fun x p => .ok (.string x) p
  else if T = "int" then (fromXML_int p name).bind fun x p => .ok (.int x) p
  else if T = "bool" then (fromXML_bool p name).bind fun x p => .ok (.bool x) p
  else if T = "signed char" then
    (fromXML_signed_char p name).bind fun x p => .ok (.signed_char x) p
  else .diverge

/-- The statement emitted by `data_member_formatter::generateDeserializer`:
`result.m = fromXML<T>(p, "m");`. The value returned is the one assigned. -/
def deserialize_required (d : Deserializers) (dm : data_member) (p : parser) :
    Result Value :=
  d dm.type.name p dm.name

/-- The statements emitted by `optional_data_member_formatter::generateDeserializer`:
throw unless the next event is a start tag; assign the field when the tag is
named `m`, otherwise leave it absent. -/
def deserialize_optional (d : Deserializers) (dm : data_member) (p : parser) :
    Result Value :=
  if (p.peek).1 != .start_element then
    .error (.runtime_error "Expected start element. Got 1")
  else
    let p := (p.peek).2
    if p.name == dm.name then
      (deserialize_required d dm p).bind fun v p => .ok (.optional (some v)) p
    else .ok (.optional none) p

/-- The loop emitted by `multiple_data_member_formatter::generateDeserializer`:
`while (p.peek() == start_element && p.name() == "m") result.m.push_back(...)`.
The first argument bounds the number of iterations; `acc` is `result.m`. -/
def deserialize_multiple_loop (d : Deserializers) (dm : data_member) :
    Nat → parser → List Value → Result Value
  | 0, _, _ => .diverge
  | fuel + 1, p, acc =>
    if (p.peek).1 == .start_element && (p.peek).2.name == dm.name then
      (d dm.type.name (p.peek).2 dm.name).bind fun v p =>
        deserialize_multiple_loop d dm fuel p (acc ++ [v])
    else .ok (.vector acc) (p.peek).2

/-- The loop for a repeated member. Every call of a generated `fromXML` consumes
at least one event, so `input.length + 1` iterations are never exceeded. -/
def deserialize_multiple (d : Deserializers) (dm : data_member) (p : parser) :
    Result Value :=
  deserialize_multiple_loop d dm (p.input.length + 1) p []

/-- The formatter chosen by `dmFormatter` for the member's dynamic class. -/
def deserialize_member (d : Deserializers) (dm : data_member) (p : parser) :
    Result Value :=
  match dm.kind with
  | .required => deserialize_required d dm p
  | .optional => deserialize_optional d dm p
  | .multiple => deserialize_multiple d dm p

/-- The loop of `generate_deserializer` over `ct.dataMembers`: `munchSpace(p);`
followed by the member's statements. Each statement sets only its own field of
`result`; the fields are collected in member order. -/
def deserialize_members (d : Deserializers) :
    List data_member → parser → Result (List (String × Value))
  | [], p => .ok [] p
  | dm :: dms, p =>
    (munchSpace p).bind fun _ p =>
    (deserialize_member d dm p).bind fun v p =>
    (deserialize_members d dms p).bind fun vs p =>
    .ok ((dm.name, v) :: vs) p

/-- The part of a generated deserializer that follows the check of the opening
tag, for the members still to be read: the member statements, then
`munchSpace(p); p.next_expect(end_element); return result;`. -/
def deserialize_tail (d : Deserializers) (dms : List data_member) (p : parser) :
    Result (List (String × Value)) :=
  (deserialize_members d dms p).bind fun fields p =>
  (munchSpace p).bind fun _ p =>
  (p.next_expect .end_element).bind fun _ p =>
  .ok fields p

/-- The tag name a generated (de)serializer works with: the line
`if(name.empty()) name = "<containingElementName>";` is emitted when
`!ct.anonymous`. -/
def effective_name (containingElementName : String) (anonymous : Bool) (name : String) :
    String :=
  if !anonymous && name.isEmpty then containingElementName else name

/-- The function emitted by `struct_formatter<complex_type>::generate_deserializer`
for a complex type with the given `containingElementName`, `anonymous` flag and
data members. -/
def fromXML_complex (d : Deserializers) (containingElementName : String)
    (anonymous : Bool) (dataMembers : List data_member) (p : parser) (name : String) :
    Result Value :=
  let name := effective_name containingElementName anonymous name
  (p.next_expect .start_element).bind fun _ p =>
  if p.name != name then
    .error (.runtime_error ("expected " ++ name ++ ". Got " ++ p.name))
  else
  (deserialize_tail d dataMembers p).bind fun fields p =>
  .ok (.struct fields) p

/-- The data members that ingestion builds for the complex type of the schema of
`note.h`. -/
def note_members : List data_member :=
  [ ⟨.required, "to", ⟨["xs:string"], "std::string"⟩⟩,
    ⟨.optional, "cc", ⟨["xs:string"], "std::string"⟩⟩,
    ⟨.required, "from", ⟨["xs:string"], "std::string"⟩⟩,
    ⟨.required, "heading", ⟨["xs:string"], "std::string"⟩⟩,
    ⟨.required, "body", ⟨["xs:string"], "std::string"⟩⟩ ]

/-- A `note_type` value as a generic aggregate value. -/
def note_type.toValue (v : note_type) : Value :=
  .struct [("to", .string v.«to»), ("cc", .optional (v.cc.map Value.string)),
    ("from", .string v.«from»), ("heading", .string v.heading), ("body", .string v.body)]

/-- The events `seg` form one element tagged `m` that `fromXML<T>(p, "m")` reads
as the value `v`, whatever follows the element. -/
def reads_element (d : Deserializers) (T m : String) (seg : List Event) (v : Value) :
    Prop :=
  (∃ body, seg = Event.start_element m :: body) ∧
  ∀ rest c, ∃ c', d T ⟨seg ++ rest, c⟩ m = .ok v ⟨rest, c'⟩

/-! ## Schema ingestion (`xmlbind.h`, `xsd2cpp.h`) -/

/-- The ordering `std::less<std::string>`: lexicographic on character codes. -/
def lexLess : List Char → List Char → Bool
  | [], [] => false
  | [], _ :: _ => true
  | _ :: _, [] => false
  | a :: as, b :: bs =>
    if a.toNat < b.toNat then true
    else if b.toNat < a.toNat then false
    else lexLess as bs

/-- The key comparison of the `memberTypes` map. -/
def string_less (a b : String) : Bool := lexLess a.data b.data

/-- The lookup `memberTypes.find(key)`. -/
def map_find : List (String × type_base) → String → Option type_base
  | [], _ => none
  | (k, t) :: rest, key => if k = key then some t else map_find rest key

/-- The place of a new entry in a map kept in key order: in front of the first
entry with a greater key. -/
def ordered_insert : List (String × type_base) → String → type_base →
    List (String × type_base)
  | [], key, t => [(key, t)]
  | (k, v) :: rest, key, t =>
    if string_less key k then (key, t) :: (k, v) :: rest
    else (k, v) :: ordered_insert rest key t

/-- The call `memberTypes.insert(pair(key, t))`: when the key is already bound the
map is left unchanged, otherwise the new entry is put at its place in key order.
The flag tells whether the insertion took place. -/
def map_insert (m : List (String × type_base)) (key : String) (t : type_base) :
    List (String × type_base) × Bool :=
  match map_find m key with
  | some _ => (m, false)
  | none => (ordered_insert m key t, true)

/-- The assignment `memberTypes[key] = t`: insert or overwrite. -/
def map_assign : List (String × type_base) → String → type_base →
    List (String × type_base)
  | [], key, t => [(key, t)]
  | (k, v) :: rest, key, t =>
    if k = key then (k, t) :: rest
    else if string_less key k then (key, t) :: (k, v) :: rest
    else (k, v) :: map_assign rest key t

/-- The typelist `builtin_types`: the members of `all_types` that derive from
`builtin_type`, in the order of `all_types`. -/
def builtin_types : List builtin_kind :=
  [.string_type, .int_type, .byte_type, .boolean_type]

/-- The constructor `global_scope::global_scope()`: `populate` binds every builtin
type under its schema name. -/
def global_scope.new : global_scope :=
  { memberTypes := builtin_types.foldl
      (fun m k => map_assign m k.xsdName (.builtin k)) [],
    dataMembers := [] }

/-- One event of a schema document, as delivered by the parser to the ingestion
loop; a start tag carries its attribute map. -/
inductive SchemaEvent where
  | start_element (name : String) (attributes : List (String × String))
  | end_element
  | characters (value : String)
  deriving DecidableEq, Repr

/-- Modelled from the spec: `attribute_present(key)`. -/
def attribute_present (attrs : List (String × String)) (key : String) : Bool :=
  (attrs.lookup key).isSome

/-- Modelled from the spec: conversion of an attribute value to `int`; the whole
value has to be a decimal numeral with optional sign that fits an `int`. -/
def parse_int (s : String) : Option Int :=
  let cs := s.data.dropWhile isspace
  let signed : Bool × List Char :=
    match cs with
    | '-' :: r => (true, r)
    | '+' :: r => (false, r)
    | _ => (false, cs)
  if signed.2.isEmpty || !signed.2.all Char.isDigit then none
  else
    let n : Nat := signed.2.foldl (fun a c => 10 * a + (c.toNat - '0'.toNat)) 0
    let v : Int := if signed.1 then -(n : Int) else (n : Int)
    if v < -2147483648 ∨ 2147483647 < v then none else some v

/-- Ways in which ingestion leaves defined behaviour. -/
inductive Undefined where
  /-- The function `findType` reached its end without a `return`. -/
  | findType_no_return (name : String)
  /-- The call `makers.find(name)->second` with `name` not in `makers`. -/
  | unknown_element (name : String)
  /-- The call `cur_element()` (or `pop`) on an empty `elementStack`. -/
  | empty_element_stack
  /-- A use of a scope whose `complex_type` has been destroyed. -/
  | dangling_scope
  /-- A use of `top()` or `back()` on an empty stack. -/
  | empty_stack
  deriving DecidableEq, Repr

/-- Exceptions thrown during ingestion (all come from the parser). -/
inductive IngestError where
  /-- The call `attribute(key)` without default on a missing attribute. -/
  | missing_attribute (key : String)
  /-- An attribute value that cannot be converted to `int`. -/
  | bad_attribute_value (key : String) (value : String)
  deriving DecidableEq, Repr

/-- Outcome of a step of ingestion. -/
inductive Outcome (α : Type) where
  | ok (a : α)
  | thrown (e : IngestError)
  | undefined (u : Undefined)
  deriving Repr

/-- Sequencing of ingestion steps. -/
def Outcome.bind {α β : Type} (r : Outcome α) (f : α → Outcome β) : Outcome β :=
  match r with
  | .ok a => f a
  | .thrown e => .thrown e
  | .undefined u => .undefined u

/-- Modelled from the spec: `attribute<int>(key, default)`. -/
def attribute_int (attrs : List (String × String)) (key : String) (dflt : Int) :
    Outcome Int :=
  match attrs.lookup key with
  | none => .ok dflt
  | some v =>
    match parse_int v with
    | some n => .ok n
    | none => .thrown (.bad_attribute_value key v)

/-- The data of an `element_elt` handler, fixed at construction. -/
structure element_elt where
  name : String
  typeName : String
  multiple : Bool
  optional : Bool
  deriving DecidableEq, Repr

/-- The member function `element_elt::defaultTypeName`. -/
def element_elt.defaultTypeName (name : String) : String := name ++ "_type"

/-- The member initialisers of `element_elt`, in declaration order. -/
def element_elt.init (attrs : List (String × String)) : Outcome element_elt :=
  match attrs.lookup "name" with
  | none => .thrown (.missing_attribute "name")
  | some name =>
    let typeName := (attrs.lookup "type").getD (element_elt.defaultTypeName name)
    let multiple : Outcome Bool :=
      if attribute_present attrs "maxOccurs" then
        if (attrs.lookup "maxOccurs").getD "" = "unbounded" then .ok true
        else (attribute_int attrs "maxOccurs" 0).bind fun n => .ok (decide (1 < n))
      else .ok false
    multiple.bind fun multiple =>
    let optional : Outcome Bool :=
      if multiple then .ok false
      else (attribute_int attrs "minOccurs" 1).bind fun mn =>
        if mn = 0 then (attribute_int attrs "maxOccurs" 1).bind fun mx => .ok (decide (mx = 1))
        else .ok false
    optional.bind fun optional =>
    .ok { name := name, typeName := typeName, multiple := multiple, optional := optional }

/-- The handler objects held by `eventProcessors`. -/
inductive elt where
  | event_processor
  | schema_elt
  | element_elt (e : XmlBind.element_elt)
  | sequence_elt
  | complex_type_elt
  deriving DecidableEq, Repr

/-- An entry of `scopeStack`: a reference to the scope of the node found at
`path` (keys from the global scope, `[]` for the global scope itself), or a
reference whose scope no longer exists. -/
inductive scope_ref where
  | at (path : List String)
  | dangling
  deriving DecidableEq, Repr

/-- The scope found by following `path` from a scope. -/
def scope_at : List String → scope → Option scope
  | [], s => some s
  | k :: ks, s =>
    match map_find s.memberTypes k with
    | some (.complex_type _ _ _ mts dms) => scope_at ks ⟨mts, dms⟩
    | _ => none

/-- Replace the scope found by following `path` by its image under `f`. -/
def scope_update (f : scope → scope) : List String → scope → scope
  | [], s => f s
  | k :: ks, s =>
    { s with memberTypes := s.memberTypes.map fun kt =>
        if kt.1 = k then
          match kt.2 with
          | .complex_type n c a mts dms =>
            (kt.1, .complex_type n c a (scope_update f ks ⟨mts, dms⟩).memberTypes
              (scope_update f ks ⟨mts, dms⟩).dataMembers)
          | .builtin b => (kt.1, .builtin b)
        else kt }

/-- The state of ingestion: the graph under construction and the three
process-wide stacks (top first). -/
structure ingest_state where
  global : global_scope
  scopeStack : List scope_ref
  elementStack : List element_elt
  eventProcessors : List elt
  deriving Repr

/-- The search loop of `findType`, from the innermost scope outwards. -/
def findType_loop (g : global_scope) : List scope_ref → String → Outcome type_ref
  | [], name => .undefined (.findType_no_return name)
  | .dangling :: _, _ => .undefined .dangling_scope
  | .at path :: rest, name =>
    match scope_at path g with
    | none => .undefined .dangling_scope
    | some s =>
      match map_find s.memberTypes name with
      | some t => .ok ⟨path ++ [name], t.name⟩
      | none => findType_loop g rest name

/-- The function `findType(name)`; after the loop there is no `return`
("Todo: Handle error"). -/
def findType (st : ingest_state) (name : String) : Outcome type_ref :=
  findType_loop st.global st.scopeStack name

/-- The constructor `element_elt::element_elt`: the member initialisers, then
`elementStack.push(*this)`. -/
def element_elt.construct (st : ingest_state) (attrs : List (String × String)) :
    Outcome ingest_state :=
  (element_elt.init attrs).bind fun e =>
  .ok { st with elementStack := e :: st.elementStack,
                eventProcessors := .element_elt e :: st.eventProcessors }

/-- The dynamic class of the member that `~element_elt` creates. -/
def element_elt.kind (e : element_elt) : member_kind :=
  if e.optional then .optional else if e.multiple then .multiple else .required

/-- The destructor `element_elt::~element_elt`. -/
def element_elt.destruct (st : ingest_state) (e : element_elt) : Outcome ingest_state :=
  (findType st e.typeName).bind fun t =>
  let newDM : data_member := ⟨e.kind, e.name, t⟩
  match st.scopeStack with
  | [] => .undefined .empty_stack
  | .dangling :: _ => .undefined .dangling_scope
  | .at path :: _ =>
    match st.elementStack with
    | [] => .undefined .empty_element_stack
    | _ :: es =>
      .ok { st with
        global := scope_update (fun s => { s with dataMembers := s.dataMembers ++ [newDM] })
          path st.global,
        elementStack := es }

/-- The constructor `complex_type::complex_type(parser& p)`, with `e` the element
on top of `elementStack`: the name is the attribute `name` or else
`cur_element().defaultTypeName()`, `containingElementName` is `cur_element().name`,
and `anonymous` is initialised with `p.attribute_present("name")`. -/
def complex_type.new (e : element_elt) (attrs : List (String × String)) : type_base :=
  .complex_type ((attrs.lookup "name").getD (element_elt.defaultTypeName e.name)) e.name
    (attribute_present attrs "name") [] []

/-- The constructor `complex_type_elt::complex_type_elt`. The default argument
`cur_element().defaultTypeName()` of the `complex_type` constructor is evaluated
whether or not the attribute `name` is present. -/
def complex_type_elt.construct (st : ingest_state) (attrs : List (String × String)) :
    Outcome ingest_state :=
  match st.elementStack with
  | [] => .undefined .empty_element_stack
  | e :: _ =>
    let name := (attrs.lookup "name").getD (element_elt.defaultTypeName e.name)
    let newType : type_base := complex_type.new e attrs
    match st.scopeStack with
    | [] => .undefined .empty_stack
    | .dangling :: _ => .undefined .dangling_scope
    | .at path :: _ =>
      match scope_at path st.global with
      | none => .undefined .dangling_scope
      | some s =>
        if (map_insert s.memberTypes name newType).2 then
          .ok { st with
            global := scope_update
              (fun s => { s with memberTypes := (map_insert s.memberTypes name newType).1 })
              path st.global,
            scopeStack := .at (path ++ [name]) :: st.scopeStack,
            eventProcessors := .complex_type_elt :: st.eventProcessors }
        else
          .ok { st with
            scopeStack := .dangling :: st.scopeStack,
            eventProcessors := .complex_type_elt :: st.eventProcessors }

/-- The function `elt_from_name` followed by the push onto `eventProcessors`
(`afterProcess` for a start tag). -/
def afterProcess_start (st : ingest_state) (name : String)
    (attrs : List (String × String)) : Outcome ingest_state :=
  if name = "schema" then .ok { st with eventProcessors := .schema_elt :: st.eventProcessors }
  else if name = "element" then element_elt.construct st attrs
  else if name = "sequence" then
    .ok { st with eventProcessors := .sequence_elt :: st.eventProcessors }
  else if name = "complexType" then complex_type_elt.construct st attrs
  else .undefined (.unknown_element name)

/-- The call `eventProcessors.pop()` (`afterProcess` for an end tag), which runs
the destructor of the handler on top. -/
def afterProcess_end (st : ingest_state) : Outcome ingest_state :=
  match st.eventProcessors with
  | [] => .undefined .empty_stack
  | top :: rest =>
    let st := { st with eventProcessors := rest }
    match top with
    | .element_elt e => element_elt.destruct st e
    | .complex_type_elt =>
      match st.scopeStack with
      | [] => .undefined .empty_stack
      | _ :: ss => .ok { st with scopeStack := ss }
    | _ => .ok st

/-- The call `eventProcessors.top()->process(e)`: `doProcess` does nothing,
`afterProcess` acts on start and end tags. -/
def process (st : ingest_state) (e : SchemaEvent) : Outcome ingest_state :=
  match st.eventProcessors with
  | [] => .undefined .empty_stack
  | _ :: _ =>
    match e with
    | .start_element name attrs => afterProcess_start st name attrs
    | .end_element => afterProcess_end st
    | .characters _ => .ok st

/-- The loop `for (parser::event_type e : p)` of `inhaleSchema`. -/
def process_all : ingest_state → List SchemaEvent → Outcome ingest_state
  | st, [] => .ok st
  | st, e :: es => (process st e).bind fun st => process_all st es

/-- The state in which the loop of `inhaleSchema` starts, given the contents of
the process-wide stacks on entry: a new global scope, a reference to it pushed on
`scopeStack`, and a base `event_processor` pushed on `eventProcessors`. -/
def inhaleSchema_start (scopeStack : List scope_ref) (elementStack : List element_elt)
    (eventProcessors : List elt) : ingest_state :=
  { global := global_scope.new,
    scopeStack := .at [] :: scopeStack,
    elementStack := elementStack,
    eventProcessors := .event_processor :: eventProcessors }

/-- The function `inhaleSchema` in a fresh process (all stacks empty), on the
events of the schema document; the final state holds the returned graph. -/
def inhaleSchema (events : List SchemaEvent) : Outcome ingest_state :=
  process_all (inhaleSchema_start [] [] []) events

/-- The events of the schema
`<schema><element name="note"><complexType><sequence>
<element name="to" type="xs:string"/><element name="cc" type="xs:string" minOccurs="0"/>
<element name="from" type="xs:string"/></sequence></complexType></element></schema>`. -/
def note_schema : List SchemaEvent :=
  [ .start_element "schema" [],
    .start_element "element" [("name", "note")],
    .start_element "complexType" [],
    .start_element "sequence" [],
    .start_element "element" [("name", "to"), ("type", "xs:string")],
    .end_element,
    .start_element "element" [("name", "cc"), ("type", "xs:string"), ("minOccurs", "0")],
    .end_element,
    .start_element "element" [("name", "from"), ("type", "xs:string")],
    .end_element,
    .end_element,
    .end_element,
    .end_element,
    .end_element ]

/-! ## Output streams and the emitters (`struct_formatter.h`, `serializer_decl_formatter.h`) -/

/-- What is written to an output stream: text, or one of the manipulators
`indent` and `unindent`. -/
inductive Tok where
  | text (s : String)
  | indent
  | unindent
  deriving DecidableEq, Repr

/-- An output stream, as the sequence of what has been written to it. -/
abbrev ostream := List Tok

/-- Modelled from the spec: the state of the indentation decorator
(`IndentStreamBuf`, whose declaration is not part of the sources): the characters
passed on, the current indent and whether the next character starts a line. -/
structure IndentStreamBuf where
  out : List Char
  myIndent : Int
  isLineStart : Bool
  deriving Repr

/-- Modelled from the spec: a character written through the decorator; the
indent is applied to the first character of a line. -/
def IndentStreamBuf.put (b : IndentStreamBuf) (c : Char) : IndentStreamBuf :=
  if c = '\n' then { b with out := b.out ++ [c], isLineStart := true }
  else if b.isLineStart then
    { b with out := b.out ++ List.replicate b.myIndent.toNat ' ' ++ [c], isLineStart := false }
  else { b with out := b.out ++ [c] }

/-- One write through the decorator; `indent` and `unindent` change the indent
by 4 (`IndentStream.cpp`). -/
def IndentStreamBuf.write (b : IndentStreamBuf) : Tok → IndentStreamBuf
  | .text s => s.data.foldl IndentStreamBuf.put b
  | .indent => { b with myIndent := b.myIndent + 4 }
  | .unindent => { b with myIndent := b.myIndent - 4 }

/-- The text that reaches the wrapped stream. -/
def render (os : ostream) : String :=
  ⟨(os.foldl IndentStreamBuf.write ⟨[], 0, true⟩).out⟩

/-- The function `deserializer_specialization`. -/
def deserializer_specialization (name : String) : String :=
  "template<>\n" ++ name ++ " fromXML<" ++ name ++ ">(xml::parser &p, std::string name)"

/-- The function `serializer_specialization`. -/
def serializer_specialization (name : String) : String :=
  "template<>\nvoid toXML<" ++ name ++ ">(" ++ name
    ++ " const& x, xml::serializer &s, std::string name)"

/-- The virtual function `typeName` of the three member formatters. -/
def typeName (dm : data_member) : String :=
  match dm.kind with
  | .required => dm.type.name
  | .optional => "std::optional<" ++ dm.type.name ++ ">"
  | .multiple => "std::vector<" ++ dm.type.name ++ ">"

/-- The virtual function `generateSerializer` of the three member formatters. -/
def generateSerializer (dm : data_member) : ostream :=
  match dm.kind with
  | .required => [.text ("toXML(x." ++ dm.name ++ ", s, \"" ++ dm.name ++ "\");\n")]
  | .optional =>
    [.text ("if (x." ++ dm.name ++ ")\n    toXML(x." ++ dm.name ++ ".value(), s, \""
      ++ dm.name ++ "\");\n")]
  | .multiple =>
    [.text ("for (auto const &m : x." ++ dm.name ++ ")\n    toXML(m, s, \"" ++ dm.name
      ++ "\");\n")]

/-- The statement written by `data_member_formatter::generateDeserializer`. -/
def generateDeserializer_required (dm : data_member) : ostream :=
  [.text ("result." ++ dm.name ++ " = fromXML<" ++ dm.type.name ++ ">(p, \"" ++ dm.name
    ++ "\");\n")]

/-- The virtual function `generateDeserializer` of the three member formatters. -/
def generateDeserializer (dm : data_member) : ostream :=
  match dm.kind with
  | .required => generateDeserializer_required dm
  | .optional =>
    [.text ("if (auto e = p.peek() != xml::parser::start_element) \x7b\n"
        ++ "    std::ostringstream error; // Use stream to leverage << for event_types\n"
        ++ "    error << \"Expected start element. Got \" << e;\n"
        ++ "    throw std::runtime_error(error.str());\n"
        ++ "\x7d\n"
        ++ "if(p.name() == \"" ++ dm.name ++ "\") \x7b \n"),
      .indent] ++ generateDeserializer_required dm ++ [.unindent, .text "\x7d\n"]
  | .multiple =>
    [.text ("while (p.peek() == xml::parser::start_element && p.name() == \"" ++ dm.name
      ++ "\") \x7b\n    result." ++ dm.name ++ ".push_back(fromXML<" ++ dm.type.name
      ++ ">(p, \"" ++ dm.name ++ "\"));\n\x7d\n")]

/-- The function `struct_formatter<complex_type>::generate_begin`. -/
def generate_begin (name : String) : ostream :=
  [.text ("struct " ++ name ++ " \x7b\n"), .indent]

/-- The function `struct_formatter<complex_type>::generate_data_members`: one
field declaration per data member, in order. -/
def generate_data_members (dms : List data_member) : ostream :=
  dms.map fun dm => .text (typeName dm ++ " " ++ dm.name ++ ";\n")

/-- The function `struct_formatter<complex_type>::generate_end`. -/
def generate_end : ostream := [.unindent, .text "\x7d;\n\n"]

/-- The line giving the default tag name, written when `!ct.anonymous`. -/
def default_name_line (containingElementName : String) (anonymous : Bool) : ostream :=
  if !anonymous then
    [.text ("if(name.empty()) name = \"" ++ containingElementName ++ "\";\n")]
  else []

/-- The function `struct_formatter<complex_type>::generate_serializer`. -/
def generate_serializer (name containingElementName : String) (anonymous : Bool)
    (dms : List data_member) : ostream :=
  [.text (serializer_specialization name ++ " \x7b\n"), .indent]
  ++ default_name_line containingElementName anonymous
  ++ [.text "s.start_element(name);\n"]
  ++ (dms.map generateSerializer).flatten
  ++ [.text "s.end_element();\n", .unindent, .text "\x7d\n"]

/-- The function `struct_formatter<complex_type>::generate_deserializer`. -/
def generate_deserializer (name containingElementName : String) (anonymous : Bool)
    (dms : List data_member) : ostream :=
  [.text (deserializer_specialization name ++ " \x7b\n"), .indent]
  ++ default_name_line containingElementName anonymous
  ++ [.text (name ++ " result;\np.next_expect(xml::parser::start_element);\n"
      ++ "if(p.name() != name)\n"
      ++ "    throw std::runtime_error(\"expected \" + name + \". Got \" + p.name());\n")]
  ++ (dms.map fun dm => [Tok.text "munchSpace(p);\n"] ++ generateDeserializer dm).flatten
  ++ [.text "munchSpace(p);\np.next_expect(xml::parser::end_element);\nreturn result;\n",
      .unindent, .text "\x7d\n\n"]

/-- The virtual function `xToChars` of the builtin formatters. -/
def xToChars : builtin_kind → String
  | .string_type => "x"
  | .int_type => "std::to_string(x)"
  | .boolean_type => "x ? \"true\" : \"false\""
  | .byte_type => "std::to_string(x)"

/-- The virtual function `charsToX` of the builtin formatters. -/
def charsToX : builtin_kind → String
  | .string_type => "x"
  | .int_type => "std::stoi(x)"
  | .boolean_type => "x == \"true\"? true : false"
  | .byte_type => "std::stoi(x)"

/-- The function `struct_formatter<builtin_type>::generate_serializer`. -/
def builtin_generate_serializer (k : builtin_kind) : ostream :=
  [.text (serializer_specialization k.name ++ " \x7b\n"), .indent,
   .text ("s.start_element(name);\ns.characters(" ++ xToChars k ++ "),\ns.end_element();\n"),
   .unindent, .text "\x7d\n"]

/-- The function `struct_formatter<builtin_type>::generate_deserializer`. -/
def builtin_generate_deserializer (k : builtin_kind) : ostream :=
  [.text ("template<>\n" ++ k.name ++ " fromXML<" ++ k.name
      ++ ">(xml::parser &p, std::string name) \x7b\n"),
   .indent,
   .text ("p.next_expect(xml::parser::start_element);\nstd::string x;\n"
      ++ "while(p.peek() == xml::parser::characters) \x7b\n    p.next();\n"
      ++ "    x += p.value();\n\x7d\np.next_expect(xml::parser::end_element);\nreturn "
      ++ charsToX k ++ ";        \n"),
   .unindent, .text "\x7d\n\n"]

/-- The two streams the struct-style family writes to: `f.os` and the static
stream `cachedDeserializers`. -/
structure out_state where
  os : ostream
  cache : ostream
  deriving Repr

mutual
/-- The dispatch `accept(formatter_visitor(f))` with the struct-style factory: for
a complex type `struct_formatter<complex_type>::generate` (the struct goes to
`f.os`, serializer and deserializer to the cache), for a builtin type `doGenerate`
(deserializer and serializer to the cache). -/
def struct_generate : type_base → out_state → out_state
  | .builtin k, f =>
    { f with cache := f.cache ++ builtin_generate_deserializer k
        ++ builtin_generate_serializer k }
  | .complex_type name cen anonymous mts dms, f =>
    let f1 : out_state := { f with os := f.os ++ generate_begin name }
    let f2 := struct_generate_member_types mts f1
    let f3 : out_state := { f2 with os := f2.os ++ generate_data_members dms ++ generate_end }
    { f3 with cache := f3.cache ++ generate_serializer name cen anonymous dms
        ++ generate_deserializer name cen anonymous dms }
/-- The function `struct_formatter<complex_type>::generate_member_types`: the
member types in key order. -/
def struct_generate_member_types : List (String × type_base) → out_state → out_state
  | [], f => f
  | kt :: rest, f => struct_generate_member_types rest (struct_generate kt.2 f)
end

mutual
/-- The dispatch `accept(formatter_visitor(f))` with the declaration-only
factory: the two declarations for the node, then, for a complex type, its member
types. -/
def decl_generate : type_base → ostream → ostream
  | .builtin k, os =>
    os ++ [.text (deserializer_specialization k.name ++ ";\n"),
           .text (serializer_specialization k.name ++ ";\n")]
  | .complex_type name _ _ mts _, os =>
    decl_generate_member_types mts
      (os ++ [.text (deserializer_specialization name ++ ";\n"),
              .text (serializer_specialization name ++ ";\n")])
/-- The function `serializer_decl_formatter<complex_type>::generate_member_types`. -/
def decl_generate_member_types : List (String × type_base) → ostream → ostream
  | [], os => os
  | kt :: rest, os => decl_generate_member_types rest (decl_generate kt.2 os)
end

/-- The text written by `struct_formatter<global_scope>::outputHeader`. -/
def outputHeader : String :=
  "// Generated XML Schema Binding file\n// UChicago MPCS51045\n\n"
  ++ "#include <xml/parser>\n"
  ++ "#include <string>\n"
  ++ "#include <cctype>\n"
  ++ "#include <algorithm>\n"
  ++ "#include <stdexcept>\n"
  ++ "#include <optional>\n"
  ++ "#include <sstream>\n"
  ++ "#include <vector>\n\n"
  ++ "template<typename T>\nT fromXML(xml::parser &p, std::string name = \"\");\n"
  ++ "template<typename T> void\n"
  ++ "toXML(T const &t, xml::serializer& s, std::string name = \"\");\n\n"
  ++ "// skip over whitespace in XML file\nvoid munchSpace(xml::parser &p)\n\x7b\n"
  ++ "    while(p.peek() == p.characters) \x7b\n        p.next();\n"
  ++ "        auto s = p.value();\n"
  ++ "        if(!std::all_of(s.begin(),s.end(),static_cast<int(*)(int)>(std::isspace)))\n"
  ++ "            throw std::runtime_error(\"Unexpected characters: \" + s);\n"
  ++ "    \x7d\n\x7d\n"

/-- The function `struct_formatter<global_scope>::generate`: clear the cached
text, write the header, the member types, the declarations of the whole graph
(declaration-only factory on the global scope), then the cached text. -/
def struct_generate_global (g : global_scope) (f : out_state) : out_state :=
  let f0 : out_state := { f with cache := [] }
  let f1 : out_state := { f0 with os := f0.os ++ [.text outputHeader] }
  let f2 := struct_generate_member_types g.memberTypes f1
  let f3 : out_state := { f2 with os := decl_generate_member_types g.memberTypes f2.os }
  { f3 with os := f3.os ++ [.text "\n\n", .text (render f3.cache)] }

/-- The function `toCPP` with the struct-style factory: the text that reaches
`os`, starting from the given contents of the static cache. -/
def toCPP_struct (g : global_scope) (cache : ostream) : String :=
  render (struct_generate_global g ⟨[], cache⟩).os

mutual
/-- The struct definition of one type, by itself: for a complex type the opening
line, the definitions of its own member types, its field declarations and the
closing line; nothing for a builtin type. -/
def struct_definition : type_base → ostream
  | .builtin _ => []
  | .complex_type name _ _ mts dms =>
    generate_begin name ++ struct_definitions mts ++ generate_data_members dms
      ++ generate_end
/-- The struct definitions of a list of member types, in key order. -/
def struct_definitions : List (String × type_base) → ostream
  | [] => []
  | kt :: rest => struct_definition kt.2 ++ struct_definitions rest
end

mutual
/-- The serializer and deserializer definitions for one type, by themselves, in
the order in which they are cached: those of the member types first. -/
def function_body : type_base → ostream
  | .builtin k => builtin_generate_deserializer k ++ builtin_generate_serializer k
  | .complex_type name cen anonymous mts dms =>
    function_bodies mts ++ generate_serializer name cen anonymous dms
      ++ generate_deserializer name cen anonymous dms
/-- The serializer and deserializer definitions of a list of member types. -/
def function_bodies : List (String × type_base) → ostream
  | [] => []
  | kt :: rest => function_body kt.2 ++ function_bodies rest
end

mutual
/-- The forward declarations for one type, by themselves: its own two
declarations, then those of its member types. -/
def forward_declaration : type_base → ostream
  | .builtin k =>
    [.text (deserializer_specialization k.name ++ ";\n"),
     .text (serializer_specialization k.name ++ ";\n")]
  | .complex_type name _ _ mts _ =>
    [.text (deserializer_specialization name ++ ";\n"),
     .text (serializer_specialization name ++ ";\n")] ++ forward_declarations mts
/-- The forward declarations of a list of member types. -/
def forward_declarations : List (String × type_base) → ostream
  | [] => []
  | kt :: rest => forward_declaration kt.2 ++ forward_declarations rest
end

/-- The graph that ingestion builds for `note_schema`. -/
def note_graph : global_scope :=
  { memberTypes :=
      [ ("note_type", .complex_type "note_type" "note" false []
          [ ⟨.required, "to", ⟨["xs:string"], "std::string"⟩⟩,
            ⟨.optional, "cc", ⟨["xs:string"], "std::string"⟩⟩,
            ⟨.required, "from", ⟨["xs:string"], "std::string"⟩⟩ ]),
        ("xs:boolean", .builtin .boolean_type),
        ("xs:byte", .builtin .byte_type),
        ("xs:int", .builtin .int_type),
        ("xs:string", .builtin .string_type) ],
    dataMembers := [ ⟨.required, "note", ⟨["note_type"], "note_type"⟩⟩ ] }

/-- The events of a schema whose element `a` names a type bound in no scope:
`<schema><element name="a" type="missing"/></schema>`. -/
def unresolved_schema : List SchemaEvent :=
  [ .start_element "schema" [],
    .start_element "element" [("name", "a"), ("type", "missing")],
    .end_element,
    .end_element ]

/-- The events of a schema whose element `a` refers to the type of its sibling
`b`, which is declared later:
`<schema><element name="a" type="b_type"/>
<element name="b"><complexType><sequence/></complexType></element></schema>`. -/
def forward_reference_schema : List SchemaEvent :=
  [ .start_element "schema" [],
    .start_element "element" [("name", "a"), ("type", "b_type")],
    .end_element,
    .start_element "element" [("name", "b")],
    .start_element "complexType" [],
    .start_element "sequence" [],
    .end_element,
    .end_element,
    .end_element,
    .end_element ]

/-- The events of a schema with two sibling elements with unnamed complex types,
in which the type of the second uses the type of the first:
`<schema><element name="z"><complexType><sequence><element name="v" type="xs:string"/>
</sequence></complexType></element><element name="a"><complexType><sequence>
<element name="zz" type="z_type"/></sequence></complexType></element></schema>`. -/
def sibling_schema : List SchemaEvent :=
  [ .start_element "schema" [],
    .start_element "element" [("name", "z")],
    .start_element "complexType" [],
    .start_element "sequence" [],
    .start_element "element" [("name", "v"), ("type", "xs:string")],
    .end_element,
    .end_element,
    .end_element,
    .end_element,
    .start_element "element" [("name", "a")],
    .start_element "complexType" [],
    .start_element "sequence" [],
    .start_element "element" [("name", "zz"), ("type", "z_type")],
    .end_element,
    .end_element,
    .end_element,
    .end_element,
    .end_element ]

/-- The graph that ingestion builds for `sibling_schema`. -/
def sibling_graph : global_scope :=
  { memberTypes :=
      [ ("a_type", .complex_type "a_type" "a" false []
          [ ⟨.required, "zz", ⟨["z_type"], "z_type"⟩⟩ ]),
        ("xs:boolean", .builtin .boolean_type),
        ("xs:byte", .builtin .byte_type),
        ("xs:int", .builtin .int_type),
        ("xs:string", .builtin .string_type),
        ("z_type", .complex_type "z_type" "z" false []
          [ ⟨.required, "v", ⟨["xs:string"], "std::string"⟩⟩ ]) ],
    dataMembers :=
      [ ⟨.required, "z", ⟨["z_type"], "z_type"⟩⟩,
        ⟨.required, "a", ⟨["a_type"], "a_type"⟩⟩ ] }

/-- The field declaration that `generate_data_members` writes for a member. -/
def field_declaration (dm : data_member) : Tok :=
  .text (typeName dm ++ " " ++ dm.name ++ ";\n")

/-- In the stream `os`, every occurrence of the field declaration of `dm` is
preceded by the opening line of the struct named `T`. -/
def defined_before_use (os : ostream) (T : String) (dm : data_member) : Prop :=
  ∀ j, os.get? j = some (field_declaration dm) →
    ∃ i, i < j ∧ os.get? i = some (Tok.text ("struct " ++ T ++ " \x7b\n"))

/-! ## The serializer generated for a complex type (`struct_formatter.h`) -/

/-- The conversion `std::to_string` of an `int`: the decimal numeral, with a
leading `-` for a negative value. -/
def to_string (i : Int) : String :=
  (if i < 0 then "-" else "") ++
    String.mk ((if i.natAbs = 0 then [0] else (Nat.digits 10 i.natAbs).reverse).map
      fun d => Char.ofNat (d + 48))

/-- The meaning of the call `toXML(x, s, name)` in generated code: the
specialisation `toXML<T>` is selected by the static type `T` of `x`; the result
is the serializer after the call, and `none` when `x` is not a value of type
`T` (such a call is not well-typed). -/
abbrev Serializers := String → Value → serializer → String → Option serializer

/-- The body shared by the builtin serializers:
`s.start_element(name); s.characters(...), s.end_element();`. -/
def toXML_chars (text : String) (s : serializer) (name : String) : serializer :=
  s ++ [.start_element name, .characters text, .end_element]

/-- The builtin specialisations of `toXML`, selected by target name. -/
def toXML_builtin : Serializers := fun T x s name =>
  if T = "std::string" then
    match x with
    | .string v => some (toXML_chars v s name)
    | _ => none
  else if T = "int" then
    match x with
    | .int v => some (toXML_chars (to_string v) s name)
    | _ => none
  else if T = "bool" then
    match x with
    | .bool v => some (toXML_chars (if v then "true" else "false") s name)
    | _ => none
  else if T = "signed char" then
    match x with
    | .signed_char v => some (toXML_chars (to_string v) s name)
    | _ => none
  else none

/-- The loop `for (auto const &m : x.n) toXML(m, s, "n");`. -/
def serialize_each (t : Serializers) (T n : String) :
    List Value → serializer → Option serializer
  | [], s => some s
  | v :: vs, s =>
    match t T v s n with
    | some s1 => serialize_each t T n vs s1
    | none => none

/-- The statements written by `generateSerializer` for one member, run on the
value `x` of the member's field. -/
def serialize_member (t : Serializers) (dm : data_member) (x : Value) (s : serializer) :
    Option serializer :=
  match dm.kind with
  | .required => t dm.type.name x s dm.name
  | .optional =>
    match x with
    | .optional (some v) => t dm.type.name v s dm.name
    | .optional none => some s
    | _ => none
  | .multiple =>
    match x with
    | .vector vs => serialize_each t dm.type.name dm.name vs s
    | _ => none

/-- The loop of `generate_serializer` over `ct.dataMembers`; `fields` are the
fields of the aggregate `x`, read by name. -/
def serialize_members (t : Serializers) :
    List data_member → List (String × Value) → serializer → Option serializer
  | [], _, s => some s
  | dm :: dms, fields, s =>
    match fields.lookup dm.name with
    | none => none
    | some x =>
      match serialize_member t dm x s with
      | some s1 => serialize_members t dms fields s1
      | none => none

/-- The function emitted by `struct_formatter<complex_type>::generate_serializer`
for a complex type with the given `containingElementName`, `anonymous` flag and
data members. -/
def toXML_complex (t : Serializers) (containingElementName : String) (anonymous : Bool)
    (dataMembers : List data_member) (x : Value) (s : serializer) (name : String) :
    Option serializer :=
  match x with
  | .struct fields =>
    let name := effective_name containingElementName anonymous name
    match serialize_members t dataMembers fields (s ++ [.start_element name]) with
    | some s1 => some (s1 ++ [.end_element])
    | none => none
  | _ => none

/-- The call `toXML<T>(v, s, n)` appends the events `elem`, which form one element
tagged `n`, whatever has been written before. -/
def writes_element (t : Serializers) (T n : String) (v : Value) (elem : List Event) :
    Prop :=
  (∃ body, elem = Event.start_element n :: body) ∧ ∀ s, t T v s n = some (s ++ elem)

/-- What a member contributes to the output, by its kind: a Required member one
element tagged with its name; an Optional member one such element when the value
is present and nothing when it is absent; a Repeated member one such element
per entry, in sequence order. -/
inductive member_written (t : Serializers) (dm : data_member) : Value → List Event → Prop
  | required (v : Value) (elem : List Event) :
      dm.kind = .required → writes_element t dm.type.name dm.name v elem →
      member_written t dm v elem
  | absent : dm.kind = .optional → member_written t dm (.optional none) []
  | present (v : Value) (elem : List Event) :
      dm.kind = .optional → writes_element t dm.type.name dm.name v elem →
      member_written t dm (.optional (some v)) elem
  | repeated (vs : List Value) (elems : List (List Event)) :
      dm.kind = .multiple →
      List.Forall₂ (writes_element t dm.type.name dm.name) vs elems →
      member_written t dm (.vector vs) elems.flatten

/-- The attribute `maxOccurs` is "unbounded" or converts to an integer greater
than 1. -/
def maxOccurs_many (attrs : List (String × String)) : Prop :=
  attrs.lookup "maxOccurs" = some "unbounded" ∨
  ∃ v n, attrs.lookup "maxOccurs" = some v ∧ parse_int v = some n ∧ 1 < n

/-- The attribute `minOccurs` converts to 0 and `maxOccurs` is absent or
converts to 1. -/
def minOccurs_zero_maxOccurs_one (attrs : List (String × String)) : Prop :=
  (∃ v, attrs.lookup "minOccurs" = some v ∧ parse_int v = some 0) ∧
  (attrs.lookup "maxOccurs" = none ∨
    ∃ v, attrs.lookup "maxOccurs" = some v ∧ parse_int v = some 1)

/-- The events of a schema in which element `e` holds a complexType with the
explicit name `N`:
`<schema><element name="e" type="N"><complexType name="N"><sequence/></complexType>
</element></schema>`. -/
def named_schema : List SchemaEvent :=
  [ .start_element "schema" [],
    .start_element "element" [("name", "e"), ("type", "N")],
    .start_element "complexType" [("name", "N")],
    .start_element "sequence" [],
    .end_element,
    .end_element,
    .end_element,
    .end_element ]

/-- The graph that ingestion builds for `named_schema`. -/
def named_graph : global_scope :=
  { memberTypes :=
      [ ("N", .complex_type "N" "e" true [] []),
        ("xs:boolean", .builtin .boolean_type),
        ("xs:byte", .builtin .byte_type),
        ("xs:int", .builtin .int_type),
        ("xs:string", .builtin .string_type) ],
    dataMembers := [ ⟨.required, "e", ⟨["N"], "N"⟩⟩ ] }

/-! ## Well-nested schema documents -/

/-- A fragment of a schema document as the parser delivers it: character data, or
a construct with its name, its attribute map and its children. -/
inductive Node where
  | text (value : String)
  | node (name : String) (attributes : List (String × String)) (children : List Node)
  deriving Repr

mutual
/-- The events of a fragment, in document order. -/
def Node.events : Node → List SchemaEvent
  | .text v => [.characters v]
  | .node n attrs cs => .start_element n attrs :: (events_of cs ++ [.end_element])
/-- The events of a sequence of fragments. -/
def events_of : List Node → List SchemaEvent
  | [] => []
  | c :: cs => c.events ++ events_of cs
end

mutual
/-- The names of the data members that the closing elements of a fragment append
to the scope that is on top of the scope stack when the fragment starts: an
`element` appends what its children append and then its own member; a
`complexType` appends nothing there (its children act on its own scope); any
other construct appends what its children append. -/
def Node.appended : Node → List String
  | .text _ => []
  | .node n attrs cs =>
    if n = "element" then appended_of cs ++ [(attrs.lookup "name").getD ""]
    else if n = "complexType" then []
    else appended_of cs
/-- The names appended by a sequence of fragments. -/
def appended_of : List Node → List String
  | [] => []
  | c :: cs => c.appended ++ appended_of cs
end

/-- The part of a node fixed at construction: its class and, for a complex type,
`name`, `containingElementName` and `anonymous` (the scope is left out). -/
def type_base.header : type_base → type_base
  | .builtin k => .builtin k
  | .complex_type n c a _ _ => .complex_type n c a [] []

/-- The change that `scope_update` makes to a node on the way to the scope it
updates. -/
def node_update (f : scope → scope) : type_base → type_base
  | .complex_type n c a mts dms =>
    .complex_type n c a (f ⟨mts, dms⟩).memberTypes (f ⟨mts, dms⟩).dataMembers
  | .builtin b => .builtin b

/-- The graph `g'` extends the graph `g` when `path` is the scope on top of the
scope stack: every scope of `g` still exists in `g'`, every name bound in it is
still bound to a node with the same header, and the member list of every scope
that does not lie at or below `path` is the same. -/
def graph_extends (path : List String) (g g' : scope) : Prop :=
  ∀ p s0, scope_at p g = some s0 → ∃ s0', scope_at p g' = some s0' ∧
    (∀ k t, map_find s0.memberTypes k = some t →
      ∃ t', map_find s0'.memberTypes k = some t' ∧ t'.header = t.header) ∧
    (¬ path <+: p → s0'.dataMembers = s0.dataMembers)

/-- The scope of a node: a complex type has one, a builtin type has none. -/
def node_scope : type_base → Option scope
  | .complex_type _ _ _ mts dms => some ⟨mts, dms⟩
  | .builtin _ => none

/-- The net effect on the ingestion state of a well-nested fragment whose closing
elements append members named `names` to the scope on top of the scope stack: the
three stacks are as before; when the top scope exists, the graph is extended and
that scope has gained exactly these members, in order; when the top entry refers
to a destroyed scope, the graph is unchanged. -/
def balanced_step (st st' : ingest_state) (names : List String) : Prop :=
  st'.scopeStack = st.scopeStack ∧ st'.elementStack = st.elementStack ∧
  st'.eventProcessors = st.eventProcessors ∧
  match st.scopeStack with
  | .at path :: _ =>
    ∀ s, scope_at path st.global = some s →
      graph_extends path st.global st'.global ∧
      ∃ s' new, scope_at path st'.global = some s' ∧
        s'.dataMembers = s.dataMembers ++ new ∧ new.map (fun dm => dm.name) = names
  | .dangling :: _ => st'.global = st.global
  | [] => True

/-- The update of a scope made by `~element_elt`: the new member is appended. -/
def push_member (dm : data_member) (s : scope) : scope :=
  { s with dataMembers := s.dataMembers ++ [dm] }

/-- The update of a scope made by `complex_type_elt`: the new type is inserted. -/
def insert_type (key : String) (t : type_base) (s : scope) : scope :=
  { s with memberTypes := (map_insert s.memberTypes key t).1 }

/-- The schema of `duplicate_schema` with a member in the second complexType:
`<schema><element name="a"><complexType><sequence><element name="x" type="xs:string"/>
</sequence></complexType></element><element name="a"><complexType><sequence>
<element name="y" type="xs:int"/></sequence></complexType></element></schema>`. -/
def duplicate_member_schema : List SchemaEvent :=
  [ .start_element "schema" [],
    .start_element "element" [("name", "a")],
    .start_element "complexType" [],
    .start_element "sequence" [],
    .start_element "element" [("name", "x"), ("type", "xs:string")],
    .end_element,
    .end_element,
    .end_element,
    .end_element,
    .start_element "element" [("name", "a")],
    .start_element "complexType" [],
    .start_element "sequence" [],
    .start_element "element" [("name", "y"), ("type", "xs:int")],
    .end_element,
    .end_element,
    .end_element,
    .end_element,
    .end_element ]

/-- The element `note` of the schema of `note_schema`, as a fragment. -/
def note_element : Node :=
  .node "element" [("name", "note")]
    [ .node "complexType" []
        [ .node "sequence" []
            [ .node "element" [("name", "to"), ("type", "xs:string")] [],
              .node "element" [("name", "cc"), ("type", "xs:string"), ("minOccurs", "0")] [],
              .node "element" [("name", "from"), ("type", "xs:string")] [] ] ] ]

/-- The ingestion state inside `<schema>` with the graph `g`: the global scope is
on the scope stack, no element is open. -/
def in_schema (g : global_scope) : ingest_state :=
  { global := g, scopeStack := [.at []], elementStack := [],
    eventProcessors := [.schema_elt, .event_processor] }

/-- The names of the elements among the children of a construct, in document
order. -/
def child_elements : List Node → List String
  | [] => []
  | .text _ :: cs => child_elements cs
  | .node n attrs _ :: cs =>
    if n = "element" then (attrs.lookup "name").getD "" :: child_elements cs
    else child_elements cs

/-- The handler of the element `note` of `note_schema`. -/
def note_elt : element_elt :=
  { name := "note", typeName := "note_type", multiple := false, optional := false }

/-- The ingestion state of `note_schema` after the start tag of the element
`note`, with the graph `g`. -/
def in_note (g : global_scope) : ingest_state :=
  { global := g, scopeStack := [.at []], elementStack := [note_elt],
    eventProcessors := [.element_elt note_elt, .schema_elt, .event_processor] }

/-- The events of a schema in which element `e` holds a complexType whose name is
the builtin schema name `xs:string`; the complexType is registered in the global
scope: `<schema><element name="e" type="xs:string"><complexType name="xs:string">
<sequence/></complexType></element></schema>`. -/
def builtin_name_schema : List SchemaEvent :=
  [ .start_element "schema" [],
    .start_element "element" [("name", "e"), ("type", "xs:string")],
    .start_element "complexType" [("name", "xs:string")],
    .start_element "sequence" [],
    .end_element,
    .end_element,
    .end_element,
    .end_element ]

/-- The schema of `builtin_name_schema` with a child element in the sequence:
`<schema><element name="e" type="xs:string"><complexType name="xs:string">
<sequence><element name="x" type="xs:int"/></sequence></complexType></element>
</schema>`. -/
def builtin_name_member_schema : List SchemaEvent :=
  [ .start_element "schema" [],
    .start_element "element" [("name", "e"), ("type", "xs:string")],
    .start_element "complexType" [("name", "xs:string")],
    .start_element "sequence" [],
    .start_element "element" [("name", "x"), ("type", "xs:int")],
    .end_element,
    .end_element,
    .end_element,
    .end_element,
    .end_element ]

/-- The events of a schema with a construct that `elt_from_name` does not know:
`<schema><annotation/><element name="a" type="xs:string"/></schema>`. -/
def annotation_schema : List SchemaEvent :=
  [ .start_element "schema" [],
    .start_element "annotation" [],
    .end_element,
    .start_element "element" [("name", "a"), ("type", "xs:string")],
    .end_element,
    .end_element ]

/-- The events of a schema whose element has a `minOccurs` that is not an integer
and `maxOccurs="unbounded"`:
`<schema><element name="a" type="xs:string" minOccurs="x" maxOccurs="unbounded"/>
</schema>`. -/
def bad_minOccurs_schema : List SchemaEvent :=
  [ .start_element "schema" [],
    .start_element "element"
      [("name", "a"), ("type", "xs:string"), ("minOccurs", "x"), ("maxOccurs", "unbounded")],
    .end_element,
    .end_element ]

/-- The call `copy(xs.begin(), xs.end(), ostream_joiner(os, del))`: every
assignment through the iterator writes the delimiter unless it is the first, then
the element (`my_do_output::operator=`). The arguments are the elements left, the
flag `first` and the contents of the stream. -/
def ostream_joiner_copy (del : String) : List String → Bool → String → String
  | [], _, os => os
  | t :: ts, first, os =>
    ostream_joiner_copy del ts false ((if !first then os ++ del else os) ++ t)

/-- The contents of a new `ostringstream` after `copy` through an
`ostream_joiner` with delimiter `del`. -/
def joined (xs : List String) (del : String) : String :=
  ostream_joiner_copy del xs true ""

/-- The function `class_formatter<complex_type>::generate_begin`. -/
def class_generate_begin (name : String) : ostream :=
  [.text ("class " ++ name ++ "\x7b\nprivate:\n"), .indent]

/-- The function `class_formatter<complex_type>::generate_data_members_private`:
the field type is `dataMember->type.name`, whatever the class of the member. -/
def generate_data_members_private (dms : List data_member) : ostream :=
  dms.map fun dm => .text (dm.type.name ++ " " ++ dm.name ++ ";\n")

/-- The function `class_formatter<complex_type>::generate_constructor`. -/
def generate_constructor (name : String) (dms : List data_member) : ostream :=
  [.text (name ++ "("),
   .text (joined (dms.map fun dm => dm.type.name ++ " " ++ dm.name) ", " ++ ")\n  : "),
   .text (joined (dms.map fun dm => dm.name ++ "(move(" ++ dm.name ++ "))") ", "
     ++ " \x7b\x7d\n")]

/-- The function `class_formatter<complex_type>::generate_setters`. -/
def generate_setters (dm : data_member) : ostream :=
  [.text ("void set_" ++ dm.name ++ "(" ++ dm.type.name ++ " const & x) \x7b\n"),
   .indent, .text (dm.name ++ " = x;\n"), .unindent, .text "\x7d\n"]

/-- The function `class_formatter<complex_type>::generate_getters`. -/
def generate_getters (dm : data_member) : ostream :=
  [.text (dm.type.name ++ " get_" ++ dm.name ++ "() && \x7b\n"),
   .indent, .text ("return std::move(" ++ dm.name ++ ");\n"), .unindent, .text "\x7d\n",
   .text (dm.type.name ++ " const & get_" ++ dm.name ++ "() const & \x7b\n"),
   .indent, .text ("return " ++ dm.name ++ ";\n"), .unindent, .text "\x7d\n"]

/-- The function `class_formatter<complex_type>::generate_data_members_public`. -/
def generate_data_members_public (dms : List data_member) : ostream :=
  (dms.map fun dm => generate_setters dm ++ generate_getters dm ++ [Tok.text "\n"]).flatten

/-- The function `class_formatter<complex_type>::generate_end`. -/
def class_generate_end : ostream := [.unindent, .text "\x7d;\n\n"]

mutual
/-- The dispatch `accept(formatter_visitor(f))` with the class-style factory: for
a complex type `class_formatter<complex_type>::generate`, which visits the member
types once in the private part and once more in the public part; for a builtin
type the primary template, whose `generate` has an empty body. -/
def class_generate : type_base → ostream → ostream
  | .builtin _, os => os
  | .complex_type name _ _ mts dms, os =>
    let os1 := os ++ class_generate_begin name
    let os2 := class_generate_member_types mts os1
    let os3 := os2 ++ generate_data_members_private dms
      ++ [.unindent, .text "public:\n", .indent]
    let os4 := os3 ++ generate_constructor name dms
    let os5 := class_generate_member_types mts os4
    os5 ++ generate_data_members_public dms ++ class_generate_end
/-- The function `class_formatter<complex_type>::generate_member_types`. -/
def class_generate_member_types : List (String × type_base) → ostream → ostream
  | [], os => os
  | kt :: rest, os => class_generate_member_types rest (class_generate kt.2 os)
end

/-- The function `class_formatter<global_scope>::generate`: the member types. -/
def class_generate_global (g : global_scope) (os : ostream) : ostream :=
  class_generate_member_types g.memberTypes os

/-- The function `toCPP` with the class-style factory: the text that reaches
`os`. -/
def toCPP_class (g : global_scope) : String :=
  render (class_generate_global g [])

mutual
/-- The class definition of one type, by itself: nothing for a builtin type; for
a complex type the opening line, the classes of its member types, the private
fields, the line `public:`, the constructor, the classes of its member types once
more, the accessors and the closing line. -/
def class_definition : type_base → ostream
  | .builtin _ => []
  | .complex_type name _ _ mts dms =>
    class_generate_begin name ++ class_definitions mts
      ++ generate_data_members_private dms
      ++ [.unindent, .text "public:\n", .indent]
      ++ generate_constructor name dms ++ class_definitions mts
      ++ generate_data_members_public dms ++ class_generate_end
/-- The class definitions of a list of member types, in key order. -/
def class_definitions : List (String × type_base) → ostream
  | [] => []
  | kt :: rest => class_definition kt.2 ++ class_definitions rest
end

/-- The token opens the definition of a serializer or of a deserializer
specialisation, as the struct-style family writes it for some type name. -/
def opens_function (t : Tok) : Prop :=
  ∃ name, t = .text (serializer_specialization name ++ " \x7b\n") ∨
    t = .text (deserializer_specialization name ++ " \x7b\n")

/-- What the class-style family writes for the graph of the note schema. -/
def note_class : ostream :=
  [ .text "class note_type\x7b\nprivate:\n", .indent,
    .text "std::string to;\n", .text "std::string cc;\n", .text "std::string from;\n",
    .unindent, .text "public:\n", .indent,
    .text "note_type(",
    .text "std::string to, std::string cc, std::string from)\n  : ",
    .text "to(move(to)), cc(move(cc)), from(move(from)) \x7b\x7d\n",
    .text "void set_to(std::string const & x) \x7b\n", .indent, .text "to = x;\n",
    .unindent, .text "\x7d\n",
    .text "std::string get_to() && \x7b\n", .indent, .text "return std::move(to);\n",
    .unindent, .text "\x7d\n",
    .text "std::string const & get_to() const & \x7b\n", .indent, .text "return to;\n",
    .unindent, .text "\x7d\n", .text "\n",
    .text "void set_cc(std::string const & x) \x7b\n", .indent, .text "cc = x;\n",
    .unindent, .text "\x7d\n",
    .text "std::string get_cc() && \x7b\n", .indent, .text "return std::move(cc);\n",
    .unindent, .text "\x7d\n",
    .text "std::string const & get_cc() const & \x7b\n", .indent, .text "return cc;\n",
    .unindent, .text "\x7d\n", .text "\n",
    .text "void set_from(std::string const & x) \x7b\n", .indent, .text "from = x;\n",
    .unindent, .text "\x7d\n",
    .text "std::string get_from() && \x7b\n", .indent, .text "return std::move(from);\n",
    .unindent, .text "\x7d\n",
    .text "std::string const & get_from() const & \x7b\n", .indent, .text "return from;\n",
    .unindent, .text "\x7d\n", .text "\n",
    .unindent, .text "\x7d;\n\n" ]

mutual
/-- The nodes of the graph at and below a node, in the order in which a formatter
visits them: the node itself, then the nodes of its member types. -/
def type_base.nodes : type_base → List type_base
  | .builtin k => [.builtin k]
  | .complex_type name cen anonymous mts dms =>
    .complex_type name cen anonymous mts dms :: nodes_of mts
/-- The nodes at and below the member types of a scope, at any nesting depth. -/
def nodes_of : List (String × type_base) → List type_base
  | [] => []
  | kt :: rest => kt.2.nodes ++ nodes_of rest
end

/-- The two declarations for a type, by themselves: the deserializer and the
serializer specialisation for its target name, each closed by a semicolon. -/
def declaration_pair (t : type_base) : ostream :=
  [.text (deserializer_specialization t.name ++ ";\n"),
   .text (serializer_specialization t.name ++ ";\n")]

/-- The events of a schema whose complexType is declared directly under `schema`,
with an explicit name:
`<schema><complexType name="N"><sequence/></complexType></schema>`. -/
def toplevel_type_schema : List SchemaEvent :=
  [ .start_element "schema" [],
    .start_element "complexType" [("name", "N")],
    .start_element "sequence" [],
    .end_element,
    .end_element,
    .end_element ]

/-- The events of a schema with a complex type nested in another:
`<schema><element name="outer"><complexType><sequence><element name="inner">
<complexType><sequence/></complexType></element></sequence></complexType></element>
</schema>`. -/
def nested_schema : List SchemaEvent :=
  [ .start_element "schema" [],
    .start_element "element" [("name", "outer")],
    .start_element "complexType" [],
    .start_element "sequence" [],
    .start_element "element" [("name", "inner")],
    .start_element "complexType" [],
    .start_element "sequence" [],
    .end_element,
    .end_element,
    .end_element,
    .end_element,
    .end_element,
    .end_element,
    .end_element ]

/-- The graph that ingestion builds for `nested_schema`. -/
def nested_graph : global_scope :=
  { memberTypes :=
      [ ("outer_type", .complex_type "outer_type" "outer" false
          [ ("inner_type", .complex_type "inner_type" "inner" false [] []) ]
          [ ⟨.required, "inner", ⟨["outer_type", "inner_type"], "inner_type"⟩⟩ ]),
        ("xs:boolean", .builtin .boolean_type),
        ("xs:byte", .builtin .byte_type),
        ("xs:int", .builtin .int_type),
        ("xs:string", .builtin .string_type) ],
    dataMembers := [ ⟨.required, "outer", ⟨["outer_type"], "outer_type"⟩⟩ ] }

/-! ## The output iterator `ostream_joiner` (`hw13/13.1/ostream_joiner.cpp`) -/

/-- The class `ostream_joiner` of `hw13/13.1`: the contents of the stream it
writes to, the delimiter and the flag `first_elem_`. -/
structure ostream_joiner where
  os : String
  delimiter : String
  first_elem : Bool
  deriving DecidableEq, Repr

/-- The member `ostream_joiner::operator=`: write the delimiter unless this is the
first element (then clear the flag), then write the value; `value` is the text
that `*os_ << value` writes. -/
def ostream_joiner.assign (j : ostream_joiner) (value : String) : ostream_joiner :=
  let j1 : ostream_joiner :=
    if !j.first_elem then { j with os := j.os ++ j.delimiter }
    else { j with first_elem := false }
  { j1 with os := j1.os ++ value }

/-- The call `std::copy(first, last, joiner)`: one assignment through the iterator
per element, in order. -/
def copy_to_joiner : List String → ostream_joiner → ostream_joiner
  | [], j => j
  | x :: xs, j => copy_to_joiner xs (j.assign x)

/-- The function `operator<<(os, vec)` of `hw13/13.1`; the elements are given by
the text that `<<` writes for them. -/
def vector_print (os : String) (vec : List String) : String :=
  (copy_to_joiner vec ⟨os ++ "[", ", ", true⟩).os ++ "]"

/-! ## Open constructs of a document prefix -/

/-- The indentation level, in steps of 4 columns above the level at the start of
generation, after the tokens have been written from level `n`; `none` when an
`unindent` is written at the starting level. -/
def indent_level : ostream → Nat → Option Nat
  | [], n => some n
  | .text _ :: os, n => indent_level os n
  | .indent :: os, n => indent_level os (n + 1)
  | .unindent :: _, 0 => none
  | .unindent :: os, n + 1 => indent_level os n

/-- The markers of the stream are well bracketed: after every initial part of the
stream the level is not below the starting level, and at the end it is the
starting level. -/
def well_bracketed (os : ostream) : Prop :=
  (∀ k, ∃ m, indent_level (os.take k) 0 = some m) ∧ indent_level os 0 = some 0

/-- The function `struct_formatter<global_scope>::generate` with the state of the
static decorator `cachedDeserializers` made explicit: `b` is its state on entry.
The call `cachedDeserializersString.str("")` empties the text collected so far and
leaves the indent and the line-start flag of the decorator as they are; the
function definitions are written through the decorator; the result is the main
stream and the state of the decorator on return. -/
def struct_generate_global_run (g : global_scope) (b : IndentStreamBuf) :
    ostream × IndentStreamBuf :=
  let b0 : IndentStreamBuf := { b with out := [] }
  let f2 := struct_generate_member_types g.memberTypes ⟨[.text outputHeader], []⟩
  let b1 := f2.cache.foldl IndentStreamBuf.write b0
  (decl_generate_member_types g.memberTypes f2.os ++ [.text "\n\n", .text ⟨b1.out⟩], b1)

/-- Every text written to the stream ends with a newline. -/
def ends_lines (os : ostream) : Prop :=
  ∀ t ∈ os, ∀ s, t = Tok.text s → s.data.getLast? = some '\n'

mutual
/-- The nodes of the graph at and below a node, in the order in which the
struct-style family completes them: the nodes of the member types first, then the
node itself. -/
def type_base.nodes_after : type_base → List type_base
  | .builtin k => [.builtin k]
  | .complex_type name cen anonymous mts dms =>
    nodes_after_of mts ++ [.complex_type name cen anonymous mts dms]
/-- The nodes at and below the member types of a scope, in order of completion. -/
def nodes_after_of : List (String × type_base) → List type_base
  | [] => []
  | kt :: rest => kt.2.nodes_after ++ nodes_after_of rest
end

/-- The definitions of the two functions of one node, by themselves: for a
builtin type the deserializer and the serializer, for a complex type the
serializer and the deserializer. -/
def own_functions : type_base → ostream
  | .builtin k => builtin_generate_deserializer k ++ builtin_generate_serializer k
  | .complex_type name cen anonymous _ dms =>
    generate_serializer name cen anonymous dms ++ generate_deserializer name cen anonymous dms

/-- The names of the complex types among a list of nodes, in order. -/
def complex_names : List type_base → List String
  | [] => []
  | .builtin _ :: ts => complex_names ts
  | .complex_type name _ _ _ _ :: ts => name :: complex_names ts

/-! ## The class `Date` (`enhanced_note.h`) -/

/-- The class `Date`: year, month and day, each an `int`. -/
structure Date where
  year : Int
  month : Int
  day : Int
  deriving DecidableEq, Repr

/-- The output `ss << std::setfill('0') << std::setw(w) << n` of an `int`: the
decimal numeral of `n`, preceded by as many fill characters `0` as it is shorter
than `w` (the default adjustment puts the fill in front). -/
def put_int (w : Nat) (n : Int) : String :=
  String.mk (List.replicate (w - (to_string n).data.length) '0') ++ to_string n

/-- The member `Date::toString`. -/
def Date.toString (d : Date) : String :=
  put_int 4 d.year ++ "-" ++ put_int 2 d.month ++ "-" ++ put_int 2 d.day

/-- The extraction `ss >> n` of an `int` from the characters left in the stream:
skip leading white space, read an optional sign and the longest run of decimal
digits; the extraction fails (`none`) when there is no digit or the value does
not fit an `int`. The result holds the value and the characters left. -/
def get_int (cs : List Char) : Option (Int × List Char) :=
  let cs := cs.dropWhile isspace
  let signed : Bool × List Char :=
    match cs with
    | '-' :: r => (true, r)
    | '+' :: r => (false, r)
    | _ => (false, cs)
  let ds := signed.2.takeWhile Char.isDigit
  if ds.isEmpty then none
  else
    let n : Nat := ds.foldl (fun a c => 10 * a + (c.toNat - '0'.toNat)) 0
    let v : Int := if signed.1 then -(n : Int) else (n : Int)
    if v < -2147483648 ∨ 2147483647 < v then none
    else some (v, signed.2.dropWhile Char.isDigit)

/-- The extraction `ss >> dash` of a `char`: skip leading white space and read
one character; it fails at the end of the stream. -/
def get_char (cs : List Char) : Option (Char × List Char) :=
  match cs.dropWhile isspace with
  | [] => none
  | c :: r => some (c, r)

/-- The static member `Date::fromString`: the chain
`ss >> date.year >> dash >> date.month >> dash >> date.day`, in which nothing is
extracted once an extraction has failed, then the test `ss.fail()`. -/
def Date.fromString (dateStr : String) : Except XmlError Date :=
  let r : Option Date :=
    (get_int dateStr.data).bind fun y =>
    (get_char y.2).bind fun d1 =>
    (get_int d1.2).bind fun m =>
    (get_char m.2).bind fun d2 =>
    (get_int d2.2).bind fun d =>
    some ⟨y.1, m.1, d.1⟩
  match r with
  | some d => .ok d
  | none => .error (.runtime_error ("Invalid date format: " ++ dateStr))

/-! ## The merge sort of `hw13/13.2/sort.cpp`

A range `[first, last)` is the list of its values; the function returns the
values the range holds when the call has returned. -/

/-- The merging loops of `forward_iterator_sort`, on the left part `[first, middle)`
and the right part `[middle, last)` of the range: while both parts have an element,
the head of the right part is moved to the buffer when `comp(*it2, *it1)` holds and
the head of the left part otherwise; then what is left of the left part is copied,
then what is left of the right part. The result is the buffer. -/
def merge_loop {α : Type} (comp : α → α → Bool) : List α → List α → List α
  | [], ys => ys
  | xs, [] => xs
  | x :: xs, y :: ys =>
    if comp y x then y :: merge_loop comp (x :: xs) ys
    else x :: merge_loop comp xs (y :: ys)

/-- The function `forward_iterator_sort`: a range of fewer than two elements is
left as it is; otherwise the first `count / 2` elements and the others are sorted
by two recursive calls and merged through the buffer, which is copied back over
the range. -/
def forward_iterator_sort {α : Type} (comp : α → α → Bool) (l : List α) : List α :=
  if h : l.length < 2 then l
  else
    let count := l.length
    let left := forward_iterator_sort comp (l.take (count / 2))
    let right := forward_iterator_sort comp (l.drop (count / 2))
    merge_loop comp left right
termination_by l.length
decreasing_by
  · simp only [List.length_take]
    omega
  · simp only [List.length_drop]
    omega

/-- Two values are equivalent under `comp` when neither is ordered before the
other. -/
def equivalent {α : Type} (comp : α → α → Bool) (a b : α) : Bool :=
  !comp a b && !comp b a

/-- A strict weak ordering: irreflexive, transitive, and with a transitive
equivalence. -/
def strict_weak_ordering {α : Type} (comp : α → α → Bool) : Prop :=
  (∀ a, comp a a = false) ∧
  (∀ a b c, comp a b = true → comp b c = true → comp a c = true) ∧
  (∀ a b c, equivalent comp a b = true → equivalent comp b c = true →
    equivalent comp a c = true)

/-- A range is sorted with respect to `comp` when no element is ordered before an
element that precedes it. -/
def sorted_by {α : Type} (comp : α → α → Bool) (l : List α) : Prop :=
  l.Pairwise fun a b => comp b a = false

/-- The comparison `std::less<>` on natural numbers. -/
def less (a b : Nat) : Bool := decide (a < b)

/-- The list sorted by the check of `main`. -/
def small_list : List Nat := [9, 1, 8, 2, 7, 3, 6, 4, 5]

/-! ## Function definitions and lines of the output text -/

/-- The stream `ts` is one function definition for the specialisation `spec`: the
opening line of the definition, `indent`, a body none of whose pieces is the
opening line of a function definition, `unindent`, and the closing brace. -/
def one_definition (spec : String) (ts : ostream) : Prop :=
  ∃ (body : ostream) (close : String),
    ts = Tok.text (spec ++ " \x7b\n") :: Tok.indent ::
      (body ++ [Tok.unindent, Tok.text close]) ∧
    (close = "\x7d\n" ∨ close = "\x7d\n\n") ∧
    ∀ t ∈ body, ∀ s : String, t ≠ Tok.text (s ++ " \x7b\n")

/-- The target names of a list of nodes, in order. -/
def node_names (ts : List type_base) : List String := ts.map type_base.name

/-- The pieces of text written to a stream, one after the other, without the
indentation that the decorator adds. -/
def plain_text : ostream → List Char
  | [] => []
  | .text s :: os => s.data ++ plain_text os
  | .indent :: os => plain_text os
  | .unindent :: os => plain_text os

/-- The ending `e) {` of the line that opens a function definition (the parameter
list of both specialisations ends in `std::string name)`). -/
def function_line_ending : List Char := ['e', ')', ' ', '\x7b']

/-- In the text `cs`, whatever text precedes it, no line break comes directly
after `e) {`. -/
def line_end_free (cs : List Char) : Prop :=
  ∀ u v, cs = u ++ '\n' :: v → ∀ pre, ¬ function_line_ending <:+ pre ++ u

/-- The line `l` is one of the lines of the text `cs`: it holds no line break,
starts the text or follows a line break, and ends the text or is followed by a
line break. -/
def is_line (cs l : List Char) : Prop :=
  '\n' ∉ l ∧ ∃ before after, cs = before ++ l ++ after ∧
    (before = [] ∨ before.getLast? = some '\n') ∧ (after = [] ∨ after.head? = some '\n')

/-- The line opens the definition of a serializer or of a deserializer
specialisation: it is, after some indentation, the line
`void toXML<N>(N const& x, xml::serializer &s, std::string name) {` or the line
`N fromXML<N>(xml::parser &p, std::string name) {` for some name `N`. -/
def opens_definition (l : List Char) : Prop :=
  ∃ (name : String) (k : Nat),
    l = List.replicate k ' ' ++ ("void toXML<" ++ name ++ ">(" ++ name
        ++ " const& x, xml::serializer &s, std::string name) \x7b").data ∨
    l = List.replicate k ' ' ++ (name ++ " fromXML<" ++ name
        ++ ">(xml::parser &p, std::string name) \x7b").data

/-- The text holds no line break. -/
def no_newline (s : String) : Bool := s.data.all fun c => c != '\n'

/-- The text holds no blank and no line break. -/
def no_blank (s : String) : Bool := s.data.all fun c => c != ' ' && c != '\n'

mutual
/-- The names in and below a node are plain: the name of a complex type holds no
blank and no line break, the name of a data member and the name of its type hold
no line break. -/
def type_base.plain_names : type_base → Bool
  | .builtin _ => true
  | .complex_type name _ _ mts dms =>
    no_blank name && plain_names_of mts
      && dms.all fun dm => no_newline dm.name && no_newline dm.type.name
/-- The names in and below the member types of a scope are plain. -/
def plain_names_of : List (String × type_base) → Bool
  | [] => true
  | kt :: rest => kt.2.plain_names && plain_names_of rest
end

/-- The state `b` of the decorator after the text `u` has been written through
it: `e) {` followed by a line break occurs nowhere in what was passed on; at a line
start the text passed on is empty or ends with a line break; and a beginning of
`e) {` that ends the text passed on also ends the text written. -/
def line_ends_kept (b : IndentStreamBuf) (u : List Char) : Prop :=
  (¬ function_line_ending ++ ['\n'] <:+: b.out) ∧
  (b.isLineStart = true → b.out = [] ∨ b.out.getLast? = some '\n') ∧
  (∀ q, q ≠ [] → q <+: function_line_ending → q <:+ b.out → q <:+ u)

/-! # Part II: theorems -/

/-! ## Basic facts about the run-time support -/

/-- The structural loop is the source loop: one unfolding of
`while(p.peek() == characters) { p.next(); s = p.value(); if(...) throw ...; }`. -/
theorem munchSpace_unfold (p : parser) :
    munchSpace p =
      if (p.peek).1 = .characters then
        if allSpace ((p.peek).2.next).2.value then munchSpace ((p.peek).2.next).2
        else .error (.runtime_error ("Unexpected characters: " ++ ((p.peek).2.next).2.value))
      else .ok () (p.peek).2 := by
  obtain ⟨input, cur⟩ := p
  cases input with
  | nil => simp [munchSpace, munchSpaceLoop, parser.peek, typeOf]
  | cons e rest =>
    cases e <;>
      simp [munchSpace, munchSpaceLoop, parser.peek, parser.next, parser.value, typeOf,
        Event.type]

/-- The deserializer of a string element consumes exactly the element. -/
theorem fromXML_string_elem (n x : String) (rest : List Event) (c : Option Event)
    (name : String) :
    fromXML_string ⟨.start_element n :: .characters x :: .end_element :: rest, c⟩ name
      = .ok x ⟨rest, some .end_element⟩ := by
  simp [fromXML_string, fromXML_chars, parser.next_expect, parser.next, typeOf, Event.type,
    Result.bind, collectLoop]

/-- The whitespace skipper stops in front of a start tag. -/
theorem munchSpace_start (n : String) (rest : List Event) (c : Option Event) :
    munchSpace ⟨.start_element n :: rest, c⟩
      = .ok () ⟨.start_element n :: rest, some (.start_element n)⟩ := by
  simp [munchSpace, munchSpaceLoop]

/-- The whitespace skipper stops in front of an end tag. -/
theorem munchSpace_end (rest : List Event) (c : Option Event) :
    munchSpace ⟨.end_element :: rest, c⟩
      = .ok () ⟨.end_element :: rest, some .end_element⟩ := by
  simp [munchSpace, munchSpaceLoop]

/-! ## C1: round trip of the note binding -/

/-- C1: for every `note_type` value `v`, running `fromXML<note_type>` with the
default (empty) name on the events that `toXML<note_type>` writes for `v` returns
normally with a value equal to `v`, having consumed the whole event sequence. -/
theorem note_round_trip (v : note_type) (c : Option Event) :
    fromXML_note_type ⟨toXML_note_type v [] "", c⟩ ""
      = .ok v ⟨[], some .end_element⟩ := by
  obtain ⟨t, cc, f, h, b⟩ := v
  cases cc with
  | none =>
    simp [fromXML_note_type, toXML_note_type, toXML_string, parser.next_expect, parser.next,
      parser.peek, parser.name, typeOf, Event.type, Result.bind, munchSpace_start,
      munchSpace_end, fromXML_string_elem]
  | some x =>
    simp [fromXML_note_type, toXML_note_type, toXML_string, parser.next_expect, parser.next,
      parser.peek, parser.name, typeOf, Event.type, Result.bind, munchSpace_start,
      munchSpace_end, fromXML_string_elem]

/-! ## C6: `munchSpace` consumes the maximal run of character data -/

/-- In front of anything but character data the loop stops at once. -/
theorem munchSpaceLoop_stop (rest : List Event) (c : Option Event)
    (hrest : noLeadingChars rest) :
    munchSpaceLoop rest c = .ok () ⟨rest, rest.head?⟩ := by
  cases rest with
  | nil => simp [munchSpaceLoop]
  | cons e r =>
    cases e with
    | start_element n => simp [munchSpaceLoop]
    | end_element => simp [munchSpaceLoop]
    | characters s => exact absurd rfl (hrest s r)

/-- A run of whitespace-only texts is skipped entirely. -/
theorem munchSpace_skip (texts : List String) (rest : List Event) (c : Option Event)
    (hall : ∀ s ∈ texts, allSpace s = true) (hrest : noLeadingChars rest) :
    munchSpace ⟨texts.map Event.characters ++ rest, c⟩ = .ok () ⟨rest, rest.head?⟩ := by
  induction texts generalizing c with
  | nil => simpa [munchSpace] using munchSpaceLoop_stop rest c hrest
  | cons t ts ih =>
    have ht : allSpace t = true := hall t (List.mem_cons_self _ _)
    have hts : ∀ s ∈ ts, allSpace s = true := fun s hs => hall s (List.mem_cons_of_mem _ hs)
    have := ih (some (.characters t)) hts
    simpa [munchSpace, munchSpaceLoop, ht] using this

/-- The first text with a non-space character makes `munchSpace` throw. -/
theorem munchSpace_throw (pre : List String) (s : String) (tail : List Event)
    (c : Option Event) (hpre : ∀ t ∈ pre, allSpace t = true) (hs : allSpace s = false) :
    munchSpace ⟨pre.map Event.characters ++ Event.characters s :: tail, c⟩
      = .error (.runtime_error ("Unexpected characters: " ++ s)) := by
  induction pre generalizing c with
  | nil => simp [munchSpace, munchSpaceLoop, hs]
  | cons t ts ih =>
    have ht : allSpace t = true := hpre t (List.mem_cons_self _ _)
    have hts : ∀ u ∈ ts, allSpace u = true := fun u hu => hpre u (List.mem_cons_of_mem _ hu)
    have := ih (some (.characters t)) hts
    simpa [munchSpace, munchSpaceLoop, ht] using this

/-- Either every text of a list is whitespace, or the list splits at its first
text that is not. -/
theorem firstNonSpace (texts : List String) :
    (∀ s ∈ texts, allSpace s = true) ∨
    ∃ pre s post, texts = pre ++ s :: post ∧ (∀ t ∈ pre, allSpace t = true) ∧
      allSpace s = false := by
  induction texts with
  | nil => left; simp
  | cons t ts ih =>
    by_cases ht : allSpace t = true
    · rcases ih with h | ⟨pre, s, post, he, hp, hs⟩
      · left
        intro s hs
        rcases List.mem_cons.mp hs with h1 | h1
        · simpa [h1] using ht
        · exact h s h1
      · right
        refine ⟨t :: pre, s, post, by simp [he], ?_, hs⟩
        intro u hu
        rcases List.mem_cons.mp hu with h1 | h1
        · simpa [h1] using ht
        · exact hp u h1
    · right
      exact ⟨[], t, ts, rfl, by simp, by simpa using ht⟩

/-- C6: let the stream start with the maximal run `texts` of character-data
events, followed by `rest` (which does not start with character data). If every
text is whitespace-only, `munchSpace` returns normally and leaves the stream at
`rest`, having consumed no event of `rest`; at the first text with a non-space
character it throws "Unexpected characters"; and it returns normally if and only
if every text of the run is whitespace-only. -/
theorem munchSpace_maximal_run (texts : List String) (rest : List Event) (c : Option Event)
    (hrest : noLeadingChars rest) :
    ((∀ s ∈ texts, allSpace s = true) →
      munchSpace ⟨texts.map Event.characters ++ rest, c⟩ = .ok () ⟨rest, rest.head?⟩) ∧
    (∀ pre s post, texts = pre ++ s :: post → (∀ t ∈ pre, allSpace t = true) →
      allSpace s = false →
      munchSpace ⟨texts.map Event.characters ++ rest, c⟩
        = .error (.runtime_error ("Unexpected characters: " ++ s))) ∧
    ((∃ q, munchSpace ⟨texts.map Event.characters ++ rest, c⟩ = .ok () q) ↔
      ∀ s ∈ texts, allSpace s = true) := by
  have hbad : ∀ pre s post, texts = pre ++ s :: post → (∀ t ∈ pre, allSpace t = true) →
      allSpace s = false →
      munchSpace ⟨texts.map Event.characters ++ rest, c⟩
        = .error (.runtime_error ("Unexpected characters: " ++ s)) := by
    intro pre s post he hp hs
    subst he
    simpa using munchSpace_throw pre s (post.map Event.characters ++ rest) c hp hs
  refine ⟨fun hall => munchSpace_skip texts rest c hall hrest, hbad, ?_⟩
  constructor
  · rintro ⟨q, hq⟩
    rcases firstNonSpace texts with h | ⟨pre, s, post, he, hp, hs⟩
    · exact h
    · rw [hbad pre s post he hp hs] at hq
      cases hq
  · intro hall
    exact ⟨_, munchSpace_skip texts rest c hall hrest⟩

/-- C6 at a concrete stream: two whitespace texts in front of a start tag. -/
theorem munchSpace_maximal_run_witness :
    munchSpace ⟨[" ", "\n\t"].map Event.characters ++ [.start_element "to"], none⟩
      = .ok () ⟨[.start_element "to"], some (.start_element "to")⟩ :=
  (munchSpace_maximal_run [" ", "\n\t"] [.start_element "to"] none
    (by intro s r h; cases h)).1 (by decide)

/-! ## The generated deserializer of a complex type: composition lemmas -/

/-- After a normal return of `munchSpace` the stream does not start with
character data and the next event is the current one. -/
theorem munchSpaceLoop_ok (input : List Event) (c : Option Event) (q : parser)
    (h : munchSpaceLoop input c = .ok () q) :
    noLeadingChars q.input ∧ q.cur = q.input.head? := by
  induction input generalizing c with
  | nil =>
    simp [munchSpaceLoop] at h
    subst h
    exact ⟨(by intro s r hh; cases hh), rfl⟩
  | cons e rest ih =>
    cases e with
    | start_element n =>
      simp [munchSpaceLoop] at h
      subst h
      exact ⟨(by intro s r hh; cases hh), rfl⟩
    | end_element =>
      simp [munchSpaceLoop] at h
      subst h
      exact ⟨(by intro s r hh; cases hh), rfl⟩
    | characters s =>
      by_cases hs : allSpace s = true
      · simp [munchSpaceLoop, hs] at h
        exact ih _ h
      · simp [munchSpaceLoop, hs] at h

/-- Running `munchSpace` a second time changes nothing. -/
theorem munchSpace_idem (p q : parser) (h : munchSpace p = .ok () q) :
    munchSpace q = .ok () q := by
  obtain ⟨hq, hc⟩ := munchSpaceLoop_ok p.input p.cur q h
  obtain ⟨qi, qc⟩ := q
  simp only at hq hc
  subst hc
  simpa [munchSpace] using munchSpaceLoop_stop qi qi.head? hq

/-- The result of `munchSpace` does not depend on the current event. -/
theorem munchSpace_cur (input : List Event) (c c' : Option Event) :
    munchSpace ⟨input, c⟩ = munchSpace ⟨input, c'⟩ := by
  cases input with
  | nil => simp [munchSpace, munchSpaceLoop]
  | cons e rest => cases e <;> simp [munchSpace, munchSpaceLoop]

/-- The member loop over a concatenation of member lists. -/
theorem deserialize_members_append (d : Deserializers) (pre post : List data_member)
    (p : parser) :
    deserialize_members d (pre ++ post) p =
      (deserialize_members d pre p).bind fun f1 p1 =>
      (deserialize_members d post p1).bind fun f2 p2 => .ok (f1 ++ f2) p2 := by
  induction pre generalizing p with
  | nil =>
    simp only [List.nil_append, deserialize_members, Result.bind]
    cases deserialize_members d post p <;> rfl
  | cons dm dms ih =>
    simp only [List.cons_append, deserialize_members]
    cases munchSpace p with
    | error e => rfl
    | diverge => rfl
    | ok u p1 =>
      simp only [Result.bind]
      cases deserialize_member d dm p1 with
      | error e => rfl
      | diverge => rfl
      | ok v p2 =>
        simp only [Result.bind]
        rw [show dms.append post = dms ++ post from rfl, ih p2]
        cases deserialize_members d dms p2 with
        | error e => rfl
        | diverge => rfl
        | ok vs p3 =>
          simp only [Result.bind]
          cases deserialize_members d post p3 <;> rfl

/-- The remainder of a deserializer over a concatenation of member lists. -/
theorem deserialize_tail_append (d : Deserializers) (pre post : List data_member)
    (p : parser) :
    deserialize_tail d (pre ++ post) p =
      (deserialize_members d pre p).bind fun f1 p1 =>
      (deserialize_tail d post p1).bind fun f2 p2 => .ok (f1 ++ f2) p2 := by
  simp only [deserialize_tail, deserialize_members_append]
  cases deserialize_members d pre p with
  | error e => rfl
  | diverge => rfl
  | ok f1 p1 =>
    simp only [Result.bind]
    cases deserialize_members d post p1 with
    | error e => rfl
    | diverge => rfl
    | ok f2 p2 =>
      simp only [Result.bind]
      cases munchSpace p2 with
      | error e => rfl
      | diverge => rfl
      | ok u p3 =>
        simp only [Result.bind]
        cases p3.next_expect .end_element <;> rfl

/-- The remainder of a deserializer starts with `munchSpace`, so it is not
affected by a `munchSpace` run just before it. -/
theorem deserialize_tail_munch (d : Deserializers) (dms : List data_member)
    (p q : parser) (h : munchSpace p = .ok () q) :
    deserialize_tail d dms q = deserialize_tail d dms p := by
  have hq := munchSpace_idem p q h
  cases dms with
  | nil => simp [deserialize_tail, deserialize_members, Result.bind, h, hq]
  | cons dm rest => simp [deserialize_tail, deserialize_members, Result.bind, h, hq]

/-- The remainder of a deserializer does not depend on the current event. -/
theorem deserialize_tail_cur (d : Deserializers) (dms : List data_member)
    (input : List Event) (c c' : Option Event) :
    deserialize_tail d dms ⟨input, c⟩ = deserialize_tail d dms ⟨input, c'⟩ := by
  cases dms with
  | nil =>
    simp [deserialize_tail, deserialize_members, Result.bind, munchSpace_cur input c c']
  | cons dm rest =>
    simp [deserialize_tail, deserialize_members, Result.bind, munchSpace_cur input c c']

/-- A stream that starts with an element does not start with character data. -/
theorem noLeadingChars_start (n : String) (rest : List Event) :
    noLeadingChars (Event.start_element n :: rest) := by
  intro s r h
  cases h

/-- The loop of a repeated member reads a run of elements tagged with the
member name and stops in front of the first event that is not such a start
tag. -/
theorem deserialize_multiple_loop_run (d : Deserializers) (dm : data_member)
    (elems : List (List Event)) (vals : List Value)
    (h : List.Forall₂ (reads_element d dm.type.name dm.name) elems vals)
    (rest : List Event) (hstop : rest.head? ≠ some (Event.start_element dm.name))
    (fuel : Nat) (hfuel : elems.length < fuel) (c : Option Event) (acc : List Value) :
    deserialize_multiple_loop d dm fuel ⟨elems.flatten ++ rest, c⟩ acc
      = .ok (.vector (acc ++ vals)) ⟨rest, rest.head?⟩ := by
  induction h generalizing fuel c acc with
  | nil =>
    cases fuel with
    | zero => simp at hfuel
    | succ f =>
      cases rest with
      | nil => simp [deserialize_multiple_loop, parser.peek, typeOf]
      | cons e r =>
        cases e with
        | start_element n =>
          have hn : n ≠ dm.name := by
            intro hn
            apply hstop
            simp [hn]
          simp [deserialize_multiple_loop, parser.peek, typeOf, Event.type, parser.name, hn]
        | end_element =>
          simp [deserialize_multiple_loop, parser.peek, typeOf, Event.type]
        | characters s =>
          simp [deserialize_multiple_loop, parser.peek, typeOf, Event.type]
  | @cons seg v segs vs hseg _ ih =>
    cases fuel with
    | zero => simp at hfuel
    | succ f =>
      obtain ⟨⟨body, hbody⟩, hread⟩ := hseg
      obtain ⟨c', hc'⟩ := hread (segs.flatten ++ rest) (some (Event.start_element dm.name))
      have hlen : segs.length < f := by simpa using hfuel
      have hrec := ih f hlen c' (acc ++ [v])
      subst hbody
      simp only [List.flatten_cons, List.append_assoc, List.cons_append] at hc' ⊢
      simp [deserialize_multiple_loop, parser.peek, typeOf, Event.type, parser.name, hc',
        Result.bind, hrec]

/-- A run of elements has at least as many events as elements. -/
theorem elems_length_le (d : Deserializers) (T m : String) (elems : List (List Event))
    (vals : List Value) (h : List.Forall₂ (reads_element d T m) elems vals) :
    elems.length ≤ elems.flatten.length := by
  induction h with
  | nil => simp
  | @cons seg v segs vs hseg _ ih =>
    obtain ⟨⟨body, hbody⟩, _⟩ := hseg
    subst hbody
    simp only [List.length_cons, List.flatten_cons, List.length_append]
    omega

/-- The statement for a repeated member, run in front of `k` elements. -/
theorem deserialize_multiple_run (d : Deserializers) (dm : data_member)
    (elems : List (List Event)) (vals : List Value)
    (h : List.Forall₂ (reads_element d dm.type.name dm.name) elems vals)
    (rest : List Event) (hstop : rest.head? ≠ some (Event.start_element dm.name))
    (c : Option Event) :
    deserialize_multiple d dm ⟨elems.flatten ++ rest, c⟩
      = .ok (.vector vals) ⟨rest, rest.head?⟩ := by
  have hlen := elems_length_le d _ _ elems vals h
  have := deserialize_multiple_loop_run d dm elems vals h rest hstop
    ((elems.flatten ++ rest).length + 1) (by simp only [List.length_append]; omega) c []
  simpa [deserialize_multiple] using this

/-- The opening of a generated deserializer: once the start tag with the
effective name is consumed, the remainder runs on what follows. -/
theorem fromXML_complex_open (d : Deserializers) (cen : String) (anonymous : Bool)
    (dms : List data_member) (name : String) (body : List Event) (c : Option Event) :
    fromXML_complex d cen anonymous dms
        ⟨Event.start_element (effective_name cen anonymous name) :: body, c⟩ name
      = (deserialize_tail d dms
          ⟨body, some (Event.start_element (effective_name cen anonymous name))⟩).bind
          fun fields p => .ok (.struct fields) p := by
  simp [fromXML_complex, parser.next_expect, parser.next, typeOf, Event.type, Result.bind,
    parser.name]

/-- A generated deserializer throws the name-mismatch error when the opening tag
is not the effective name. -/
theorem fromXML_complex_mismatch (d : Deserializers) (cen : String) (anonymous : Bool)
    (dms : List data_member) (name n : String) (body : List Event) (c : Option Event)
    (hn : n ≠ effective_name cen anonymous name) :
    fromXML_complex d cen anonymous dms ⟨Event.start_element n :: body, c⟩ name
      = .error (.runtime_error
          ("expected " ++ effective_name cen anonymous name ++ ". Got " ++ n)) := by
  simp [fromXML_complex, parser.next_expect, parser.next, typeOf, Event.type, Result.bind,
    parser.name, hn]

/-- One member in the middle of the member list: when the members before it read
`evPre`, the member's own statements (after `munchSpace`) turn the stream `mid`
into `evPost` with value `v`, and the remainder reads `evPost`, the whole
deserializer returns the fields in member order. -/
theorem fromXML_complex_member (d : Deserializers) (cen : String) (anonymous : Bool)
    (pre post : List data_member) (dm : data_member) (name : String)
    (evPre mid evPost : List Event) (fPre fPost : List (String × Value)) (v : Value)
    (q : parser) (c : Option Event)
    (hpre : ∀ c0, ∃ c1, deserialize_members d pre ⟨evPre ++ mid, c0⟩
      = .ok fPre ⟨mid, c1⟩)
    (hmid : ∀ c1, ∃ c2, (munchSpace ⟨mid, c1⟩).bind (fun _ p => deserialize_member d dm p)
      = .ok v ⟨evPost, c2⟩)
    (hpost : ∀ c2, deserialize_tail d post ⟨evPost, c2⟩ = .ok fPost q) :
    fromXML_complex d cen anonymous (pre ++ dm :: post)
        ⟨Event.start_element (effective_name cen anonymous name) :: (evPre ++ mid), c⟩ name
      = .ok (.struct (fPre ++ (dm.name, v) :: fPost)) q := by
  rw [fromXML_complex_open, deserialize_tail_append]
  obtain ⟨c1, h1⟩ := hpre (some (Event.start_element (effective_name cen anonymous name)))
  rw [h1]
  simp only [Result.bind]
  have hsplit := deserialize_tail_append d [dm] post ⟨mid, c1⟩
  simp only [List.singleton_append] at hsplit
  rw [hsplit]
  obtain ⟨c2, h2⟩ := hmid c1
  have hm : deserialize_members d [dm] ⟨mid, c1⟩ = .ok [(dm.name, v)] ⟨evPost, c2⟩ := by
    simp only [deserialize_members]
    cases hmu : munchSpace ⟨mid, c1⟩ with
    | error e => simp [hmu, Result.bind] at h2
    | diverge => simp [hmu, Result.bind] at h2
    | ok u p1 =>
      simp only [hmu, Result.bind] at h2 ⊢
      simp [h2]
  rw [hm]
  simp [Result.bind, hpost c2]

/-- A string element is read by the `std::string` specialisation. -/
theorem reads_string_element (m x : String) :
    reads_element fromXML_builtin "std::string" m
      [Event.start_element m, Event.characters x, Event.end_element] (Value.string x) := by
  refine ⟨⟨_, rfl⟩, ?_⟩
  intro rest c
  refine ⟨some Event.end_element, ?_⟩
  simp [fromXML_builtin, fromXML_string_elem, Result.bind]

/-- With no member left, the remainder of a deserializer reads the end tag. -/
theorem deserialize_tail_nil (d : Deserializers) (rest : List Event) (c : Option Event) :
    deserialize_tail d [] ⟨Event.end_element :: rest, c⟩
      = .ok [] ⟨rest, some Event.end_element⟩ := by
  simp [deserialize_tail, deserialize_members, Result.bind, munchSpace_end,
    parser.next_expect, parser.next, typeOf, Event.type]

/-! ## C2: a required member of builtin type is read whatever its tag -/

/-- C2 (the code at the failing input): in the document
`<note><xx>A</xx><from>B</from><heading>H</heading><body>T</body></note>` the
element at the position of the required member `to` carries the tag `xx`, yet
`fromXML<note_type>` returns normally, with `to = "A"`. -/
theorem required_tag_not_checked :
    fromXML_note_type
      ⟨[.start_element "note",
        .start_element "xx", .characters "A", .end_element,
        .start_element "from", .characters "B", .end_element,
        .start_element "heading", .characters "H", .end_element,
        .start_element "body", .characters "T", .end_element,
        .end_element], none⟩ ""
      = .ok { «to» := "A", cc := none, «from» := "B", heading := "H", body := "T" }
          ⟨[], some .end_element⟩ := by
  simp [fromXML_note_type, String.isEmpty_iff, parser.next_expect, parser.next, parser.peek,
    parser.name, typeOf, Event.type, Result.bind, munchSpace_start, munchSpace_end,
    fromXML_string_elem]

/-- In every generated deserializer, a required member of type `std::string`
reads the element found at its position whatever the tag `n` of that element. -/
theorem required_string_any_tag (cen : String) (anonymous : Bool)
    (pre post : List data_member) (dm : data_member) (hkind : dm.kind = .required)
    (htype : dm.type.name = "std::string") (name n x : String)
    (evPre evPost : List Event) (fPre fPost : List (String × Value)) (q : parser)
    (c : Option Event)
    (hpre : ∀ c0, ∃ c1, deserialize_members fromXML_builtin pre
        ⟨evPre ++ (Event.start_element n :: Event.characters x :: Event.end_element :: evPost),
          c0⟩
      = .ok fPre ⟨Event.start_element n :: Event.characters x :: Event.end_element :: evPost,
          c1⟩)
    (hpost : ∀ c2, deserialize_tail fromXML_builtin post ⟨evPost, c2⟩ = .ok fPost q) :
    fromXML_complex fromXML_builtin cen anonymous (pre ++ dm :: post)
        ⟨Event.start_element (effective_name cen anonymous name) ::
          (evPre ++ (Event.start_element n :: Event.characters x :: Event.end_element
            :: evPost)), c⟩ name
      = .ok (.struct (fPre ++ (dm.name, .string x) :: fPost)) q := by
  refine fromXML_complex_member fromXML_builtin cen anonymous pre post dm name evPre _ evPost
    fPre fPost _ q c hpre ?_ hpost
  intro c1
  refine ⟨some Event.end_element, ?_⟩
  simp [munchSpace_start, Result.bind, deserialize_member, hkind, deserialize_required, htype,
    fromXML_builtin, fromXML_string_elem]

/-! ## C3: optional members -/

/-- C3 (counterexample): for the complex type whose only, hence last, member is
the optional string member `m`, the document `<t></t>`, in which `m` is absent,
is not accepted: the generated deserializer throws "Expected start element". -/
theorem optional_last_absent_rejected :
    fromXML_complex fromXML_builtin "t" false
        [⟨.optional, "m", ⟨["xs:string"], "std::string"⟩⟩]
        ⟨[.start_element "t", .end_element], none⟩ ""
      = .error (.runtime_error "Expected start element. Got 1") := by
  simp [fromXML_complex, effective_name, String.isEmpty_iff, deserialize_tail,
    deserialize_members, deserialize_member, deserialize_optional, parser.next_expect,
    parser.next, parser.peek, parser.name, typeOf, Event.type, Result.bind, munchSpace_end]

/-- When the members before `dm` read `evPre` and the statements of `dm` (after
`munchSpace`) throw, the whole deserializer throws the same exception. -/
theorem fromXML_complex_member_error (d : Deserializers) (cen : String) (anonymous : Bool)
    (pre post : List data_member) (dm : data_member) (name : String)
    (evPre mid : List Event) (fPre : List (String × Value)) (e : XmlError) (c : Option Event)
    (hpre : ∀ c0, ∃ c1, deserialize_members d pre ⟨evPre ++ mid, c0⟩
      = .ok fPre ⟨mid, c1⟩)
    (hmid : ∀ c1, (munchSpace ⟨mid, c1⟩).bind (fun _ p => deserialize_member d dm p)
      = .error e) :
    fromXML_complex d cen anonymous (pre ++ dm :: post)
        ⟨Event.start_element (effective_name cen anonymous name) :: (evPre ++ mid), c⟩ name
      = .error e := by
  rw [fromXML_complex_open, deserialize_tail_append]
  obtain ⟨c1, h1⟩ := hpre (some (Event.start_element (effective_name cen anonymous name)))
  rw [h1]
  simp only [Result.bind]
  have hsplit := deserialize_tail_append d [dm] post ⟨mid, c1⟩
  simp only [List.singleton_append] at hsplit
  rw [hsplit]
  have h2 := hmid c1
  have hm : deserialize_members d [dm] ⟨mid, c1⟩ = .error e := by
    simp only [deserialize_members]
    cases hmu : munchSpace ⟨mid, c1⟩ with
    | error e1 =>
      simp only [hmu, Result.bind, Result.error.injEq] at h2 ⊢
      exact h2
    | diverge => simp [hmu, Result.bind] at h2
    | ok u p1 =>
      simp only [hmu, Result.bind] at h2 ⊢
      simp [h2]
  rw [hm]
  simp [Result.bind]

/-- C3 (amended): let `m` be an Optional member at any position of the member
list, let the members before it read their part `evPre` of the input, and let
`ws` be the whitespace found at the position of `m`. According to the event that
follows the whitespace:
* if element `m` is present there and the members after it read the rest, the
  deserializer returns with `m` holding the deserialized value;
* if the start tag of another element is there and the members after `m` read the
  rest, the deserializer returns with `m` absent;
* if an end tag or the end of the input is there (`m` is absent and is the last
  member, or only absent members follow), the deserializer throws the
  `runtime_error` "Expected start element", whatever the members after `m` are;
* if character data that is not whitespace is there, `munchSpace` throws
  "Unexpected characters". -/
theorem optional_member_present_or_absent (d : Deserializers) (cen : String)
    (anonymous : Bool) (pre post : List data_member) (dm : data_member)
    (hkind : dm.kind = .optional) (name : String) (evPre : List Event)
    (ws : List String) (fPre : List (String × Value)) (c : Option Event)
    (hws : ∀ s ∈ ws, allSpace s = true) :
    (∀ (present : Option (List Event × Value)) (evPost : List Event)
        (fPost : List (String × Value)) (q : parser),
      (match present with
        | some sv => reads_element d dm.type.name dm.name sv.1 sv.2
        | none => ∃ n r, evPost = Event.start_element n :: r ∧ n ≠ dm.name) →
      (∀ c0, ∃ c1, deserialize_members d pre
          ⟨evPre ++ (ws.map Event.characters ++ ((present.map Prod.fst).getD [] ++ evPost)),
            c0⟩
        = .ok fPre
            ⟨ws.map Event.characters ++ ((present.map Prod.fst).getD [] ++ evPost), c1⟩) →
      (∀ c2, deserialize_tail d post ⟨evPost, c2⟩ = .ok fPost q) →
      fromXML_complex d cen anonymous (pre ++ dm :: post)
          ⟨Event.start_element (effective_name cen anonymous name) ::
            (evPre ++ (ws.map Event.characters
              ++ ((present.map Prod.fst).getD [] ++ evPost))), c⟩
          name
        = .ok (.struct (fPre ++ (dm.name, .optional (present.map Prod.snd)) :: fPost)) q) ∧
    (∀ rest : List Event, (rest = [] ∨ ∃ r, rest = Event.end_element :: r) →
      (∀ c0, ∃ c1, deserialize_members d pre
          ⟨evPre ++ (ws.map Event.characters ++ rest), c0⟩
        = .ok fPre ⟨ws.map Event.characters ++ rest, c1⟩) →
      fromXML_complex d cen anonymous (pre ++ dm :: post)
          ⟨Event.start_element (effective_name cen anonymous name) ::
            (evPre ++ (ws.map Event.characters ++ rest)), c⟩ name
        = .error (.runtime_error "Expected start element. Got 1")) ∧
    (∀ (s : String) (r : List Event), allSpace s = false →
      (∀ c0, ∃ c1, deserialize_members d pre
          ⟨evPre ++ (ws.map Event.characters ++ Event.characters s :: r), c0⟩
        = .ok fPre ⟨ws.map Event.characters ++ Event.characters s :: r, c1⟩) →
      fromXML_complex d cen anonymous (pre ++ dm :: post)
          ⟨Event.start_element (effective_name cen anonymous name) ::
            (evPre ++ (ws.map Event.characters ++ Event.characters s :: r)), c⟩ name
        = .error (.runtime_error ("Unexpected characters: " ++ s))) := by
  refine ⟨?_, ?_, ?_⟩
  · intro present evPost fPost q hpresent hpre hpost
    refine fromXML_complex_member d cen anonymous pre post dm name evPre _ evPost fPre fPost _ q
      c hpre ?_ hpost
    intro c1
    cases present with
    | none =>
      obtain ⟨n, r, hev, hn⟩ := hpresent
      subst hev
      refine ⟨some (Event.start_element n), ?_⟩
      have hm := munchSpace_skip ws (Event.start_element n :: r) c1 hws
        (noLeadingChars_start n r)
      simp only [Option.map_none', Option.getD_none, List.nil_append]
      rw [hm]
      simp [Result.bind, deserialize_member, hkind, deserialize_optional, parser.peek, typeOf,
        Event.type, parser.name, hn]
    | some sv =>
      obtain ⟨seg, v⟩ := sv
      obtain ⟨⟨body, hbody⟩, hread⟩ := hpresent
      simp only at hbody hread
      subst hbody
      obtain ⟨c2, hc2⟩ := hread evPost (some (Event.start_element dm.name))
      simp only [List.cons_append] at hc2
      refine ⟨c2, ?_⟩
      have hm := munchSpace_skip ws (Event.start_element dm.name :: body ++ evPost) c1 hws
        (noLeadingChars_start dm.name _)
      simp only [Option.map_some', Option.getD_some]
      rw [hm]
      simp [Result.bind, deserialize_member, hkind, deserialize_optional,
        deserialize_required, parser.peek, typeOf, Event.type, parser.name, hc2]
  · intro rest hrest hpre
    refine fromXML_complex_member_error d cen anonymous pre post dm name evPre _ fPre _ c
      hpre ?_
    intro c1
    have hnl : noLeadingChars rest := by
      intro s r h
      rcases hrest with h0 | ⟨r0, h0⟩
      · rw [h0] at h
        exact List.noConfusion h
      · rw [h0] at h
        simp at h
    rw [munchSpace_skip ws rest c1 hws hnl]
    rcases hrest with h0 | ⟨r0, h0⟩
    · subst h0
      simp [Result.bind, deserialize_member, hkind, deserialize_optional, parser.peek, typeOf]
    · subst h0
      simp [Result.bind, deserialize_member, hkind, deserialize_optional, parser.peek, typeOf,
        Event.type]
  · intro s r hs hpre
    refine fromXML_complex_member_error d cen anonymous pre post dm name evPre _ fPre _ c
      hpre ?_
    intro c1
    rw [munchSpace_throw ws s r c1 hws hs]
    rfl

/-- C3 (amended) at concrete inputs, for the type with members `to`, `cc`
(optional) and `from`: the document `<note><to>A</to><from>B</from></note>`
yields `cc` absent, and the document `<note><to>A</to></note>`, in which an end
tag stands at the position of `cc`, is rejected with "Expected start element". -/
theorem optional_member_present_or_absent_witness :
    fromXML_complex fromXML_builtin "note" false
        ([⟨.required, "to", ⟨["xs:string"], "std::string"⟩⟩] ++
          ⟨.optional, "cc", ⟨["xs:string"], "std::string"⟩⟩ ::
          [⟨.required, "from", ⟨["xs:string"], "std::string"⟩⟩])
        ⟨Event.start_element (effective_name "note" false "") ::
          ([.start_element "to", .characters "A", .end_element] ++
            (([] : List String).map Event.characters ++
              (((none : Option (List Event × Value)).map Prod.fst).getD [] ++
                [.start_element "from", .characters "B", .end_element, .end_element]))),
          none⟩ ""
      = .ok (.struct ([("to", Value.string "A")] ++
          ("cc", .optional ((none : Option (List Event × Value)).map Prod.snd)) ::
          [("from", Value.string "B")])) ⟨[], some .end_element⟩ ∧
    fromXML_complex fromXML_builtin "note" false
        ([⟨.required, "to", ⟨["xs:string"], "std::string"⟩⟩] ++
          ⟨.optional, "cc", ⟨["xs:string"], "std::string"⟩⟩ ::
          [⟨.required, "from", ⟨["xs:string"], "std::string"⟩⟩])
        ⟨Event.start_element (effective_name "note" false "") ::
          ([.start_element "to", .characters "A", .end_element] ++
            (([] : List String).map Event.characters ++ [.end_element])),
          none⟩ ""
      = .error (.runtime_error "Expected start element. Got 1") := by
  have h := optional_member_present_or_absent fromXML_builtin "note" false
    [⟨.required, "to", ⟨["xs:string"], "std::string"⟩⟩]
    [⟨.required, "from", ⟨["xs:string"], "std::string"⟩⟩]
    ⟨.optional, "cc", ⟨["xs:string"], "std::string"⟩⟩ rfl ""
    [.start_element "to", .characters "A", .end_element]
    [] [("to", Value.string "A")] none (by simp)
  refine ⟨h.1 none [.start_element "from", .characters "B", .end_element, .end_element]
      [("from", Value.string "B")] ⟨[], some .end_element⟩
      ⟨"from", [.characters "B", .end_element, .end_element], rfl, by decide⟩ ?_ ?_,
    h.2.1 [.end_element] (Or.inr ⟨[], rfl⟩) ?_⟩
  · intro c0
    refine ⟨some .end_element, ?_⟩
    simp [deserialize_members, deserialize_member, deserialize_required, fromXML_builtin,
      Result.bind, munchSpace_start, fromXML_string_elem]
  · intro c2
    simp [deserialize_tail, deserialize_members, deserialize_member, deserialize_required,
      fromXML_builtin, Result.bind, munchSpace_start, munchSpace_end, fromXML_string_elem,
      parser.next_expect, parser.next, typeOf, Event.type]
  · intro c0
    refine ⟨some .end_element, ?_⟩
    simp [deserialize_members, deserialize_member, deserialize_required, fromXML_builtin,
      Result.bind, munchSpace_start, fromXML_string_elem]

/-! ## C4: repeated members -/

/-- C4: let `m` be a Repeated member of a complex type, and let the input hold,
at the position of `m` (after optional whitespace), exactly `k` consecutive
elements tagged `m` with no character data between them, followed by an event
that is not a start tag named `m`; the members before and after read their parts
of the input. Then the generated deserializer returns normally and `m` holds
exactly the `k` deserialized values in document order; the loop itself stops in
front of the first event that is not a start tag named `m`. -/
theorem repeated_member_reads_k (d : Deserializers) (cen : String) (anonymous : Bool)
    (pre post : List data_member) (dm : data_member) (hkind : dm.kind = .multiple)
    (name : String) (evPre evPost : List Event) (ws : List String)
    (elems : List (List Event)) (vals : List Value)
    (fPre fPost : List (String × Value)) (q : parser) (c : Option Event)
    (helems : List.Forall₂ (reads_element d dm.type.name dm.name) elems vals)
    (hws : ∀ s ∈ ws, allSpace s = true)
    (hstop : evPost.head? ≠ some (Event.start_element dm.name))
    (hk0 : elems = [] → noLeadingChars evPost)
    (hpre : ∀ c0, ∃ c1, deserialize_members d pre
        ⟨evPre ++ (ws.map Event.characters ++ (elems.flatten ++ evPost)), c0⟩
      = .ok fPre ⟨ws.map Event.characters ++ (elems.flatten ++ evPost), c1⟩)
    (hpost : ∀ c2, deserialize_tail d post ⟨evPost, c2⟩ = .ok fPost q) :
    fromXML_complex d cen anonymous (pre ++ dm :: post)
        ⟨Event.start_element (effective_name cen anonymous name) ::
          (evPre ++ (ws.map Event.characters ++ (elems.flatten ++ evPost))), c⟩ name
      = .ok (.struct (fPre ++ (dm.name, .vector vals) :: fPost)) q ∧
    vals.length = elems.length ∧
    deserialize_multiple d dm ⟨elems.flatten ++ evPost, c⟩
      = .ok (.vector vals) ⟨evPost, evPost.head?⟩ := by
  have hloop := fun c' => deserialize_multiple_run d dm elems vals helems evPost hstop c'
  refine ⟨?_, (List.Forall₂.length_eq helems).symm, hloop c⟩
  refine fromXML_complex_member d cen anonymous pre post dm name evPre _ evPost fPre fPost _ q c
    hpre ?_ hpost
  intro c1
  refine ⟨evPost.head?, ?_⟩
  have hno : noLeadingChars (elems.flatten ++ evPost) := by
    cases helems with
    | nil => simpa using hk0 rfl
    | @cons seg v segs vs hseg _ =>
      obtain ⟨⟨body, hbody⟩, _⟩ := hseg
      subst hbody
      intro s r h
      simp at h
  rw [munchSpace_skip ws (elems.flatten ++ evPost) c1 hws hno]
  simp [Result.bind, deserialize_member, hkind, hloop]

/-- C4 at a concrete input: the document `<list><item>a</item><item>b</item></list>`
for the type whose only member is the repeated string member `item`. -/
theorem repeated_member_reads_k_witness :
    fromXML_complex fromXML_builtin "list" false
        [⟨.multiple, "item", ⟨["xs:string"], "std::string"⟩⟩]
        ⟨[.start_element "list",
          .start_element "item", .characters "a", .end_element,
          .start_element "item", .characters "b", .end_element,
          .end_element], none⟩ ""
      = .ok (.struct [("item", .vector [.string "a", .string "b"])])
          ⟨[], some .end_element⟩ := by
  have h := (repeated_member_reads_k fromXML_builtin "list" false [] []
    ⟨.multiple, "item", ⟨["xs:string"], "std::string"⟩⟩ rfl "" [] [.end_element] []
    [[.start_element "item", .characters "a", .end_element],
     [.start_element "item", .characters "b", .end_element]]
    [.string "a", .string "b"] [] [] ⟨[], some .end_element⟩ none
    (List.Forall₂.cons (reads_string_element "item" "a")
      (List.Forall₂.cons (reads_string_element "item" "b") List.Forall₂.nil))
    (by simp) (by simp) (by simp)
    (by intro c0; exact ⟨c0, by simp [deserialize_members]⟩)
    (by intro c2; exact deserialize_tail_nil fromXML_builtin [] c2)).1
  simpa [effective_name, String.isEmpty_iff] using h

/-! ## C5: whitespace between two occurrences of a repeated member -/

/-- C5 (the code at the failing input): for the type whose only member is the
repeated string member `item`, the document `<list><item>a</item><item>b</item></list>`
is accepted, while the same document with a blank between the two `item`
elements makes the generated deserializer throw: the loop of a repeated member
stops at the character data and the second `item` meets `next_expect(end_element)`. -/
theorem repeated_whitespace_rejected :
    fromXML_complex fromXML_builtin "list" false
        [⟨.multiple, "item", ⟨["xs:string"], "std::string"⟩⟩]
        ⟨[.start_element "list",
          .start_element "item", .characters "a", .end_element,
          .start_element "item", .characters "b", .end_element,
          .end_element], none⟩ ""
      = .ok (.struct [("item", .vector [.string "a", .string "b"])])
          ⟨[], some .end_element⟩ ∧
    fromXML_complex fromXML_builtin "list" false
        [⟨.multiple, "item", ⟨["xs:string"], "std::string"⟩⟩]
        ⟨[.start_element "list",
          .start_element "item", .characters "a", .end_element,
          .characters " ",
          .start_element "item", .characters "b", .end_element,
          .end_element], none⟩ ""
      = .error .parsing := by
  constructor <;>
  simp [fromXML_complex, effective_name, String.isEmpty_iff, deserialize_tail,
    deserialize_members, deserialize_member, deserialize_multiple,
    deserialize_multiple_loop, fromXML_builtin, fromXML_string_elem, parser.next_expect,
    parser.next, parser.peek, parser.name, typeOf, Event.type, Result.bind,
    munchSpace_start, munchSpace_end, munchSpace, munchSpaceLoop, allSpace, isspace]

/-! ## The general shape instantiated at the note schema -/

/-- Sequencing after a normal return. -/
theorem Result.bind_ok {α β : Type} (v : α) (p : parser) (f : α → parser → Result β) :
    (Result.ok v p).bind f = f v p := rfl

/-- Sequencing after an exception. -/
theorem Result.bind_error {α β : Type} (e : XmlError) (f : α → parser → Result β) :
    (Result.error e : Result α).bind f = .error e := rfl

/-- Sequencing is associative. -/
theorem Result.bind_assoc {α β γ : Type} (r : Result α) (f : α → parser → Result β)
    (g : β → parser → Result γ) :
    (r.bind f).bind g = r.bind fun v p => (f v p).bind g := by
  cases r <;> rfl

/-- Sequencing distributes over a conditional. -/
theorem Result.ite_bind {α β : Type} (c : Prop) [Decidable c] (a b : Result α)
    (f : α → parser → Result β) :
    (if c then a else b).bind f = if c then a.bind f else b.bind f := by
  split <;> rfl

/-- The general shape of a generated deserializer, taken at the complex type of
the note schema, is the function `fromXML<note_type>` of `note.h`. -/
theorem fromXML_complex_note (p : parser) (name : String) :
    fromXML_complex fromXML_builtin "note" false note_members p name
      = (fromXML_note_type p name).bind fun v q => .ok v.toValue q := by
  simp only [note_members, fromXML_complex, fromXML_note_type, effective_name, deserialize_tail,
    deserialize_members, deserialize_member, deserialize_required, deserialize_optional,
    fromXML_builtin, note_type.toValue, Bool.not_false, Bool.true_and, if_true,
    Result.bind_ok, Result.bind_error, Result.bind_assoc, Result.ite_bind,
    Option.map_some', Option.map_none']

/-! ## The two streams of the struct-style family, separated -/

mutual
/-- What `struct_generate` appends to the two streams for one type: the struct
definition to `f.os`, the function definitions to the cache. -/
theorem struct_generate_eq : ∀ (t : type_base) (f : out_state),
    struct_generate t f = ⟨f.os ++ struct_definition t, f.cache ++ function_body t⟩
  | .builtin k, f => by
    simp [struct_generate, struct_definition, function_body, List.append_assoc]
  | .complex_type name cen anonymous mts dms, f => by
    simp [struct_generate, struct_definition, function_body,
      struct_generate_member_types_eq mts, List.append_assoc]
/-- What `struct_generate_member_types` appends to the two streams. -/
theorem struct_generate_member_types_eq : ∀ (mts : List (String × type_base))
    (f : out_state),
    struct_generate_member_types mts f
      = ⟨f.os ++ struct_definitions mts, f.cache ++ function_bodies mts⟩
  | [], f => by simp [struct_generate_member_types, struct_definitions, function_bodies]
  | kt :: rest, f => by
    simp [struct_generate_member_types, struct_definitions, function_bodies,
      struct_generate_eq kt.2, struct_generate_member_types_eq rest, List.append_assoc]
end

mutual
/-- What `decl_generate` appends to the stream for one type. -/
theorem decl_generate_eq : ∀ (t : type_base) (os : ostream),
    decl_generate t os = os ++ forward_declaration t
  | .builtin k, os => by simp [decl_generate, forward_declaration]
  | .complex_type name cen anonymous mts dms, os => by
    simp [decl_generate, forward_declaration, decl_generate_member_types_eq mts,
      List.append_assoc]
/-- What `decl_generate_member_types` appends to the stream. -/
theorem decl_generate_member_types_eq : ∀ (mts : List (String × type_base))
    (os : ostream),
    decl_generate_member_types mts os = os ++ forward_declarations mts
  | [], os => by simp [decl_generate_member_types, forward_declarations]
  | kt :: rest, os => by
    simp [decl_generate_member_types, forward_declarations, decl_generate_eq kt.2,
      decl_generate_member_types_eq rest, List.append_assoc]
end

/-- The main stream after `struct_formatter<global_scope>::generate`. -/
theorem struct_generate_global_os (g : global_scope) (f : out_state) :
    (struct_generate_global g f).os
      = f.os ++ [Tok.text outputHeader] ++ struct_definitions g.memberTypes
        ++ forward_declarations g.memberTypes
        ++ [Tok.text "\n\n", Tok.text (render (function_bodies g.memberTypes))] := by
  simp [struct_generate_global, struct_generate_member_types_eq,
    decl_generate_member_types_eq, List.append_assoc]

/-! ## C7: the note schema, end to end -/

/-- C7: ingesting the schema in which element `note` holds an unnamed complexType
with a sequence of `to` (xs:string), `cc` (xs:string, minOccurs 0) and `from`
(xs:string) succeeds, and the struct-style output then consists of the header,
the struct `note_type` whose field declarations are exactly `std::string to;`,
`std::optional<std::string> cc;`, `std::string from;` in this order, the forward
declarations and the cached function definitions. -/
theorem note_schema_struct :
    inhaleSchema note_schema
      = .ok { global := note_graph, scopeStack := [.at []], elementStack := [],
              eventProcessors := [.event_processor] } ∧
    (struct_generate_global note_graph ⟨[], []⟩).os
      = [ .text outputHeader,
          .text "struct note_type \x7b\n", .indent,
          .text "std::string to;\n",
          .text "std::optional<std::string> cc;\n",
          .text "std::string from;\n",
          .unindent, .text "\x7d;\n\n" ]
        ++ forward_declarations note_graph.memberTypes
        ++ [ .text "\n\n", .text (render (function_bodies note_graph.memberTypes)) ] := by
  constructor
  · rfl
  · rw [struct_generate_global_os]
    have h : struct_definitions note_graph.memberTypes
        = [ .text "struct note_type \x7b\n", .indent,
            .text "std::string to;\n",
            .text "std::optional<std::string> cc;\n",
            .text "std::string from;\n",
            .unindent, .text "\x7d;\n\n" ] := by decide
    rw [h]
    rfl

/-! ## C8: a type name bound in no scope -/

/-- When every entry of the scope stack refers to an existing scope and none of
these scopes binds `name`, the search of `findType` runs off its end. -/
theorem findType_loop_unbound (g : global_scope) (stack : List scope_ref) (name : String)
    (h : ∀ r ∈ stack, ∃ path s, r = scope_ref.at path ∧ scope_at path g = some s ∧
      map_find s.memberTypes name = none) :
    findType_loop g stack name = .undefined (.findType_no_return name) := by
  induction stack with
  | nil => rfl
  | cons r rest ih =>
    obtain ⟨path, s, hr, hs, hn⟩ := h r (List.mem_cons_self _ _)
    subst hr
    simp only [findType_loop, hs, hn]
    exact ih fun r' hr' => h r' (List.mem_cons_of_mem _ hr')

/-- C8 (the code at the failing inputs): when an element closes whose type name
is bound in no scope on the scope stack, `findType` runs off its end without
returning; ingestion raises no error. This happens for a name that is declared
nowhere and for the name of a sibling type that is declared later. -/
theorem unresolved_type_is_undefined :
    inhaleSchema unresolved_schema = .undefined (.findType_no_return "missing") ∧
    inhaleSchema forward_reference_schema = .undefined (.findType_no_return "b_type") := by
  constructor <;> rfl

/-! ## C9: position of struct definitions -/

/-- A member type's definition is a segment of the definitions of the list. -/
theorem struct_definitions_mem (mts : List (String × type_base)) (k : String)
    (T : type_base) (hT : (k, T) ∈ mts) :
    ∃ a b, struct_definitions mts = a ++ struct_definition T ++ b := by
  induction mts with
  | nil => cases hT
  | cons kt rest ih =>
    rcases List.mem_cons.mp hT with h | h
    · refine ⟨[], struct_definitions rest, ?_⟩
      subst h
      simp [struct_definitions]
    · obtain ⟨a, b, hab⟩ := ih h
      refine ⟨struct_definition kt.2 ++ a, b, ?_⟩
      simp [struct_definitions, hab, List.append_assoc]

/-- C9 (counterexample): for a schema with sibling elements `z` and `a`, where
the type of `a` has a field of type `z_type`, ingestion succeeds and the
struct-style output declares the field `z_type zz;` inside `struct a_type` before
`struct z_type` is defined: sibling types are emitted in the order of their
names. -/
theorem sibling_used_before_definition :
    inhaleSchema sibling_schema
      = .ok { global := sibling_graph, scopeStack := [.at []], elementStack := [],
              eventProcessors := [.event_processor] } ∧
    (struct_generate_global sibling_graph ⟨[], []⟩).os
      = [ .text outputHeader,
          .text "struct a_type \x7b\n", .indent, .text "z_type zz;\n", .unindent,
          .text "\x7d;\n\n",
          .text "struct z_type \x7b\n", .indent, .text "std::string v;\n", .unindent,
          .text "\x7d;\n\n" ]
        ++ forward_declarations sibling_graph.memberTypes
        ++ [ .text "\n\n", .text (render (function_bodies sibling_graph.memberTypes)) ] ∧
    ¬ defined_before_use (struct_generate_global sibling_graph ⟨[], []⟩).os "z_type"
        ⟨.required, "zz", ⟨["z_type"], "z_type"⟩⟩ := by
  have hdefs : struct_definitions sibling_graph.memberTypes
      = [ .text "struct a_type \x7b\n", .indent, .text "z_type zz;\n", .unindent,
          .text "\x7d;\n\n",
          .text "struct z_type \x7b\n", .indent, .text "std::string v;\n", .unindent,
          .text "\x7d;\n\n" ] := by decide
  have hos : (struct_generate_global sibling_graph ⟨[], []⟩).os
      = [ .text outputHeader,
          .text "struct a_type \x7b\n", .indent, .text "z_type zz;\n", .unindent,
          .text "\x7d;\n\n",
          .text "struct z_type \x7b\n", .indent, .text "std::string v;\n", .unindent,
          .text "\x7d;\n\n" ]
        ++ forward_declarations sibling_graph.memberTypes
        ++ [ .text "\n\n", .text (render (function_bodies sibling_graph.memberTypes)) ] := by
    rw [struct_generate_global_os, hdefs]
    rfl
  refine ⟨rfl, hos, ?_⟩
  intro h
  rw [hos] at h
  obtain ⟨i, hi, hget⟩ := h 3 (by decide)
  have h0 : outputHeader ≠ "struct z_type \x7b\n" := by decide
  interval_cases i
  · simp at hget
    exact h0 hget
  · simp at hget
  · simp at hget

/-- C9 (amended): in the struct-style output for a complex type `U`, the
definition of every type `T` that is a member type of `U` (declared inside `U`)
appears earlier than all field declarations of `U`. -/
theorem nested_type_defined_before_fields (name cen : String) (anonymous : Bool)
    (mts : List (String × type_base)) (dms : List data_member) (f : out_state)
    (k : String) (T : type_base) (hT : (k, T) ∈ mts) :
    ∃ a b, (struct_generate (.complex_type name cen anonymous mts dms) f).os
      = f.os ++ generate_begin name ++ a ++ struct_definition T ++ b
        ++ generate_data_members dms ++ generate_end := by
  obtain ⟨a, b, hab⟩ := struct_definitions_mem mts k T hT
  refine ⟨a, b, ?_⟩
  rw [struct_generate_eq]
  simp [struct_definition, hab, List.append_assoc]

/-- C9 (amended) at a concrete type: `outer_type` owns `inner_type` and has a
field of that type; the definition of `inner_type` comes before the field. -/
theorem nested_type_defined_before_fields_witness :
    ∃ a b, (struct_generate
        (.complex_type "outer_type" "outer" false
          [("inner_type", .complex_type "inner_type" "inner" false []
              [⟨.required, "v", ⟨["xs:string"], "std::string"⟩⟩])]
          [⟨.required, "inner", ⟨["outer_type", "inner_type"], "inner_type"⟩⟩])
        ⟨[], []⟩).os
      = [] ++ generate_begin "outer_type" ++ a
        ++ struct_definition (.complex_type "inner_type" "inner" false []
              [⟨.required, "v", ⟨["xs:string"], "std::string"⟩⟩]) ++ b
        ++ generate_data_members
            [⟨.required, "inner", ⟨["outer_type", "inner_type"], "inner_type"⟩⟩]
        ++ generate_end :=
  nested_type_defined_before_fields "outer_type" "outer" false
    [("inner_type", .complex_type "inner_type" "inner" false []
        [⟨.required, "v", ⟨["xs:string"], "std::string"⟩⟩])]
    [⟨.required, "inner", ⟨["outer_type", "inner_type"], "inner_type"⟩⟩]
    ⟨[], []⟩ "inner_type" _ (List.mem_singleton.mpr rfl)

/-! ## C10: deferred emission of the function definitions -/

/-- C10: for every type graph (and whatever the cache held before), the main
stream after struct-style generation is the header, then all struct definitions
of the graph, then all forward declarations, then one piece of text holding all
serializer and deserializer definitions; while the graph is being traversed the
struct definitions alone go to the main stream and the function definitions
alone to the cache. -/
theorem deferred_emission (g : global_scope) (f : out_state) :
    (struct_generate_global g f).os
      = f.os ++ [Tok.text outputHeader] ++ struct_definitions g.memberTypes
        ++ forward_declarations g.memberTypes
        ++ [Tok.text "\n\n", Tok.text (render (function_bodies g.memberTypes))] ∧
    (struct_generate_global g f).cache = function_bodies g.memberTypes ∧
    ∀ f1 : out_state, struct_generate_member_types g.memberTypes f1
      = ⟨f1.os ++ struct_definitions g.memberTypes,
         f1.cache ++ function_bodies g.memberTypes⟩ := by
  refine ⟨struct_generate_global_os g f, ?_, fun f1 => struct_generate_member_types_eq _ f1⟩
  simp [struct_generate_global, struct_generate_member_types_eq]

/-! ## Supplementary facts about the generated deserializer -/

/-- The iteration bound of the loop for a repeated member is never reached when
every call of a member deserializer returns having consumed input, or throws. -/
theorem deserialize_multiple_loop_total (d : Deserializers) (dm : data_member)
    (hd : ∀ T p n v q, d T p n = .ok v q → q.input.length < p.input.length)
    (hdiv : ∀ T p n, d T p n ≠ .diverge) :
    ∀ (fuel : Nat) (p : parser) (acc : List Value), p.input.length < fuel →
      deserialize_multiple_loop d dm fuel p acc ≠ .diverge := by
  intro fuel
  induction fuel with
  | zero => intro p acc h; simp at h
  | succ n ih =>
    intro p acc h
    simp only [deserialize_multiple_loop]
    split
    · cases hcall : d dm.type.name (p.peek).2 dm.name with
      | error e => simp [Result.bind]
      | diverge => exact absurd hcall (hdiv _ _ _)
      | ok v q =>
        simp only [Result.bind]
        apply ih
        have := hd _ _ _ _ _ hcall
        simp only [parser.peek] at this
        omega
    · simp

/-- Whitespace-only character data in front of the stream does not change what
`munchSpace` does. -/
theorem munchSpace_skip_prefix (ws : List String) (input : List Event)
    (c c' : Option Event) (hws : ∀ s ∈ ws, allSpace s = true) :
    munchSpace ⟨ws.map Event.characters ++ input, c⟩ = munchSpace ⟨input, c'⟩ := by
  induction ws generalizing c with
  | nil => simpa using munchSpace_cur input c c'
  | cons t ts ih =>
    have ht : allSpace t = true := hws t (List.mem_cons_self _ _)
    have hts : ∀ s ∈ ts, allSpace s = true := fun s hs => hws s (List.mem_cons_of_mem _ hs)
    have := ih (some (Event.characters t)) hts
    simpa [munchSpace, munchSpaceLoop, ht] using this

/-- Whitespace-only character data in front of any member position, or in front
of the closing tag, does not change the result of a generated deserializer from
that position on. -/
theorem deserialize_tail_skip_prefix (d : Deserializers) (dms : List data_member)
    (ws : List String) (input : List Event) (c c' : Option Event)
    (hws : ∀ s ∈ ws, allSpace s = true) :
    deserialize_tail d dms ⟨ws.map Event.characters ++ input, c⟩
      = deserialize_tail d dms ⟨input, c'⟩ := by
  have h := munchSpace_skip_prefix ws input c c' hws
  cases dms with
  | nil => simp [deserialize_tail, deserialize_members, Result.bind, h]
  | cons dm rest => simp [deserialize_tail, deserialize_members, Result.bind, h]

/-- The structural loop of the builtin deserializers is the source loop: one
unfolding of `while(p.peek() == characters) { p.next(); x += p.value(); }`. -/
theorem collectLoop_unfold (p : parser) (x : String) :
    collectLoop p.input p.cur x =
      if (p.peek).1 = .characters then
        collectLoop ((p.peek).2.next).2.input ((p.peek).2.next).2.cur
          (x ++ ((p.peek).2.next).2.value)
      else .ok x (p.peek).2 := by
  obtain ⟨input, cur⟩ := p
  cases input with
  | nil => simp [collectLoop, parser.peek, typeOf]
  | cons e rest =>
    cases e <;>
      simp [collectLoop, parser.peek, parser.next, parser.value, typeOf, Event.type]

/-! ## C11: field declarations of the struct-style family -/

/-- C11: the field declaration emitted for a data member named `n` whose type has
target name `T` is `T n;` for a Required member, `std::optional<T> n;` for an
Optional member and `std::vector<T> n;` for a Repeated member; the struct
written for a complex type holds one such declaration per data member, in the
order of the member list, between the definitions of its member types and the
closing line. -/
theorem field_declaration_by_kind (name cen : String) (anonymous : Bool)
    (mts : List (String × type_base)) (dms : List data_member) (f : out_state) :
    (∀ (n T : String) (path : List String),
      field_declaration ⟨.required, n, ⟨path, T⟩⟩ = .text (T ++ " " ++ n ++ ";\n") ∧
      field_declaration ⟨.optional, n, ⟨path, T⟩⟩
        = .text ("std::optional<" ++ T ++ ">" ++ " " ++ n ++ ";\n") ∧
      field_declaration ⟨.multiple, n, ⟨path, T⟩⟩
        = .text ("std::vector<" ++ T ++ ">" ++ " " ++ n ++ ";\n")) ∧
    generate_data_members dms = dms.map field_declaration ∧
    (struct_generate (.complex_type name cen anonymous mts dms) f).os
      = f.os ++ generate_begin name ++ struct_definitions mts
        ++ dms.map field_declaration ++ generate_end := by
  refine ⟨fun n T path => ⟨rfl, rfl, rfl⟩, rfl, ?_⟩
  rw [struct_generate_eq]
  simp [struct_definition, generate_data_members, field_declaration, List.append_assoc]

/-! ## C12: what the generated serializer writes -/

/-- The loop over the entries of a repeated member writes their elements in
order. -/
theorem serialize_each_writes (t : Serializers) (T n : String) (vs : List Value)
    (elems : List (List Event)) (h : List.Forall₂ (writes_element t T n) vs elems)
    (s : serializer) :
    serialize_each t T n vs s = some (s ++ elems.flatten) := by
  induction h generalizing s with
  | nil => simp [serialize_each]
  | @cons v elem vs elems hv _ ih =>
    simp [serialize_each, hv.2 s, ih, List.append_assoc]

/-- The statements for one member write what `member_written` describes. -/
theorem serialize_member_writes (t : Serializers) (dm : data_member) (x : Value)
    (out : List Event) (h : member_written t dm x out) (s : serializer) :
    serialize_member t dm x s = some (s ++ out) := by
  cases h with
  | required v elem hk hw => simp [serialize_member, hk, hw.2 s]
  | absent hk => simp [serialize_member, hk]
  | present v elem hk hw => simp [serialize_member, hk, hw.2 s]
  | repeated vs elems hk hw =>
    simp [serialize_member, hk, serialize_each_writes t _ _ vs elems hw s]

/-- The member loop of a generated serializer writes the contributions of the
members in declaration order. -/
theorem serialize_members_writes (t : Serializers) (dms : List data_member)
    (fields : List (String × Value)) (outs : List (List Event))
    (h : List.Forall₂ (fun dm out => ∃ x, fields.lookup dm.name = some x ∧
      member_written t dm x out) dms outs) (s : serializer) :
    serialize_members t dms fields s = some (s ++ outs.flatten) := by
  induction h generalizing s with
  | nil => simp [serialize_members]
  | @cons dm out dms outs hd _ ih =>
    obtain ⟨x, hx, hw⟩ := hd
    simp [serialize_members, hx, serialize_member_writes t dm x out hw s, ih,
      List.append_assoc]

/-- C12: the serializer generated for a complex type, run on an aggregate with
fields `fields`, appends to the output exactly: one start tag (named by the
effective name), then for each member in declaration order what its kind
prescribes (one element tagged with the member name for a Required member; one
such element or nothing for an Optional member, as the value is present or
absent; one such element per entry, in order, for a Repeated member), then one
end tag. -/
theorem serializer_writes_members (t : Serializers) (cen : String) (anonymous : Bool)
    (dms : List data_member) (fields : List (String × Value))
    (outs : List (List Event)) (s : serializer) (name : String)
    (h : List.Forall₂ (fun dm out => ∃ x, fields.lookup dm.name = some x ∧
      member_written t dm x out) dms outs) :
    toXML_complex t cen anonymous dms (.struct fields) s name
      = some (s ++ [Event.start_element (effective_name cen anonymous name)]
          ++ outs.flatten ++ [Event.end_element]) := by
  have hm := serialize_members_writes t dms fields outs h
      (s ++ [Event.start_element (effective_name cen anonymous name)])
  unfold toXML_complex
  simp only [hm]

/-- A string value is written by the `std::string` specialisation as one
element. -/
theorem writes_string_element (n x : String) :
    writes_element toXML_builtin "std::string" n (Value.string x)
      [Event.start_element n, Event.characters x, Event.end_element] := by
  refine ⟨⟨_, rfl⟩, ?_⟩
  intro s
  simp [toXML_builtin, toXML_chars]

/-- C12 at a concrete value: a type with a required member `to`, an absent
optional member `cc` and a repeated member `item` holding two strings. -/
theorem serializer_writes_members_witness :
    toXML_complex toXML_builtin "note" false
        [⟨.required, "to", ⟨["xs:string"], "std::string"⟩⟩,
         ⟨.optional, "cc", ⟨["xs:string"], "std::string"⟩⟩,
         ⟨.multiple, "item", ⟨["xs:string"], "std::string"⟩⟩]
        (.struct [("to", .string "A"), ("cc", .optional none),
          ("item", .vector [.string "x", .string "y"])]) [] ""
      = some [.start_element "note",
          .start_element "to", .characters "A", .end_element,
          .start_element "item", .characters "x", .end_element,
          .start_element "item", .characters "y", .end_element,
          .end_element] := by
  have h := serializer_writes_members toXML_builtin "note" false
    [⟨.required, "to", ⟨["xs:string"], "std::string"⟩⟩,
     ⟨.optional, "cc", ⟨["xs:string"], "std::string"⟩⟩,
     ⟨.multiple, "item", ⟨["xs:string"], "std::string"⟩⟩]
    [("to", .string "A"), ("cc", .optional none),
      ("item", .vector [.string "x", .string "y"])]
    [[.start_element "to", .characters "A", .end_element], [],
     [[Event.start_element "item", .characters "x", .end_element],
      [Event.start_element "item", .characters "y", .end_element]].flatten] [] ""
    (List.Forall₂.cons
      ⟨_, rfl, member_written.required _ _ rfl (writes_string_element "to" "A")⟩
      (List.Forall₂.cons ⟨_, rfl, member_written.absent rfl⟩
        (List.Forall₂.cons
          ⟨_, rfl, member_written.repeated [.string "x", .string "y"] _ rfl
            (List.Forall₂.cons (writes_string_element "item" "x")
              (List.Forall₂.cons (writes_string_element "item" "y") List.Forall₂.nil))⟩
          List.Forall₂.nil)))
  simpa [effective_name, String.isEmpty_iff] using h

/-- The general shape of a generated serializer, taken at the complex type of
the note schema, is the function `toXML<note_type>` of `note.h`. -/
theorem toXML_complex_note (v : note_type) (s : serializer) (name : String) :
    toXML_complex toXML_builtin "note" false note_members v.toValue s name
      = some (toXML_note_type v s name) := by
  obtain ⟨t, cc, f, h, b⟩ := v
  cases cc <;>
    simp [toXML_complex, toXML_note_type, note_members, note_type.toValue, serialize_members,
      serialize_member, toXML_builtin, toXML_chars, toXML_string, effective_name,
      List.lookup]

/-! ## C13: member kind from the cardinality attributes -/

/-- The text "unbounded" does not convert to an integer. -/
theorem parse_int_unbounded : parse_int "unbounded" = none := by decide

/-- The two flags of a constructed `element_elt`, in terms of the attributes. -/
theorem element_elt_init_flags (attrs : List (String × String)) (e : element_elt)
    (h : element_elt.init attrs = .ok e) :
    (e.multiple = true ↔ maxOccurs_many attrs) ∧
    (e.optional = true ↔ minOccurs_zero_maxOccurs_one attrs) := by
  unfold element_elt.init at h
  unfold maxOccurs_many minOccurs_zero_maxOccurs_one
  cases hn : attrs.lookup "name" with
  | none => simp [hn] at h
  | some nm =>
    cases hmax : attrs.lookup "maxOccurs" with
    | none =>
      simp only [hn, hmax, attribute_present, Option.isSome_none, Bool.false_eq_true,
        if_false, Outcome.bind, attribute_int] at h
      cases hmin : attrs.lookup "minOccurs" with
      | none =>
        simp [hmin] at h
        subst h
        simp
      | some w =>
        cases hp : parse_int w with
        | none => simp [hmin, hp] at h
        | some mn =>
          simp only [hmin, hp] at h
          by_cases h0 : mn = 0
          · simp [h0] at h
            subst h
            simp [hp, h0]
          · simp [h0] at h
            subst h
            simp [hp, h0]
    | some v =>
      by_cases hu : v = "unbounded"
      · subst hu
        simp [hn, hmax, attribute_present, Outcome.bind] at h
        subst h
        simp [parse_int_unbounded]
      · cases hp : parse_int v with
        | none => simp [hn, hmax, attribute_present, Outcome.bind, attribute_int, hu, hp] at h
        | some n =>
          by_cases h1 : 1 < n
          · simp [hn, hmax, attribute_present, Outcome.bind, attribute_int, hu, hp, h1] at h
            subst h
            have hn1 : n ≠ 1 := by omega
            simp [hu, hp, h1, hn1]
          · simp only [hn, hmax, attribute_present, Option.isSome_some, if_true,
              Option.getD_some, hu, if_false, attribute_int, hp, Outcome.bind, h1,
              decide_False, Bool.false_eq_true] at h
            cases hmin : attrs.lookup "minOccurs" with
            | none =>
              simp [hmin] at h
              subst h
              simp [hu, hp, h1]
            | some w =>
              cases hq : parse_int w with
              | none => simp [hmin, hq] at h
              | some mn =>
                simp only [hmin, hq] at h
                by_cases h0 : mn = 0
                · simp [h0] at h
                  subst h
                  simp [hu, hp, h1, hq, h0]
                · simp [h0] at h
                  subst h
                  simp [hu, hp, h1, hq, h0]

/-- C13: for an element whose attributes convert (the handler is constructed),
the member created when the element closes is Repeated exactly when `maxOccurs`
is "unbounded" or an integer greater than 1; Optional exactly when `minOccurs` is
0 and `maxOccurs` is absent or 1; and Required in every remaining case. The two
flags are never both set, so the kind does not depend on the order of the tests
in the destructor. -/
theorem member_kind_from_cardinality (attrs : List (String × String)) (e : element_elt)
    (h : element_elt.init attrs = .ok e) :
    (e.kind = .multiple ↔ maxOccurs_many attrs) ∧
    (e.kind = .optional ↔ minOccurs_zero_maxOccurs_one attrs) ∧
    (e.kind = .required ↔ ¬ maxOccurs_many attrs ∧ ¬ minOccurs_zero_maxOccurs_one attrs) ∧
    ¬ (e.optional = true ∧ e.multiple = true) := by
  obtain ⟨hm, ho⟩ := element_elt_init_flags attrs e h
  have hexcl : ¬ (minOccurs_zero_maxOccurs_one attrs ∧ maxOccurs_many attrs) := by
    rintro ⟨⟨_, hmax1⟩, hmany⟩
    rcases hmax1 with hnone | ⟨v, hv, hp⟩
    · rcases hmany with hu | ⟨v', n, hv', _, _⟩
      · simp [hnone] at hu
      · simp [hnone] at hv'
    · rcases hmany with hu | ⟨v', n, hv', hp', hn⟩
      · rw [hv] at hu
        cases hu
        rw [parse_int_unbounded] at hp
        cases hp
      · rw [hv] at hv'
        cases hv'
        rw [hp] at hp'
        cases hp'
        omega
  cases hmul : e.multiple <;> cases hopt : e.optional <;>
    simp [element_elt.kind, hmul, hopt] <;>
    simp [hmul, hopt] at hm ho <;>
    tauto

/-- C13 at a concrete element: `<element name="cc" type="xs:string" minOccurs="0"/>`
gives an Optional member. -/
theorem member_kind_from_cardinality_witness :
    element_elt.init [("name", "cc"), ("type", "xs:string"), ("minOccurs", "0")]
      = .ok ⟨"cc", "xs:string", false, true⟩ ∧
    ((⟨"cc", "xs:string", false, true⟩ : element_elt).kind = .optional ↔
      minOccurs_zero_maxOccurs_one
        [("name", "cc"), ("type", "xs:string"), ("minOccurs", "0")]) :=
  ⟨rfl, (member_kind_from_cardinality
    [("name", "cc"), ("type", "xs:string"), ("minOccurs", "0")]
    ⟨"cc", "xs:string", false, true⟩ rfl).2.1⟩

/-! ## C15: default tag of a type declared without a name -/

/-- C15: for a complexType declared without a `name` attribute inside element `e`,
the created node has `containingElementName = e.name` and the flag that selects
the default-name line, so that, called with an empty name argument, the generated
serializer first opens an element named `e.name`, and the generated deserializer
throws the name-mismatch error for every opening tag other than `e.name` and
passes the check for the opening tag `e.name`. -/
theorem unnamed_type_default_tag (e : element_elt) (attrs : List (String × String))
    (hname : attrs.lookup "name" = none) :
    complex_type.new e attrs
      = .complex_type (e.name ++ "_type") e.name false [] [] ∧
    (∀ (t : Serializers) (dms : List data_member) (fields : List (String × Value))
        (s : serializer),
      toXML_complex t e.name false dms (.struct fields) s ""
        = match serialize_members t dms fields (s ++ [Event.start_element e.name]) with
          | some s1 => some (s1 ++ [Event.end_element])
          | none => none) ∧
    (∀ (d : Deserializers) (dms : List data_member) (n : String) (body : List Event)
        (c : Option Event), n ≠ e.name →
      fromXML_complex d e.name false dms ⟨Event.start_element n :: body, c⟩ ""
        = .error (.runtime_error ("expected " ++ e.name ++ ". Got " ++ n))) ∧
    (∀ (d : Deserializers) (dms : List data_member) (body : List Event)
        (c : Option Event),
      fromXML_complex d e.name false dms ⟨Event.start_element e.name :: body, c⟩ ""
        = (deserialize_tail d dms ⟨body, some (Event.start_element e.name)⟩).bind
            fun fields p => .ok (.struct fields) p) := by
  have hen : effective_name e.name false "" = e.name := by
    simp [effective_name, String.isEmpty_iff]
  refine ⟨?_, ?_, ?_, ?_⟩
  · simp [complex_type.new, hname, attribute_present, element_elt.defaultTypeName]
  · intro t dms fields s
    simp [toXML_complex, hen]
  · intro d dms n body c hn
    have := fromXML_complex_mismatch d e.name false dms "" n body c (by rw [hen]; exact hn)
    rw [hen] at this
    exact this
  · intro d dms body c
    have := fromXML_complex_open d e.name false dms "" body c
    rw [hen] at this
    exact this

/-- C15 at the note schema: the element `note` with its unnamed complexType. -/
theorem unnamed_type_default_tag_witness :
    complex_type.new ⟨"note", "note_type", false, false⟩ []
      = .complex_type "note_type" "note" false [] [] ∧
    fromXML_complex fromXML_builtin "note" false [] ⟨[.start_element "memo"], none⟩ ""
      = .error (.runtime_error "expected note. Got memo") := by
  have h := unnamed_type_default_tag ⟨"note", "note_type", false, false⟩ [] rfl
  exact ⟨h.1, h.2.2.1 fromXML_builtin [] "memo" [] none (by decide)⟩

/-! ## C16: a type declared with an explicit name -/

/-- C16 (counterexample): ingesting a schema in which element `e` holds the
complexType named `N` yields the node `N` with `anonymous = true`; its generated
deserializer, called with an empty name on a document whose opening tag is `N`,
throws the name-mismatch error. -/
theorem named_type_rejects_own_name :
    inhaleSchema named_schema
      = .ok { global := named_graph, scopeStack := [.at []], elementStack := [],
              eventProcessors := [.event_processor] } ∧
    fromXML_complex fromXML_builtin "e" true []
        ⟨[.start_element "N", .end_element], none⟩ ""
      = .error (.runtime_error "expected . Got N") := by
  constructor
  · rfl
  · simp [fromXML_complex, effective_name, parser.next_expect, parser.next, typeOf,
      Event.type, Result.bind, parser.name]

/-- C16 (amended): for a complexType declared with an explicit `name` attribute
`N` inside element `e`, the created node is named `N`, and its generated
deserializer has no default tag: called with an empty name it throws the
name-mismatch error for every (non-empty) opening tag; called with a non-empty
name it throws that error for every other opening tag and passes the check for
the opening tag equal to the name. -/
theorem named_type_no_default_tag (e : element_elt) (attrs : List (String × String))
    (N : String) (hname : attrs.lookup "name" = some N) :
    complex_type.new e attrs = .complex_type N e.name true [] [] ∧
    (∀ (d : Deserializers) (dms : List data_member) (n : String) (body : List Event)
        (c : Option Event), n ≠ "" →
      fromXML_complex d e.name true dms ⟨Event.start_element n :: body, c⟩ ""
        = .error (.runtime_error ("expected " ++ "" ++ ". Got " ++ n))) ∧
    (∀ (d : Deserializers) (dms : List data_member) (name n : String)
        (body : List Event) (c : Option Event), n ≠ name →
      fromXML_complex d e.name true dms ⟨Event.start_element n :: body, c⟩ name
        = .error (.runtime_error ("expected " ++ name ++ ". Got " ++ n))) ∧
    (∀ (d : Deserializers) (dms : List data_member) (name : String)
        (body : List Event) (c : Option Event),
      fromXML_complex d e.name true dms ⟨Event.start_element name :: body, c⟩ name
        = (deserialize_tail d dms ⟨body, some (Event.start_element name)⟩).bind
            fun fields p => .ok (.struct fields) p) := by
  have hen : ∀ name, effective_name e.name true name = name := by
    intro name
    simp [effective_name]
  refine ⟨?_, ?_, ?_, ?_⟩
  · simp [complex_type.new, hname, attribute_present]
  · intro d dms n body c hn
    have := fromXML_complex_mismatch d e.name true dms "" n body c (by rw [hen]; exact hn)
    rw [hen] at this
    exact this
  · intro d dms name n body c hn
    have := fromXML_complex_mismatch d e.name true dms name n body c (by rw [hen]; exact hn)
    rw [hen] at this
    exact this
  · intro d dms name body c
    have := fromXML_complex_open d e.name true dms name body c
    rw [hen] at this
    exact this

/-- C16 (amended) at the schema with element `e` and the complexType named `N`. -/
theorem named_type_no_default_tag_witness :
    complex_type.new ⟨"e", "N", false, false⟩ [("name", "N")]
      = .complex_type "N" "e" true [] [] ∧
    fromXML_complex fromXML_builtin "e" true [] ⟨[.start_element "x"], none⟩ "N"
      = .error (.runtime_error "expected N. Got x") := by
  have h := named_type_no_default_tag ⟨"e", "N", false, false⟩ [("name", "N")] "N" rfl
  exact ⟨h.1, h.2.2.1 fromXML_builtin [] "N" "x" [] none (by decide)⟩

/-! ## C17: the flag `anonymous` -/

/-- C17 (the code at the failing inputs): the constructor of `complex_type` sets
`anonymous` to `attribute_present("name")`. Ingesting the note schema, whose
complexType has no `name` attribute, yields a node with `anonymous = false`;
ingesting a schema whose complexType has the attribute `name="N"` yields a node
with `anonymous = true`. -/
theorem anonymous_flag_is_name_present :
    (∀ (e : element_elt) (attrs : List (String × String)),
      complex_type.new e attrs
        = .complex_type ((attrs.lookup "name").getD (e.name ++ "_type")) e.name
            (attrs.lookup "name").isSome [] []) ∧
    (∃ st, inhaleSchema note_schema = .ok st ∧
      map_find st.global.memberTypes "note_type"
        = some (.complex_type "note_type" "note" false []
            [ ⟨.required, "to", ⟨["xs:string"], "std::string"⟩⟩,
              ⟨.optional, "cc", ⟨["xs:string"], "std::string"⟩⟩,
              ⟨.required, "from", ⟨["xs:string"], "std::string"⟩⟩ ])) ∧
    (∃ st, inhaleSchema named_schema = .ok st ∧
      map_find st.global.memberTypes "N" = some (.complex_type "N" "e" true [] [])) :=
  ⟨fun _ _ => rfl, ⟨_, rfl, rfl⟩, ⟨_, rfl, rfl⟩⟩

/-! ## C20: the builtin types of a new global scope -/

/-- C20: a newly constructed global scope holds exactly four member types, under
the keys "xs:string", "xs:int", "xs:byte" and "xs:boolean" (listed here in map
order), with target names `std::string`, `int`, `signed char` and `bool` and with
schema names equal to their keys; it has no data members. -/
theorem global_scope_new_builtins :
    global_scope.new.memberTypes
      = [ ("xs:boolean", .builtin .boolean_type), ("xs:byte", .builtin .byte_type),
          ("xs:int", .builtin .int_type), ("xs:string", .builtin .string_type) ] ∧
    global_scope.new.dataMembers = [] ∧
    global_scope.new.memberTypes.length = 4 ∧
    (map_find global_scope.new.memberTypes "xs:string").map type_base.name
      = some "std::string" ∧
    (map_find global_scope.new.memberTypes "xs:int").map type_base.name = some "int" ∧
    (map_find global_scope.new.memberTypes "xs:byte").map type_base.name
      = some "signed char" ∧
    (map_find global_scope.new.memberTypes "xs:boolean").map type_base.name
      = some "bool" ∧
    (∀ key t, (key, t) ∈ global_scope.new.memberTypes →
      ∃ k, t = .builtin k ∧ k.xsdName = key) := by
  have hm : global_scope.new.memberTypes
      = [ ("xs:boolean", .builtin .boolean_type), ("xs:byte", .builtin .byte_type),
          ("xs:int", .builtin .int_type), ("xs:string", .builtin .string_type) ] := rfl
  refine ⟨hm, rfl, rfl, rfl, rfl, rfl, rfl, ?_⟩
  intro key t hmem
  rw [hm] at hmem
  simp only [List.mem_cons, Prod.mk.injEq, List.mem_singleton, List.not_mem_nil,
    or_false] at hmem
  rcases hmem with ⟨rfl, rfl⟩ | ⟨rfl, rfl⟩ | ⟨rfl, rfl⟩ | ⟨rfl, rfl⟩
  · exact ⟨.boolean_type, rfl, rfl⟩
  · exact ⟨.byte_type, rfl, rfl⟩
  · exact ⟨.int_type, rfl, rfl⟩
  · exact ⟨.string_type, rfl, rfl⟩

/-! ## C18: lexical name resolution -/

/-- A node and its header have the same name. -/
theorem header_name (t t' : type_base) (h : t'.header = t.header) : t'.name = t.name := by
  cases t <;> cases t' <;> simp [type_base.header] at h <;>
    simp [type_base.name, h]

/-- Lookup after an insertion in key order under a key that is not bound. -/
theorem map_find_ordered_insert (m : List (String × type_base)) (key : String)
    (t : type_base) (k : String) (hfresh : map_find m key = none) :
    map_find (ordered_insert m key t) k
      = if key = k then some t else map_find m k := by
  induction m with
  | nil => simp [ordered_insert, map_find]
  | cons kv rest ih =>
    obtain ⟨k0, v0⟩ := kv
    have hk0 : k0 ≠ key := by
      intro h
      simp [map_find, h] at hfresh
    have hrest : map_find rest key = none := by
      simpa [map_find, hk0] using hfresh
    simp only [ordered_insert]
    by_cases hless : string_less key k0 = true
    · simp [hless, map_find]
    · simp only [hless, if_false, map_find, ih hrest, Bool.false_eq_true]
      by_cases h0 : k0 = k
      · have h1 : key ≠ k := fun h => hk0 (h0.trans h.symm)
        simp [h0, h1]
      · simp [h0]

/-- The flag of `map_insert` tells whether the key was unbound. -/
theorem map_insert_flag (m : List (String × type_base)) (key : String) (t : type_base) :
    (map_insert m key t).2 = true ↔ map_find m key = none := by
  unfold map_insert
  cases map_find m key <;> simp

/-- Lookup after a successful `insert`. -/
theorem map_find_insert (m : List (String × type_base)) (key : String) (t : type_base)
    (k : String) (hfresh : map_find m key = none) :
    map_find (map_insert m key t).1 k = if key = k then some t else map_find m k := by
  simp [map_insert, hfresh, map_find_ordered_insert m key t k hfresh]

/-- An `insert` leaves every existing binding as it is. -/
theorem map_find_insert_of_bound (m : List (String × type_base)) (key : String)
    (t : type_base) (k : String) (t0 : type_base) (h : map_find m k = some t0) :
    map_find (map_insert m key t).1 k = some t0 := by
  cases hk : map_find m key with
  | some v => simp [map_insert, hk, h]
  | none =>
    rw [map_find_insert m key t k hk]
    have hne : key ≠ k := by
      intro he
      rw [he, h] at hk
      cases hk
    simp [hne, h]

/-- Lookup in a map whose nodes under the key `k` have been updated. -/
theorem map_find_update (f : scope → scope) (k : String) (m : List (String × type_base))
    (key : String) :
    map_find (m.map fun kt => if kt.1 = k then (kt.1, node_update f kt.2) else kt) key
      = (map_find m key).map fun t => if key = k then node_update f t else t := by
  induction m with
  | nil => simp [map_find]
  | cons kv rest ih =>
    obtain ⟨k0, v0⟩ := kv
    by_cases h0 : k0 = k
    · have hhead : (if (k0, v0).1 = k then ((k0, v0).1, node_update f (k0, v0).2)
          else (k0, v0)) = (k0, node_update f v0) := by simp [h0]
      rw [List.map_cons, hhead]
      by_cases h1 : k0 = key
      · have h2 : key = k := h1.symm.trans h0
        simp [map_find, h1, h2]
      · simp only [map_find, h1, if_false]
        exact ih
    · have hhead : (if (k0, v0).1 = k then ((k0, v0).1, node_update f (k0, v0).2)
          else (k0, v0)) = (k0, v0) := by simp [h0]
      rw [List.map_cons, hhead]
      by_cases h1 : k0 = key
      · have h2 : ¬ key = k := fun h => h0 (h1.trans h)
        simp [map_find, h1, h2]
      · simp only [map_find, h1, if_false]
        exact ih

/-- The function `scope_update` below the top level, written with `node_update`. -/
theorem scope_update_cons (f : scope → scope) (k : String) (ks : List String) (s : scope) :
    scope_update f (k :: ks) s
      = { s with memberTypes := s.memberTypes.map fun kt =>
            if kt.1 = k then (kt.1, node_update (scope_update f ks) kt.2) else kt } := by
  simp only [scope_update]
  congr 1
  apply List.map_congr_left
  intro kt _
  obtain ⟨k0, v0⟩ := kt
  cases v0 <;> simp [node_update]

/-- One step of `scope_at`. -/
theorem scope_at_cons (k : String) (ks : List String) (s : scope) :
    scope_at (k :: ks) s = ((map_find s.memberTypes k).bind node_scope).bind (scope_at ks) := by
  simp only [scope_at]
  cases map_find s.memberTypes k with
  | none => rfl
  | some t => cases t <;> rfl

/-- The scope of an updated node. -/
theorem node_scope_update (f : scope → scope) (t : type_base) :
    node_scope (node_update f t) = (node_scope t).map f := by
  cases t <;> simp [node_update, node_scope]

/-- An update leaves the header of a node as it is. -/
theorem header_node_update (f : scope → scope) (t : type_base) :
    (node_update f t).header = t.header := by
  cases t <;> simp [node_update, type_base.header]

/-- The scope at `q` after an update at `q`. -/
theorem scope_at_update_self (f : scope → scope) (q : List String) :
    ∀ (g s : scope), scope_at q g = some s → scope_at q (scope_update f q g) = some (f s) := by
  induction q with
  | nil =>
    intro g s h
    simp only [scope_at] at h
    cases h
    rfl
  | cons k ks ih =>
    intro g s h
    rw [scope_at_cons] at h
    rw [scope_update_cons, scope_at_cons, map_find_update]
    cases hm : map_find g.memberTypes k with
    | none => simp [hm] at h
    | some t =>
      cases hn : node_scope t with
      | none => simp [hm, hn] at h
      | some s1 =>
        simp only [hm, hn, Option.some_bind] at h
        simp only [Option.map_some', if_true, Option.some_bind, node_scope_update, hn]
        exact ih s1 s h

/-- An update at `q` by a function that keeps the existing bindings of the scope
it acts on: every scope still exists, its bindings keep their headers, and the
member list of every scope other than the one at `q` is unchanged. -/
theorem scope_at_update (f : scope → scope)
    (hf : ∀ s k t, map_find s.memberTypes k = some t → map_find (f s).memberTypes k = some t)
    (p : List String) :
    ∀ (q : List String) (g s0 : scope), scope_at p g = some s0 →
      ∃ s0', scope_at p (scope_update f q g) = some s0' ∧
        (∀ k t, map_find s0.memberTypes k = some t →
          ∃ t', map_find s0'.memberTypes k = some t' ∧ t'.header = t.header) ∧
        (p ≠ q → s0'.dataMembers = s0.dataMembers) := by
  induction p with
  | nil =>
    intro q g s0 h
    simp only [scope_at] at h
    cases h
    cases q with
    | nil =>
      refine ⟨f g, rfl, ?_, fun hne => absurd rfl hne⟩
      intro k t hk
      exact ⟨t, hf g k t hk, rfl⟩
    | cons k ks =>
      refine ⟨scope_update f (k :: ks) g, rfl, ?_, fun _ => ?_⟩
      · intro k0 t hk
        rw [scope_update_cons]
        simp only [map_find_update, hk, Option.map_some']
        refine ⟨_, rfl, ?_⟩
        split
        · exact header_node_update _ t
        · rfl
      · rw [scope_update_cons]
  | cons k' ks' ih =>
    intro q g s0 h
    rw [scope_at_cons] at h
    cases hm : map_find g.memberTypes k' with
    | none => simp [hm] at h
    | some t1 =>
      cases hn : node_scope t1 with
      | none => simp [hm, hn] at h
      | some s1 =>
        simp only [hm, hn, Option.some_bind] at h
        cases q with
        | nil =>
          refine ⟨s0, ?_, fun k t hk => ⟨t, hk, rfl⟩, fun _ => rfl⟩
          rw [scope_at_cons]
          simp only [scope_update, hf g k' t1 hm, Option.some_bind, hn]
          exact h
        | cons k ks =>
          by_cases hk : k' = k
          · subst hk
            obtain ⟨s0', h1, h2, h3⟩ := ih ks s1 s0 h
            refine ⟨s0', ?_, h2, fun hne => h3 fun he => hne (by rw [he])⟩
            rw [scope_update_cons, scope_at_cons, map_find_update]
            simp only [hm, Option.map_some', if_true, Option.some_bind, node_scope_update, hn]
            exact h1
          · refine ⟨s0, ?_, fun k t hk => ⟨t, hk, rfl⟩, fun _ => rfl⟩
            rw [scope_update_cons, scope_at_cons, map_find_update]
            simp only [hm, Option.map_some', hk, if_false, Option.some_bind, hn]
            exact h

/-- The scope one step below `q`. -/
theorem scope_at_append (q : List String) (k : String) :
    ∀ g : scope, scope_at (q ++ [k]) g
      = (scope_at q g).bind fun s => (map_find s.memberTypes k).bind node_scope := by
  induction q with
  | nil =>
    intro g
    rw [List.nil_append, scope_at_cons]
    simp only [scope_at, Option.some_bind]
    cases (map_find g.memberTypes k).bind node_scope <;> rfl
  | cons k0 ks ih =>
    intro g
    rw [List.cons_append, scope_at_cons, scope_at_cons]
    cases hm : (map_find g.memberTypes k0).bind node_scope with
    | none => rfl
    | some s1 => simp only [Option.some_bind, ih s1]

/-- Every graph extends itself. -/
theorem graph_extends_refl (path : List String) (g : scope) : graph_extends path g g :=
  fun _ s0 h => ⟨s0, h, fun _ t hk => ⟨t, hk, rfl⟩, fun _ => rfl⟩

/-- Extension composes. -/
theorem graph_extends_trans (path : List String) (g1 g2 g3 : scope)
    (h12 : graph_extends path g1 g2) (h23 : graph_extends path g2 g3) :
    graph_extends path g1 g3 := by
  intro p s1 hs1
  obtain ⟨s2, hs2, hb2, hd2⟩ := h12 p s1 hs1
  obtain ⟨s3, hs3, hb3, hd3⟩ := h23 p s2 hs2
  refine ⟨s3, hs3, ?_, fun hp => (hd3 hp).trans (hd2 hp)⟩
  intro k t hk
  obtain ⟨t2, hk2, hh2⟩ := hb2 k t hk
  obtain ⟨t3, hk3, hh3⟩ := hb3 k t2 hk2
  exact ⟨t3, hk3, hh3.trans hh2⟩

/-- Extension with respect to a scope further down is extension with respect to
the scope above. -/
theorem graph_extends_weaken (path q : List String) (g g' : scope) (hq : path <+: q)
    (h : graph_extends q g g') : graph_extends path g g' := by
  intro p s0 hs0
  obtain ⟨s0', hs0', hb, hd⟩ := h p s0 hs0
  exact ⟨s0', hs0', hb, fun hp => hd fun hqp => hp (hq.trans hqp)⟩

/-- An update of the scope at `path` that keeps its existing bindings extends the
graph. -/
theorem graph_extends_update (f : scope → scope)
    (hf : ∀ s k t, map_find s.memberTypes k = some t → map_find (f s).memberTypes k = some t)
    (path : List String) (g : scope) :
    graph_extends path g (scope_update f path g) := by
  intro p s0 hs0
  obtain ⟨s0', h1, h2, h3⟩ := scope_at_update f hf p path g s0 hs0
  refine ⟨s0', h1, h2, fun hp => h3 ?_⟩
  intro he
  apply hp
  rw [he]

/-! ## Ingestion of well-nested documents -/

/-- The loop of `inhaleSchema` over a concatenation of event sequences. -/
theorem process_all_append (a b : List SchemaEvent) :
    ∀ st : ingest_state,
      process_all st (a ++ b) = (process_all st a).bind fun st1 => process_all st1 b := by
  induction a with
  | nil => intro st; rfl
  | cons e es ih =>
    intro st
    simp only [List.cons_append, process_all]
    cases process st e with
    | ok st1 => exact ih st1
    | thrown e => rfl
    | undefined u => rfl

/-- Sequencing of two steps that both succeed. -/
theorem Outcome.bind_eq_ok {α β : Type} (r : Outcome α) (f : α → Outcome β) (b : β)
    (h : r.bind f = .ok b) : ∃ a, r = .ok a ∧ f a = .ok b := by
  cases r with
  | ok a => exact ⟨a, rfl, h⟩
  | thrown e => cases h
  | undefined u => cases h

/-- Ingestion of one construct splits into its start tag, its children and its
end tag. -/
theorem process_node_split (n : String) (attrs : List (String × String)) (cs : List Node)
    (st st' : ingest_state) (h : process_all st (Node.node n attrs cs).events = .ok st') :
    ∃ st1 st2, process st (.start_element n attrs) = .ok st1 ∧
      process_all st1 (events_of cs) = .ok st2 ∧ process st2 .end_element = .ok st' := by
  simp only [Node.events, process_all] at h
  obtain ⟨st1, h1, h⟩ := Outcome.bind_eq_ok _ _ _ h
  rw [process_all_append] at h
  obtain ⟨st2, h2, h⟩ := Outcome.bind_eq_ok _ _ _ h
  simp only [process_all] at h
  obtain ⟨st3, h3, h⟩ := Outcome.bind_eq_ok _ _ _ h
  cases h
  exact ⟨st1, st2, h1, h2, h3⟩

/-- A constructed `element_elt` has the attribute `name` as its name and the
attribute `type`, or else the default type name, as its type name. -/
theorem element_elt_init_name (attrs : List (String × String)) (e : element_elt)
    (h : element_elt.init attrs = .ok e) :
    attrs.lookup "name" = some e.name ∧
    e.typeName = (attrs.lookup "type").getD (e.name ++ "_type") := by
  unfold element_elt.init at h
  cases hn : attrs.lookup "name" with
  | none => simp [hn] at h
  | some nm =>
    simp only [hn] at h
    obtain ⟨m, _, h⟩ := Outcome.bind_eq_ok _ _ _ h
    obtain ⟨o, _, h⟩ := Outcome.bind_eq_ok _ _ _ h
    cases h
    exact ⟨rfl, rfl⟩

/-- The start tag of an `element`: the handler is constructed and pushed. -/
theorem process_start_element (st st1 : ingest_state) (attrs : List (String × String))
    (h : process st (.start_element "element" attrs) = .ok st1) :
    ∃ e, element_elt.init attrs = .ok e ∧
      st1 = { st with elementStack := e :: st.elementStack,
                      eventProcessors := .element_elt e :: st.eventProcessors } := by
  unfold process at h
  cases hp : st.eventProcessors with
  | nil => simp [hp] at h
  | cons top ps =>
    simp only [hp, afterProcess_start, element_elt.construct] at h
    simp only [show ("element" = "schema") = False by decide, if_false, if_true] at h
    obtain ⟨e, he, h⟩ := Outcome.bind_eq_ok _ _ _ h
    cases h
    exact ⟨e, he, by simp [hp]⟩

/-- The end tag of an `element`: the type name is resolved, the member is appended
to the scope on top of the scope stack and the element stack is popped. -/
theorem process_end_element (st st' : ingest_state) (e : element_elt) (ps : List elt)
    (hp : st.eventProcessors = .element_elt e :: ps)
    (h : process st .end_element = .ok st') :
    ∃ t path rest e0 es, findType_loop st.global st.scopeStack e.typeName = .ok t ∧
      st.scopeStack = .at path :: rest ∧ st.elementStack = e0 :: es ∧
      st' = { global := scope_update (push_member ⟨e.kind, e.name, t⟩) path st.global,
              scopeStack := st.scopeStack, elementStack := es, eventProcessors := ps } := by
  unfold process at h
  simp only [hp, afterProcess_end, element_elt.destruct, findType] at h
  obtain ⟨t, ht, h⟩ := Outcome.bind_eq_ok _ _ _ h
  cases hs : st.scopeStack with
  | nil => simp [hs] at h
  | cons r rest =>
    cases r with
    | dangling => simp [hs] at h
    | «at» path =>
      cases hes : st.elementStack with
      | nil => simp [hs, hes] at h
      | cons e0 es =>
        simp only [hs, hes] at h
        cases h
        refine ⟨t, path, rest, e0, es, ?_, rfl, rfl, ?_⟩
        · simpa [hs] using ht
        · rfl

/-- The start tag of a `complexType`: with an element open and an existing scope
on top of the scope stack, the new node is inserted under its name and its scope
pushed, or, when the name is already bound there, the map is left unchanged and a
reference to the destroyed node is pushed. -/
theorem process_start_complexType (st st1 : ingest_state) (attrs : List (String × String))
    (h : process st (.start_element "complexType" attrs) = .ok st1) :
    ∃ e es path rest s, st.elementStack = e :: es ∧ st.scopeStack = .at path :: rest ∧
      scope_at path st.global = some s ∧
      ((map_find s.memberTypes ((attrs.lookup "name").getD (e.name ++ "_type")) = none ∧
        st1 = { st with
          global := scope_update
            (insert_type ((attrs.lookup "name").getD (e.name ++ "_type"))
              (complex_type.new e attrs)) path st.global,
          scopeStack := .at (path ++ [(attrs.lookup "name").getD (e.name ++ "_type")])
            :: st.scopeStack,
          eventProcessors := .complex_type_elt :: st.eventProcessors }) ∨
       ((∃ t0, map_find s.memberTypes ((attrs.lookup "name").getD (e.name ++ "_type"))
          = some t0) ∧
        st1 = { st with
          scopeStack := .dangling :: st.scopeStack,
          eventProcessors := .complex_type_elt :: st.eventProcessors })) := by
  unfold process at h
  cases hp : st.eventProcessors with
  | nil => simp [hp] at h
  | cons top ps =>
    simp only [hp, afterProcess_start, complex_type_elt.construct] at h
    simp only [show ("complexType" = "schema") = False by decide,
      show ("complexType" = "element") = False by decide,
      show ("complexType" = "sequence") = False by decide, if_false, if_true] at h
    cases hes : st.elementStack with
    | nil => simp [hes] at h
    | cons e es =>
      cases hs : st.scopeStack with
      | nil => simp [hes, hs] at h
      | cons r rest =>
        cases r with
        | dangling => simp [hes, hs] at h
        | «at» path =>
          cases hsc : scope_at path st.global with
          | none => simp [hes, hs, hsc] at h
          | some s =>
            simp only [hes, hs, hsc, element_elt.defaultTypeName] at h
            refine ⟨e, es, path, rest, s, rfl, rfl, hsc, ?_⟩
            cases hf : map_find s.memberTypes ((attrs.lookup "name").getD (e.name ++ "_type")) with
            | none =>
              left
              have hflag := (map_insert_flag s.memberTypes
                ((attrs.lookup "name").getD (e.name ++ "_type")) (complex_type.new e attrs)).mpr hf
              simp only [hflag, if_true] at h
              cases h
              exact ⟨rfl, by simp [hp, hs, hes]; rfl⟩
            | some t0 =>
              right
              have hflag : (map_insert s.memberTypes
                  ((attrs.lookup "name").getD (e.name ++ "_type"))
                  (complex_type.new e attrs)).2 = false := by
                simp [map_insert, hf]
              simp only [hflag, Bool.false_eq_true, if_false] at h
              cases h
              exact ⟨⟨t0, rfl⟩, by simp [hp, hs, hes]⟩

/-- The end tag of a `complexType`: the scope stack is popped. -/
theorem process_end_complexType (st st' : ingest_state) (ps : List elt)
    (hp : st.eventProcessors = .complex_type_elt :: ps)
    (h : process st .end_element = .ok st') :
    ∃ r ss, st.scopeStack = r :: ss ∧
      st' = { st with scopeStack := ss, eventProcessors := ps } := by
  unfold process at h
  simp only [hp, afterProcess_end] at h
  cases hs : st.scopeStack with
  | nil => simp [hs] at h
  | cons r ss =>
    simp only [hs] at h
    cases h
    exact ⟨r, ss, rfl, rfl⟩

/-- The end tag of a construct whose handler has no destructor of its own. -/
theorem process_end_plain (st st' : ingest_state) (top : elt) (ps : List elt)
    (hp : st.eventProcessors = top :: ps)
    (htop : top = .schema_elt ∨ top = .sequence_elt ∨ top = .event_processor)
    (h : process st .end_element = .ok st') :
    st' = { st with eventProcessors := ps } := by
  unfold process at h
  rcases htop with rfl | rfl | rfl <;>
  · simp only [hp, afterProcess_end] at h
    cases h
    rfl

/-- Character data leaves the state as it is. -/
theorem process_characters (st st' : ingest_state) (v : String)
    (h : process st (.characters v) = .ok st') : st' = st := by
  unfold process at h
  cases hp : st.eventProcessors with
  | nil => simp [hp] at h
  | cons top ps =>
    simp only [hp] at h
    cases h
    rfl

/-- The start tag of a construct other than `element` and `complexType`: it is a
`schema` or a `sequence`, and its handler is pushed. -/
theorem process_start_plain (st st1 : ingest_state) (n : String)
    (attrs : List (String × String)) (hne : n ≠ "element") (hnc : n ≠ "complexType")
    (h : process st (.start_element n attrs) = .ok st1) :
    ∃ top, (top = .schema_elt ∨ top = .sequence_elt ∨ top = .event_processor) ∧
      st1 = { st with eventProcessors := top :: st.eventProcessors } := by
  unfold process at h
  cases hp : st.eventProcessors with
  | nil => simp [hp] at h
  | cons top ps =>
    simp only [hp, afterProcess_start, hne, hnc, if_false] at h
    by_cases h1 : n = "schema"
    · simp only [h1, if_true] at h
      cases h
      exact ⟨.schema_elt, Or.inl rfl, by simp [hp]⟩
    · by_cases h2 : n = "sequence"
      · simp only [h1, h2, if_true, if_false] at h
        cases h
        exact ⟨.sequence_elt, Or.inr (Or.inl rfl), by simp [hp]⟩
      · simp [h1, h2] at h

/-- How `balanced_step` is established. -/
theorem balanced_step_intro (st st' : ingest_state) (names : List String)
    (hss : st'.scopeStack = st.scopeStack) (hes : st'.elementStack = st.elementStack)
    (hps : st'.eventProcessors = st.eventProcessors)
    (hat : ∀ path rest s, st.scopeStack = .at path :: rest →
      scope_at path st.global = some s →
      graph_extends path st.global st'.global ∧
      ∃ s' new, scope_at path st'.global = some s' ∧
        s'.dataMembers = s.dataMembers ++ new ∧ new.map (fun dm => dm.name) = names)
    (hd : ∀ rest, st.scopeStack = .dangling :: rest → st'.global = st.global) :
    balanced_step st st' names := by
  refine ⟨hss, hes, hps, ?_⟩
  cases hs : st.scopeStack with
  | nil => trivial
  | cons r rest =>
    cases r with
    | dangling => exact hd rest hs
    | «at» path => exact fun s hsc => hat path rest s hs hsc

/-- What `balanced_step` gives when the top scope exists. -/
theorem balanced_step_at (st st' : ingest_state) (names : List String)
    (h : balanced_step st st' names) (path : List String) (rest : List scope_ref)
    (s : scope) (hs : st.scopeStack = .at path :: rest)
    (hsc : scope_at path st.global = some s) :
    graph_extends path st.global st'.global ∧
    ∃ s' new, scope_at path st'.global = some s' ∧
      s'.dataMembers = s.dataMembers ++ new ∧ new.map (fun dm => dm.name) = names := by
  have h4 := h.2.2.2
  rw [hs] at h4
  exact h4 s hsc

/-- What `balanced_step` gives when the top entry refers to a destroyed scope. -/
theorem balanced_step_dangling (st st' : ingest_state) (names : List String)
    (h : balanced_step st st' names) (rest : List scope_ref)
    (hs : st.scopeStack = .dangling :: rest) : st'.global = st.global := by
  have h4 := h.2.2.2
  rw [hs] at h4
  exact h4

/-- Nothing processed, nothing changed. -/
theorem balanced_step_refl (st : ingest_state) : balanced_step st st [] :=
  balanced_step_intro st st [] rfl rfl rfl
    (fun path _ s _ hsc => ⟨graph_extends_refl path _, s, [], hsc, by simp, rfl⟩)
    (fun _ _ => rfl)

/-- Two fragments one after the other. -/
theorem balanced_step_trans (st st1 st2 : ingest_state) (n1 n2 : List String)
    (h1 : balanced_step st st1 n1) (h2 : balanced_step st1 st2 n2) :
    balanced_step st st2 (n1 ++ n2) := by
  refine balanced_step_intro st st2 (n1 ++ n2) (h2.1.trans h1.1) (h2.2.1.trans h1.2.1)
    (h2.2.2.1.trans h1.2.2.1) ?_ ?_
  · intro path rest s hs hsc
    obtain ⟨hg1, s1, new1, hs1, hd1, hn1⟩ := balanced_step_at st st1 n1 h1 path rest s hs hsc
    obtain ⟨hg2, s2, new2, hs2, hd2, hn2⟩ :=
      balanced_step_at st1 st2 n2 h2 path rest s1 (h1.1.trans hs) hs1
    refine ⟨graph_extends_trans path _ _ _ hg1 hg2, s2, new1 ++ new2, hs2, ?_, ?_⟩
    · rw [hd2, hd1, List.append_assoc]
    · rw [List.map_append, hn1, hn2]
  · intro rest hs
    have e1 := balanced_step_dangling st st1 n1 h1 rest hs
    have e2 := balanced_step_dangling st1 st2 n2 h2 rest (h1.1.trans hs)
    exact e2.trans e1

/-- Appending a member keeps the bindings of the scope. -/
theorem push_member_bindings (dm : data_member) :
    ∀ s k t, map_find s.memberTypes k = some t →
      map_find (push_member dm s).memberTypes k = some t :=
  fun _ _ _ h => h

/-- Inserting a type keeps the existing bindings of the scope. -/
theorem insert_type_bindings (key : String) (t0 : type_base) :
    ∀ s k t, map_find s.memberTypes k = some t →
      map_find (insert_type key t0 s).memberTypes k = some t :=
  fun s k t h => map_find_insert_of_bound s.memberTypes key t0 k t h

/-- A path is not below its own extension. -/
theorem append_key_not_above (path : List String) (k : String) : ¬ (path ++ [k]) <+: path := by
  intro h
  have := h.length_le
  simp at this

mutual
/-- Ingestion of a well-nested fragment, when it succeeds, restores the three
stacks, extends the graph and appends to the scope on top of the scope stack
exactly the members named by `Node.appended`, in document order. -/
theorem process_node_balanced : ∀ (n : Node) (st st' : ingest_state),
    process_all st n.events = .ok st' → balanced_step st st' n.appended
  | .text v, st, st', h => by
    simp only [Node.events, process_all] at h
    obtain ⟨st1, h1, h⟩ := Outcome.bind_eq_ok _ _ _ h
    cases h
    have hst := process_characters st _ v h1
    rw [hst]
    simpa [Node.appended] using balanced_step_refl st
  | .node n attrs cs, st, st', h => by
    obtain ⟨st1, st2, h1, h2, h3⟩ := process_node_split n attrs cs st st' h
    have ih := process_nodes_balanced cs st1 st2 h2
    by_cases hne : n = "element"
    · subst hne
      obtain ⟨e, he, hst1⟩ := process_start_element st st1 attrs h1
      subst hst1
      obtain ⟨t, path, rest, e0, es, _, hstk, helst, hst'⟩ :=
        process_end_element st2 st' e st.eventProcessors ih.2.2.1 h3
      subst hst'
      have hname := (element_elt_init_name attrs e he).1
      have hstk0 : st.scopeStack = .at path :: rest := ih.1.symm.trans hstk
      have hes0 : es = st.elementStack := by
        have := ih.2.1
        rw [helst] at this
        simp only [List.cons.injEq] at this
        exact this.2
      refine balanced_step_intro st _ _ ih.1 hes0 rfl ?_ ?_
      · intro path' rest' s hs hsc
        rw [hstk0] at hs
        simp only [List.cons.injEq, scope_ref.at.injEq] at hs
        obtain ⟨hp, _⟩ := hs
        subst hp
        obtain ⟨hg, s2, new2, hs2, hd2, hn2⟩ :=
          balanced_step_at _ st2 _ ih path rest s hstk0 hsc
        refine ⟨graph_extends_trans path _ _ _ hg
          (graph_extends_update _ (push_member_bindings _) path st2.global),
          push_member ⟨e.kind, e.name, t⟩ s2, new2 ++ [⟨e.kind, e.name, t⟩],
          scope_at_update_self _ path _ s2 hs2, ?_, ?_⟩
        · simp [push_member, hd2, List.append_assoc]
        · simp [Node.appended, hn2, hname]
      · intro rest' hs
        rw [hstk0] at hs
        cases hs
    · by_cases hnc : n = "complexType"
      · subst hnc
        obtain ⟨e, es, path, rest, s, hel, hstk, hsc, hcase⟩ :=
          process_start_complexType st st1 attrs h1
        have happ : (Node.node "complexType" attrs cs).appended = [] := by
          simp [Node.appended]
        rw [happ]
        rcases hcase with ⟨hfresh, hst1⟩ | ⟨_, hst1⟩
        · subst hst1
          have hs1 : scope_at (path ++ [(attrs.lookup "name").getD (e.name ++ "_type")])
              (scope_update (insert_type ((attrs.lookup "name").getD (e.name ++ "_type"))
                (complex_type.new e attrs)) path st.global) = some ⟨[], []⟩ := by
            rw [scope_at_append, scope_at_update_self _ path _ s hsc]
            simp [insert_type, map_find_insert _ _ _ _ hfresh, complex_type.new, node_scope]
          obtain ⟨hg, s2, new, hs2, hd2, hn2⟩ :=
            balanced_step_at _ st2 _ ih _ st.scopeStack ⟨[], []⟩ rfl hs1
          obtain ⟨r, ss, hr, hst'⟩ :=
            process_end_complexType st2 st' st.eventProcessors ih.2.2.1 h3
          subst hst'
          have hss : ss = st.scopeStack := by
            have := ih.1
            rw [hr] at this
            simp only [List.cons.injEq] at this
            exact this.2
          refine balanced_step_intro st _ _ hss ih.2.1 rfl ?_ ?_
          · intro path' rest' s' hs hsc'
            rw [hstk] at hs
            simp only [List.cons.injEq, scope_ref.at.injEq] at hs
            obtain ⟨hp, _⟩ := hs
            subst hp
            rw [hsc] at hsc'
            cases hsc'
            have hg0 := graph_extends_update
              (insert_type ((attrs.lookup "name").getD (e.name ++ "_type"))
                (complex_type.new e attrs))
              (insert_type_bindings _ _) path st.global
            have hgw := graph_extends_weaken path _ _ _ (List.prefix_append path _) hg
            obtain ⟨s2', hs2', _, hdm⟩ := hg path _ (scope_at_update_self _ path _ s hsc)
            refine ⟨graph_extends_trans path _ _ _ hg0 hgw, s2', [], hs2', ?_, rfl⟩
            rw [hdm (append_key_not_above path _)]
            simp [insert_type]
          · intro rest' hs
            rw [hstk] at hs
            cases hs
        · subst hst1
          have hg := balanced_step_dangling _ st2 _ ih st.scopeStack rfl
          obtain ⟨r, ss, hr, hst'⟩ :=
            process_end_complexType st2 st' st.eventProcessors ih.2.2.1 h3
          subst hst'
          have hss : ss = st.scopeStack := by
            have := ih.1
            rw [hr] at this
            simp only [List.cons.injEq] at this
            exact this.2
          refine balanced_step_intro st _ _ hss ih.2.1 rfl ?_ ?_
          · intro path' rest' s' hs hsc'
            refine ⟨?_, s', [], ?_, by simp, rfl⟩
            · show graph_extends path' st.global st2.global
              rw [hg]
              exact graph_extends_refl path' _
            · show scope_at path' st2.global = some s'
              rw [hg]
              exact hsc'
          · intro rest' hs
            rw [hstk] at hs
            cases hs
      · obtain ⟨top, htop, hst1⟩ := process_start_plain st st1 n attrs hne hnc h1
        subst hst1
        have hst' := process_end_plain st2 st' top st.eventProcessors ih.2.2.1 htop h3
        subst hst'
        have happ : (Node.node n attrs cs).appended = appended_of cs := by
          simp [Node.appended, hne, hnc]
        rw [happ]
        refine balanced_step_intro st _ _ ih.1 ih.2.1 rfl ?_ ?_
        · intro path rest s hs hsc
          exact balanced_step_at _ st2 _ ih path rest s hs hsc
        · intro rest hs
          have hg := balanced_step_dangling
            { st with eventProcessors := top :: st.eventProcessors } st2 _ ih rest hs
          exact hg
/-- The same for a sequence of fragments. -/
theorem process_nodes_balanced : ∀ (cs : List Node) (st st' : ingest_state),
    process_all st (events_of cs) = .ok st' → balanced_step st st' (appended_of cs)
  | [], st, st', h => by
    simp only [events_of, process_all] at h
    cases h
    exact balanced_step_refl st
  | c :: cs, st, st', h => by
    simp only [events_of] at h
    rw [process_all_append] at h
    obtain ⟨st1, h1, h2⟩ := Outcome.bind_eq_ok _ _ _ h
    exact balanced_step_trans _ _ _ _ _ (process_node_balanced c st st1 h1)
      (process_nodes_balanced cs st1 st' h2)
end

/-- The names appended by a concatenation of fragments. -/
theorem appended_of_append (a b : List Node) :
    appended_of (a ++ b) = appended_of a ++ appended_of b := by
  induction a with
  | nil => simp [appended_of]
  | cons c cs ih => simp [appended_of, ih, List.append_assoc]

/-- Character data appends nothing. -/
theorem appended_of_texts (cs : List Node) (hcs : ∀ c ∈ cs, ∃ v, c = Node.text v) :
    appended_of cs = [] := by
  induction cs with
  | nil => rfl
  | cons c cs ih =>
    obtain ⟨v, hv⟩ := hcs c (List.mem_cons_self _ _)
    subst hv
    simp only [appended_of, Node.appended, List.nil_append]
    exact ih fun c hc => hcs c (List.mem_cons_of_mem _ hc)

/-- A complexType whose key is not yet bound in the scope on top of the scope
stack: when its ingestion succeeds, the stacks are as before, that scope binds the
key to a node with the header made by the constructor and has the same member
list, and the scope of the new node holds the members appended by the children. -/
theorem process_complexType_fresh (st st' : ingest_state) (attrs : List (String × String))
    (cs : List Node) (e : element_elt) (es : List element_elt) (path : List String)
    (rest : List scope_ref) (s : scope)
    (hel : st.elementStack = e :: es) (hstk : st.scopeStack = .at path :: rest)
    (hsc : scope_at path st.global = some s)
    (hfresh : map_find s.memberTypes ((attrs.lookup "name").getD (e.name ++ "_type")) = none)
    (h : process_all st (Node.node "complexType" attrs cs).events = .ok st') :
    st'.scopeStack = st.scopeStack ∧ st'.elementStack = st.elementStack ∧
    st'.eventProcessors = st.eventProcessors ∧
    (∃ s2 t2, scope_at path st'.global = some s2 ∧
      map_find s2.memberTypes ((attrs.lookup "name").getD (e.name ++ "_type")) = some t2 ∧
      t2.header = complex_type.new e attrs ∧ s2.dataMembers = s.dataMembers) ∧
    (∃ sN, scope_at (path ++ [(attrs.lookup "name").getD (e.name ++ "_type")]) st'.global
        = some sN ∧
      sN.dataMembers.map (fun dm => dm.name) = appended_of cs) := by
  have hb := process_node_balanced _ st st' h
  refine ⟨hb.1, hb.2.1, hb.2.2.1, ?_⟩
  obtain ⟨st1, st2, h1, h2, h3⟩ := process_node_split _ attrs cs st st' h
  have ih := process_nodes_balanced cs st1 st2 h2
  obtain ⟨e', es', path', rest', s', hel', hstk', hsc', hcase⟩ :=
    process_start_complexType st st1 attrs h1
  rw [hel] at hel'
  rw [hstk] at hstk'
  simp only [List.cons.injEq, scope_ref.at.injEq] at hel' hstk'
  obtain ⟨he, _⟩ := hel'
  obtain ⟨hp, _⟩ := hstk'
  subst he hp
  rw [hsc] at hsc'
  cases hsc'
  rcases hcase with ⟨_, hst1⟩ | ⟨⟨t0, ht0⟩, _⟩
  · subst hst1
    have hs1 : scope_at (path ++ [(attrs.lookup "name").getD (e.name ++ "_type")])
        (scope_update (insert_type ((attrs.lookup "name").getD (e.name ++ "_type"))
          (complex_type.new e attrs)) path st.global) = some ⟨[], []⟩ := by
      rw [scope_at_append, scope_at_update_self _ path _ s hsc]
      simp [insert_type, map_find_insert _ _ _ _ hfresh, complex_type.new, node_scope]
    obtain ⟨hg, sN, new, hsN, hdN, hnN⟩ :=
      balanced_step_at _ st2 _ ih _ st.scopeStack ⟨[], []⟩ rfl hs1
    obtain ⟨r, ss, hr, hst'⟩ :=
      process_end_complexType st2 st' st.eventProcessors ih.2.2.1 h3
    subst hst'
    obtain ⟨s2, hs2, hbind, hdm⟩ := hg path _ (scope_at_update_self _ path _ s hsc)
    obtain ⟨t2, ht2, hh2⟩ := hbind ((attrs.lookup "name").getD (e.name ++ "_type"))
      (complex_type.new e attrs)
      (by simp [insert_type, map_find_insert _ _ _ _ hfresh])
    refine ⟨⟨s2, t2, hs2, ht2, ?_, ?_⟩, sN, hsN, ?_⟩
    · rw [hh2]
      simp [complex_type.new, type_base.header]
    · rw [hdm (append_key_not_above path _)]
      simp [insert_type]
    · rw [hdN]
      simpa using hnN
  · rw [hfresh] at ht0
    cases ht0

/-! ## C14: naming and registration of unnamed complex types -/

/-- When `findType` returns from the scope stack, the scope on top exists. -/
theorem findType_loop_top (g : scope) (path : List String) (rest : List scope_ref)
    (name : String) (t : type_ref)
    (h : findType_loop g (.at path :: rest) name = .ok t) :
    ∃ s, scope_at path g = some s := by
  cases hs : scope_at path g with
  | none => simp [findType_loop, hs] at h
  | some s => exact ⟨s, rfl⟩

/-- One event leaves alone every scope that is not on the scope stack: the scope
still exists, has the same member list, and is still not on the stack. -/
theorem process_frame (st st' : ingest_state) (ev : SchemaEvent)
    (h : process st ev = .ok st')
    (p : List String) (s0 : scope) (hs0 : scope_at p st.global = some s0)
    (hoff : scope_ref.at p ∉ st.scopeStack) :
    ∃ s0', scope_at p st'.global = some s0' ∧ s0'.dataMembers = s0.dataMembers ∧
      scope_ref.at p ∉ st'.scopeStack := by
  cases ev with
  | characters v =>
    have hst := process_characters st st' v h
    subst hst
    exact ⟨s0, hs0, rfl, hoff⟩
  | start_element n attrs =>
    by_cases hne : n = "element"
    · subst hne
      obtain ⟨e, _, hst⟩ := process_start_element st st' attrs h
      subst hst
      exact ⟨s0, hs0, rfl, hoff⟩
    · by_cases hnc : n = "complexType"
      · subst hnc
        obtain ⟨e, es, path, rest, s, _, hstk, hsc, hcase⟩ :=
          process_start_complexType st st' attrs h
        have hpp : p ≠ path := by
          intro hp
          subst hp
          apply hoff
          rw [hstk]
          exact List.mem_cons_self _ _
        rcases hcase with ⟨hfresh, hst⟩ | ⟨_, hst⟩
        · subst hst
          obtain ⟨s0', hs0', _, hd⟩ :=
            scope_at_update _ (insert_type_bindings _ _) p path st.global s0 hs0
          refine ⟨s0', hs0', hd hpp, ?_⟩
          intro hmem
          rcases List.mem_cons.1 hmem with heq | hmem
          · simp only [scope_ref.at.injEq] at heq
            subst heq
            rw [scope_at_append, hsc] at hs0
            simp [hfresh] at hs0
          · exact hoff hmem
        · subst hst
          refine ⟨s0, hs0, rfl, ?_⟩
          intro hmem
          rcases List.mem_cons.1 hmem with heq | hmem
          · cases heq
          · exact hoff hmem
      · obtain ⟨top, _, hst⟩ := process_start_plain st st' n attrs hne hnc h
        subst hst
        exact ⟨s0, hs0, rfl, hoff⟩
  | end_element =>
    cases hp : st.eventProcessors with
    | nil => simp [process, hp] at h
    | cons top ps =>
      cases top with
      | element_elt e =>
        obtain ⟨t, path, rest, e0, es, _, hstk, _, hst⟩ :=
          process_end_element st st' e ps hp h
        subst hst
        have hpp : p ≠ path := by
          intro hp
          subst hp
          apply hoff
          rw [hstk]
          exact List.mem_cons_self _ _
        obtain ⟨s0', hs0', _, hd⟩ :=
          scope_at_update _ (push_member_bindings _) p path st.global s0 hs0
        exact ⟨s0', hs0', hd hpp, hoff⟩
      | complex_type_elt =>
        obtain ⟨r, ss, hr, hst⟩ := process_end_complexType st st' ps hp h
        subst hst
        exact ⟨s0, hs0, rfl, fun hmem => hoff (by rw [hr]; exact List.mem_cons_of_mem _ hmem)⟩
      | schema_elt =>
        have hst := process_end_plain st st' _ ps hp (Or.inl rfl) h
        subst hst
        exact ⟨s0, hs0, rfl, hoff⟩
      | sequence_elt =>
        have hst := process_end_plain st st' _ ps hp (Or.inr (Or.inl rfl)) h
        subst hst
        exact ⟨s0, hs0, rfl, hoff⟩
      | event_processor =>
        have hst := process_end_plain st st' _ ps hp (Or.inr (Or.inr rfl)) h
        subst hst
        exact ⟨s0, hs0, rfl, hoff⟩

/-- Any sequence of events leaves alone every scope that is not on the scope
stack. -/
theorem process_all_frame (evs : List SchemaEvent) :
    ∀ (st st' : ingest_state), process_all st evs = .ok st' →
    ∀ (p : List String) (s0 : scope), scope_at p st.global = some s0 →
      scope_ref.at p ∉ st.scopeStack →
      ∃ s0', scope_at p st'.global = some s0' ∧ s0'.dataMembers = s0.dataMembers := by
  induction evs with
  | nil =>
    intro st st' h p s0 hs0 _
    simp only [process_all] at h
    cases h
    exact ⟨s0, hs0, rfl⟩
  | cons ev evs ih =>
    intro st st' h p s0 hs0 hoff
    simp only [process_all] at h
    obtain ⟨st1, h1, h2⟩ := Outcome.bind_eq_ok _ _ _ h
    obtain ⟨s1, hs1, hd1, hoff1⟩ := process_frame st st1 ev h1 p s0 hs0 hoff
    obtain ⟨s2, hs2, hd2⟩ := ih st1 st' h2 p s1 hs1 hoff1
    exact ⟨s2, hs2, hd2.trans hd1⟩

/-- Children that are character data or complexTypes append nothing. -/
theorem appended_of_content (cs : List Node)
    (hcs : ∀ c ∈ cs, (∃ v, c = Node.text v) ∨ ∃ a cs0, c = Node.node "complexType" a cs0) :
    appended_of cs = [] := by
  induction cs with
  | nil => rfl
  | cons c cs ih =>
    have ht := ih fun c hc => hcs c (List.mem_cons_of_mem _ hc)
    rcases hcs c (List.mem_cons_self _ _) with ⟨v, hv⟩ | ⟨a, cs0, hv⟩
    · subst hv
      simp [appended_of, Node.appended, ht]
    · subst hv
      simp [appended_of, Node.appended, ht]

/-- The members appended by the children of a sequence are its child elements. -/
theorem appended_of_children (kids : List Node)
    (hk : ∀ k ∈ kids, (∃ v, k = Node.text v) ∨ ∃ a cs, k = Node.node "element" a cs ∧
      ∀ c ∈ cs, (∃ v, c = Node.text v) ∨ ∃ a0 cs0, c = Node.node "complexType" a0 cs0) :
    appended_of kids = child_elements kids := by
  induction kids with
  | nil => rfl
  | cons k kids ih =>
    have ht := ih fun c hc => hk c (List.mem_cons_of_mem _ hc)
    rcases hk k (List.mem_cons_self _ _) with ⟨v, hv⟩ | ⟨a, cs, hv, hcs⟩
    · subst hv
      simp [appended_of, Node.appended, child_elements, ht]
    · subst hv
      simp [appended_of, Node.appended, child_elements, ht, appended_of_content cs hcs]

/-- Member order and placement for a complexType that is registered.
(Member order) let a complexType start while an element is open, the
scope stack refers to existing scopes and the scope on top does not bind the key
of the new type; let its content be a sequence, between character data, whose
children are character data and elements `e1, ..., en` holding only character data
and complexTypes. When ingestion of the complexType and of the events `after` that
follow it succeeds, the scope of the new type has, after the last event, exactly
the members named `e1, ..., en`, in document order.
(Placement) when the handler on top of `eventProcessors` is an element and its
end tag is processed successfully, the scope on top of the scope stack gains
exactly one member, with the name and the kind of the element, at the end of its
member list, and every other scope of the graph still exists with the same member
list. -/
theorem members_in_document_order
    (sC stEnd : ingest_state) (attrs sa : List (String × String))
    (pre kids post : List Node) (after : List SchemaEvent)
    (eC : element_elt) (es : List element_elt) (path : List String)
    (rest : List scope_ref) (s : scope)
    (st st' : ingest_state) (e : element_elt) (ps : List elt)
    (hel : sC.elementStack = eC :: es) (hstk : sC.scopeStack = .at path :: rest)
    (hsc : scope_at path sC.global = some s)
    (hvalid : ∀ p, scope_ref.at p ∈ rest → ∃ s0, scope_at p sC.global = some s0)
    (hfresh : map_find s.memberTypes ((attrs.lookup "name").getD (eC.name ++ "_type")) = none)
    (hpre : ∀ c ∈ pre, ∃ v, c = Node.text v) (hpost : ∀ c ∈ post, ∃ v, c = Node.text v)
    (hk : ∀ k ∈ kids, (∃ v, k = Node.text v) ∨ ∃ a cs, k = Node.node "element" a cs ∧
      ∀ c ∈ cs, (∃ v, c = Node.text v) ∨ ∃ a0 cs0, c = Node.node "complexType" a0 cs0)
    (h : process_all sC
      ((Node.node "complexType" attrs (pre ++ Node.node "sequence" sa kids :: post)).events
        ++ after) = .ok stEnd)
    (hp : st.eventProcessors = .element_elt e :: ps)
    (hend : process st .end_element = .ok st') :
    (∃ sN, scope_at (path ++ [(attrs.lookup "name").getD (eC.name ++ "_type")]) stEnd.global
        = some sN ∧
      sN.dataMembers.map (fun dm => dm.name) = child_elements kids) ∧
    (∃ top rest0 s0 dm, st.scopeStack = .at top :: rest0 ∧
      scope_at top st.global = some s0 ∧ dm.name = e.name ∧ dm.kind = e.kind ∧
      scope_at top st'.global = some { s0 with dataMembers := s0.dataMembers ++ [dm] } ∧
      ∀ p sp, p ≠ top → scope_at p st.global = some sp →
        ∃ sp', scope_at p st'.global = some sp' ∧ sp'.dataMembers = sp.dataMembers) := by
  constructor
  · rw [process_all_append] at h
    obtain ⟨stB, hB, hA⟩ := Outcome.bind_eq_ok _ _ _ h
    obtain ⟨hss, _, _, _, sN, hsN, hnN⟩ :=
      process_complexType_fresh sC stB attrs _ eC es path rest s hel hstk hsc hfresh hB
    have hoff : scope_ref.at (path ++ [(attrs.lookup "name").getD (eC.name ++ "_type")])
        ∉ stB.scopeStack := by
      rw [hss, hstk]
      intro hmem
      have hnone : scope_at (path ++ [(attrs.lookup "name").getD (eC.name ++ "_type")])
          sC.global = none := by
        rw [scope_at_append, hsc]
        simp [hfresh]
      rcases List.mem_cons.1 hmem with heq | hmem
      · simp only [scope_ref.at.injEq] at heq
        exact append_key_not_above path _ (by rw [heq])
      · obtain ⟨s0, hs0⟩ := hvalid _ hmem
        rw [hnone] at hs0
        cases hs0
    obtain ⟨sE, hsE, hdE⟩ := process_all_frame after stB stEnd hA _ sN hsN hoff
    refine ⟨sE, hsE, ?_⟩
    rw [hdE, hnN, appended_of_append, appended_of_texts pre hpre]
    simp only [appended_of, Node.appended, List.nil_append]
    rw [appended_of_texts post hpost, List.append_nil]
    simpa using appended_of_children kids hk
  · obtain ⟨t, top, rest0, e0, es0, hft, hstk0, _, hst'⟩ :=
      process_end_element st st' e ps hp hend
    subst hst'
    rw [hstk0] at hft
    obtain ⟨s0, hs0⟩ := findType_loop_top _ _ _ _ _ hft
    refine ⟨top, rest0, s0, ⟨e.kind, e.name, t⟩, hstk0, hs0, rfl, rfl,
      scope_at_update_self _ top _ s0 hs0, ?_⟩
    intro p sp hpt hsp
    obtain ⟨sp', hsp', _, hd⟩ :=
      scope_at_update _ (push_member_bindings _) p top st.global sp hsp
    exact ⟨sp', hsp', hd hpt⟩

/-- Member order and placement at the note schema: after ingestion the scope of
`note_type` has the members `to`, `cc`, `from` in this order, and the end tag of
the element `note` appends the member `note` to the global scope and leaves the
other scopes as they are. -/
theorem members_in_document_order_witness :
    (∃ sN, scope_at ([] ++ [(([] : List (String × String)).lookup "name").getD
        (note_elt.name ++ "_type")]) note_graph = some sN ∧
      sN.dataMembers.map (fun dm => dm.name)
        = child_elements
            [ .node "element" [("name", "to"), ("type", "xs:string")] [],
              .node "element" [("name", "cc"), ("type", "xs:string"), ("minOccurs", "0")] [],
              .node "element" [("name", "from"), ("type", "xs:string")] [] ]) ∧
    (∃ top rest0 s0 dm, (in_note { note_graph with dataMembers := [] }).scopeStack
        = .at top :: rest0 ∧
      scope_at top (in_note { note_graph with dataMembers := [] }).global = some s0 ∧
      dm.name = note_elt.name ∧ dm.kind = note_elt.kind ∧
      scope_at top (in_schema note_graph).global
        = some { s0 with dataMembers := s0.dataMembers ++ [dm] } ∧
      ∀ p sp, p ≠ top →
        scope_at p (in_note { note_graph with dataMembers := [] }).global = some sp →
        ∃ sp', scope_at p (in_schema note_graph).global = some sp' ∧
          sp'.dataMembers = sp.dataMembers) :=
  members_in_document_order (in_note global_scope.new)
    { in_schema note_graph with eventProcessors := [.event_processor] } [] []
    [] [ .node "element" [("name", "to"), ("type", "xs:string")] [],
         .node "element" [("name", "cc"), ("type", "xs:string"), ("minOccurs", "0")] [],
         .node "element" [("name", "from"), ("type", "xs:string")] [] ] []
    [.end_element, .end_element] note_elt [] [] [] global_scope.new
    (in_note { note_graph with dataMembers := [] }) (in_schema note_graph) note_elt
    [.schema_elt, .event_processor]
    rfl rfl rfl (by intro p hp; cases hp) rfl
    (by intro c hc; cases hc) (by intro c hc; cases hc)
    (by
      intro k hk
      right
      simp only [List.mem_cons, List.mem_singleton, List.not_mem_nil, or_false] at hk
      rcases hk with rfl | rfl | rfl
      · exact ⟨_, _, rfl, by intro c hc; cases hc⟩
      · exact ⟨_, _, rfl, by intro c hc; cases hc⟩
      · exact ⟨_, _, rfl, by intro c hc; cases hc⟩)
    rfl rfl rfl

/-- C19 (the code at the failing input): in `duplicate_member_schema` the second
complexType has the child element `y` and its key `a_type` is already bound in the
global scope. After its start tag the graph still holds the first type alone, with
the member `x`, and the scope on top of the scope stack is the one of a destroyed
type; the start tag of `y` is processed, and its end tag appends the member
through the destroyed scope: the behaviour of the ingestion is undefined, and no
type with the member list `y` exists. -/
theorem duplicate_type_members_undefined :
    (process_all (inhaleSchema_start [] [] []) (duplicate_member_schema.take 11)).bind
        (fun st => .ok (st.scopeStack, map_find st.global.memberTypes "a_type"))
      = .ok ([.dangling, .at []],
          some (.complex_type "a_type" "a" false []
            [⟨.required, "x", ⟨["xs:string"], "std::string"⟩⟩])) ∧
    (process_all (inhaleSchema_start [] [] []) (duplicate_member_schema.take 13)).bind
        (fun st => .ok (st.scopeStack, st.elementStack.map fun e => e.name))
      = .ok ([.dangling, .at []], ["y", "a"]) ∧
    (process_all (inhaleSchema_start [] [] []) (duplicate_member_schema.take 14)).bind
        (fun st => .ok st.global)
      = .undefined .dangling_scope ∧
    (inhaleSchema duplicate_member_schema).bind (fun st => .ok st.global)
      = .undefined .dangling_scope :=
  ⟨rfl, rfl, rfl, rfl⟩

/-! ## C24: tag validation in the builtin deserializers -/

/-- C24 (the code at the failing inputs): none of the four builtin deserializers
looks at its `name` argument, so its result is the same for every expected name;
each of them, called with a non-empty expected name on an element with another
tag, returns the converted content instead of raising an error. -/
theorem builtin_tag_not_checked :
    (∀ (p : parser) (name name' : String),
      fromXML_string p name = fromXML_string p name' ∧
      fromXML_int p name = fromXML_int p name' ∧
      fromXML_bool p name = fromXML_bool p name' ∧
      fromXML_signed_char p name = fromXML_signed_char p name') ∧
    fromXML_string ⟨[.start_element "from", .characters "B", .end_element], none⟩ "to"
      = .ok "B" ⟨[], some .end_element⟩ ∧
    fromXML_int ⟨[.start_element "height", .characters "5", .end_element], none⟩ "age"
      = .ok 5 ⟨[], some .end_element⟩ ∧
    fromXML_bool ⟨[.start_element "no", .characters "true", .end_element], none⟩ "yes"
      = .ok true ⟨[], some .end_element⟩ ∧
    fromXML_signed_char ⟨[.start_element "b", .characters "7", .end_element], none⟩ "a"
      = .ok 7 ⟨[], some .end_element⟩ := by
  refine ⟨fun p name name' => ⟨rfl, rfl, rfl, rfl⟩, ?_, ?_, ?_, ?_⟩
  · rfl
  · rfl
  · rfl
  · rfl

/-! ## C21: a complexType named like a builtin type -/

/-- One event keeps every scope of the graph and, in it, every binding with its
header. -/
theorem process_keeps_bindings (st st' : ingest_state) (ev : SchemaEvent)
    (h : process st ev = .ok st')
    (p : List String) (s0 : scope) (hs0 : scope_at p st.global = some s0) :
    ∃ s0', scope_at p st'.global = some s0' ∧
      ∀ k t, map_find s0.memberTypes k = some t →
        ∃ t', map_find s0'.memberTypes k = some t' ∧ t'.header = t.header := by
  have hsame : ∃ s0', scope_at p st.global = some s0' ∧
      ∀ k t, map_find s0.memberTypes k = some t →
        ∃ t', map_find s0'.memberTypes k = some t' ∧ t'.header = t.header :=
    ⟨s0, hs0, fun k t hk => ⟨t, hk, rfl⟩⟩
  cases ev with
  | characters v =>
    have hst := process_characters st st' v h
    subst hst
    exact hsame
  | start_element n attrs =>
    by_cases hne : n = "element"
    · subst hne
      obtain ⟨e, _, hst⟩ := process_start_element st st' attrs h
      subst hst
      exact hsame
    · by_cases hnc : n = "complexType"
      · subst hnc
        obtain ⟨e, es, path, rest, s, _, _, _, hcase⟩ :=
          process_start_complexType st st' attrs h
        rcases hcase with ⟨_, hst⟩ | ⟨_, hst⟩
        · subst hst
          obtain ⟨s0', hs0', hb, _⟩ :=
            scope_at_update _ (insert_type_bindings _ _) p path st.global s0 hs0
          exact ⟨s0', hs0', hb⟩
        · subst hst
          exact hsame
      · obtain ⟨top, _, hst⟩ := process_start_plain st st' n attrs hne hnc h
        subst hst
        exact hsame
  | end_element =>
    cases hp : st.eventProcessors with
    | nil => simp [process, hp] at h
    | cons top ps =>
      cases top with
      | element_elt e =>
        obtain ⟨t, path, rest, e0, es, _, _, _, hst⟩ :=
          process_end_element st st' e ps hp h
        subst hst
        obtain ⟨s0', hs0', hb, _⟩ :=
          scope_at_update _ (push_member_bindings _) p path st.global s0 hs0
        exact ⟨s0', hs0', hb⟩
      | complex_type_elt =>
        obtain ⟨r, ss, hr, hst⟩ := process_end_complexType st st' ps hp h
        subst hst
        exact hsame
      | schema_elt =>
        have hst := process_end_plain st st' _ ps hp (Or.inl rfl) h
        subst hst
        exact hsame
      | sequence_elt =>
        have hst := process_end_plain st st' _ ps hp (Or.inr (Or.inl rfl)) h
        subst hst
        exact hsame
      | event_processor =>
        have hst := process_end_plain st st' _ ps hp (Or.inr (Or.inr rfl)) h
        subst hst
        exact hsame

/-- Whatever the events are, a successful ingestion leaves every builtin binding
of the global scope as it was. -/
theorem process_all_keeps_builtins (evs : List SchemaEvent) :
    ∀ (st st' : ingest_state), process_all st evs = .ok st' →
    ∀ (key : String) (k : builtin_kind),
      map_find st.global.memberTypes key = some (.builtin k) →
      map_find st'.global.memberTypes key = some (.builtin k) := by
  induction evs with
  | nil =>
    intro st st' h key k hk
    simp only [process_all] at h
    cases h
    exact hk
  | cons ev evs ih =>
    intro st st' h key k hk
    simp only [process_all] at h
    obtain ⟨st1, h1, h2⟩ := Outcome.bind_eq_ok _ _ _ h
    obtain ⟨s1, hs1, hb⟩ := process_keeps_bindings st st1 ev h1 [] st.global rfl
    simp only [scope_at, Option.some.injEq] at hs1
    subst hs1
    obtain ⟨t', ht', hh⟩ := hb key _ hk
    have ht : t' = .builtin k := by
      cases t' with
      | builtin k' =>
        simp only [type_base.header, type_base.builtin.injEq] at hh
        rw [hh]
      | complex_type n c a mts dms => simp [type_base.header] at hh
    rw [ht] at ht'
    exact ih st1 st' h2 key k ht'

/-- C21 (the code at the failing input): for the schema `builtin_name_schema`, in
which a complexType registered in the global scope is named `xs:string`, the start
tag of the complexType leaves the graph as it is (the builtin binding stays) and
puts a reference to a destroyed scope on top of the scope stack. Ingestion of the
whole schema returns, with the four builtin bindings unchanged; with a child
element in the sequence the member is appended through the destroyed scope. -/
theorem builtin_name_leaves_dangling_scope :
    (process_all (inhaleSchema_start [] [] []) (builtin_name_schema.take 3)).bind
        (fun st => .ok (st.scopeStack, st.global.memberTypes))
      = .ok ([.dangling, .at []], global_scope.new.memberTypes) ∧
    (inhaleSchema builtin_name_schema).bind (fun st => .ok st.global)
      = .ok { global_scope.new with
          dataMembers := [⟨.required, "e", ⟨["xs:string"], "std::string"⟩⟩] } ∧
    (inhaleSchema builtin_name_member_schema).bind (fun st => .ok st.global)
      = .undefined .dangling_scope :=
  ⟨rfl, rfl, rfl⟩

/-! ## C22: constructs that `elt_from_name` does not know -/

/-- C22 (the code at the failing inputs): for a start tag whose name is none of
`schema`, `element`, `sequence`, `complexType`, the call
`makers.find(name)->second` dereferences the end iterator; the behaviour of this
event, and of every ingestion that contains it, is undefined. -/
theorem unknown_construct_undefined (st : ingest_state) (name : String)
    (attrs : List (String × String)) (rest : List SchemaEvent) (top : elt) (ps : List elt)
    (hp : st.eventProcessors = top :: ps)
    (h1 : name ≠ "schema") (h2 : name ≠ "element") (h3 : name ≠ "sequence")
    (h4 : name ≠ "complexType") :
    process st (.start_element name attrs) = .undefined (.unknown_element name) ∧
    process_all st (.start_element name attrs :: rest)
      = .undefined (.unknown_element name) := by
  have hstep : process st (.start_element name attrs)
      = .undefined (.unknown_element name) := by
    unfold process
    simp [hp, afterProcess_start, h1, h2, h3, h4]
  refine ⟨hstep, ?_⟩
  simp only [process_all, hstep, Outcome.bind]

/-- C22 at `<schema><annotation/>...`: ingestion of `annotation_schema` is
undefined at the start tag of `annotation`. -/
theorem unknown_construct_undefined_witness :
    process (in_schema global_scope.new) (.start_element "annotation" [])
      = .undefined (.unknown_element "annotation") ∧
    process_all (in_schema global_scope.new)
        (.start_element "annotation" [] :: annotation_schema.drop 2)
      = .undefined (.unknown_element "annotation") :=
  unknown_construct_undefined (in_schema global_scope.new) "annotation" []
    (annotation_schema.drop 2) .schema_elt [.event_processor] rfl
    (by decide) (by decide) (by decide) (by decide)

/-! ## C23: attribute values that do not convert -/

/-- The member initialisers of `element_elt` throw when `maxOccurs` is neither
"unbounded" nor an integer, and when `minOccurs` is not an integer unless
`maxOccurs` makes the element Repeated. -/
theorem element_elt_init_thrown (attrs : List (String × String))
    (hbad : (∃ v, attrs.lookup "maxOccurs" = some v ∧ v ≠ "unbounded" ∧ parse_int v = none) ∨
      (∃ v, attrs.lookup "minOccurs" = some v ∧ parse_int v = none ∧
        ¬ maxOccurs_many attrs)) :
    ∃ err, element_elt.init attrs = .thrown err := by
  unfold element_elt.init
  cases hn : attrs.lookup "name" with
  | none => exact ⟨_, rfl⟩
  | some nm =>
    rcases hbad with ⟨v, hv, hu, hp⟩ | ⟨v, hv, hp, hmany⟩
    · exact ⟨.bad_attribute_value "maxOccurs" v, by
        simp [hv, attribute_present, hu, attribute_int, hp, Outcome.bind]⟩
    · unfold maxOccurs_many at hmany
      cases hmax : attrs.lookup "maxOccurs" with
      | none =>
        exact ⟨.bad_attribute_value "minOccurs" v, by
          simp [hmax, hv, attribute_present, attribute_int, hp, Outcome.bind]⟩
      | some w =>
        by_cases hu : w = "unbounded"
        · exact absurd (Or.inl (hu ▸ hmax)) hmany
        · cases hq : parse_int w with
          | none =>
            exact ⟨.bad_attribute_value "maxOccurs" w, by
              simp [hmax, attribute_present, hu, attribute_int, hq, Outcome.bind]⟩
          | some n =>
            have h1 : ¬ 1 < n := fun h1 => hmany (Or.inr ⟨w, n, hmax, hq, h1⟩)
            exact ⟨.bad_attribute_value "minOccurs" v, by
              simp [hmax, hv, attribute_present, hu, attribute_int, hq, hp, Outcome.bind, h1]⟩

/-- When `maxOccurs` makes the element Repeated, `minOccurs` is not converted:
the handler is constructed whatever the value of `minOccurs` is. -/
theorem element_elt_init_repeated (attrs : List (String × String)) (nm : String)
    (hn : attrs.lookup "name" = some nm) (hmany : maxOccurs_many attrs) :
    element_elt.init attrs
      = .ok ⟨nm, (attrs.lookup "type").getD (nm ++ "_type"), true, false⟩ := by
  unfold element_elt.init
  rcases hmany with hu | ⟨v, n, hv, hp, h1⟩
  · simp [hn, hu, attribute_present, Outcome.bind, element_elt.defaultTypeName]
  · by_cases hu : v = "unbounded"
    · simp [hn, hv, hu, attribute_present, Outcome.bind, element_elt.defaultTypeName]
    · simp [hn, hv, hu, attribute_present, attribute_int, hp, h1, Outcome.bind,
        element_elt.defaultTypeName]

/-- C23 fails for `minOccurs` next to a `maxOccurs` that makes the element
Repeated: for `<element name="a" type="xs:string" minOccurs="x"
maxOccurs="unbounded"/>` the handler is constructed, and ingestion of the schema
returns a graph with the Repeated member `a`. -/
theorem bad_minOccurs_accepted :
    parse_int "x" = none ∧
    element_elt.init
        [("name", "a"), ("type", "xs:string"), ("minOccurs", "x"), ("maxOccurs", "unbounded")]
      = .ok ⟨"a", "xs:string", true, false⟩ ∧
    (inhaleSchema bad_minOccurs_schema).bind (fun st => .ok st.global)
      = .ok { global_scope.new with
          dataMembers := [⟨.multiple, "a", ⟨["xs:string"], "std::string"⟩⟩] } :=
  ⟨by decide, rfl, rfl⟩

/-- C23, amended: ingestion fails with an exception at the start tag of every
element whose `maxOccurs` is present and neither "unbounded" nor an integer, and
of every element whose `minOccurs` is present and not an integer while `maxOccurs`
is neither "unbounded" nor an integer greater than 1. -/
theorem attribute_conversion_fatal (st : ingest_state) (attrs : List (String × String))
    (rest : List SchemaEvent) (top : elt) (ps : List elt)
    (hp : st.eventProcessors = top :: ps)
    (hbad : (∃ v, attrs.lookup "maxOccurs" = some v ∧ v ≠ "unbounded" ∧ parse_int v = none) ∨
      (∃ v, attrs.lookup "minOccurs" = some v ∧ parse_int v = none ∧
        ¬ maxOccurs_many attrs)) :
    ∃ err, process st (.start_element "element" attrs) = .thrown err ∧
      process_all st (.start_element "element" attrs :: rest) = .thrown err := by
  obtain ⟨err, herr⟩ := element_elt_init_thrown attrs hbad
  have hstep : process st (.start_element "element" attrs) = .thrown err := by
    unfold process
    simp [hp, afterProcess_start, element_elt.construct, herr, Outcome.bind]
  refine ⟨err, hstep, ?_⟩
  simp only [process_all, hstep, Outcome.bind]

/-- C23 at `<element name="a" minOccurs="x"/>` inside `<schema>`. -/
theorem attribute_conversion_fatal_witness :
    ∃ err, process (in_schema global_scope.new)
        (.start_element "element" [("name", "a"), ("minOccurs", "x")]) = .thrown err ∧
      process_all (in_schema global_scope.new)
        (.start_element "element" [("name", "a"), ("minOccurs", "x")]
          :: [.end_element, .end_element]) = .thrown err :=
  attribute_conversion_fatal (in_schema global_scope.new)
    [("name", "a"), ("minOccurs", "x")] [.end_element, .end_element]
    .schema_elt [.event_processor] rfl
    (Or.inr ⟨"x", rfl, by decide, by
      have hnone : List.lookup "maxOccurs" [("name", "a"), ("minOccurs", "x")] = none := by
        decide
      rintro (hu | ⟨v, n, hv, _, _⟩)
      · rw [hnone] at hu
        cases hu
      · rw [hnone] at hv
        cases hv⟩)

/-! ## C30: the process-wide stacks after `inhaleSchema` -/

/-- For every schema document and every contents of the three stacks on entry,
when `inhaleSchema` returns, the element stack is as on entry, and the scope stack
and the handler stack each hold one entry more: the reference to the global scope
of this run and the base `event_processor`. -/
theorem inhaleSchema_stacks (ss : List scope_ref) (es : List element_elt) (ps : List elt)
    (doc : Node) (st' : ingest_state)
    (h : process_all (inhaleSchema_start ss es ps) doc.events = .ok st') :
    st'.scopeStack = .at [] :: ss ∧ st'.elementStack = es ∧
    st'.eventProcessors = .event_processor :: ps := by
  have hb := process_node_balanced doc _ st' h
  exact ⟨hb.1, hb.2.1, hb.2.2.1⟩

/-- C30 (the code at the failing inputs): `inhaleSchema`, called in a fresh
process on the note schema, returns with the reference to its global scope still
on the scope stack and the base handler still on the handler stack. A second call
in the same process, for which that reference refers to a destroyed scope, still
builds the same graph for the note schema and leaves a further entry on both
stacks; but for a schema with an unresolved type name, where a fresh process
leaves `findType` without a `return`, the second call goes on to search the scope
left by the first. -/
theorem inhaleSchema_leaves_entries :
    inhaleSchema note_schema
      = .ok { global := note_graph, scopeStack := [.at []], elementStack := [],
              eventProcessors := [.event_processor] } ∧
    process_all (inhaleSchema_start [.dangling] [] [.event_processor]) note_schema
      = .ok { global := note_graph, scopeStack := [.at [], .dangling], elementStack := [],
              eventProcessors := [.event_processor, .event_processor] } ∧
    (inhaleSchema unresolved_schema).bind (fun st => .ok st.global)
      = .undefined (.findType_no_return "missing") ∧
    (process_all (inhaleSchema_start [.dangling] [] [.event_processor])
        unresolved_schema).bind (fun st => .ok st.global)
      = .undefined .dangling_scope :=
  ⟨rfl, rfl, rfl, rfl⟩

/-! ## C25: the builtin conversions are mirror images -/

/-- The character written for a decimal digit is a digit character with that
value; it is neither a sign nor white space. -/
theorem digit_char_facts (d : Nat) (h : d < 10) :
    (Char.ofNat (d + 48)).isDigit = true ∧ isspace (Char.ofNat (d + 48)) = false ∧
    Char.ofNat (d + 48) ≠ '-' ∧ Char.ofNat (d + 48) ≠ '+' ∧
    (Char.ofNat (d + 48)).toNat - '0'.toNat = d := by
  interval_cases d <;> decide

/-- The digits that `std::to_string` writes for `n`, most significant first. -/
theorem decimal_digits_facts (n : Nat) :
    let ds := if n = 0 then [0] else (Nat.digits 10 n).reverse
    ds ≠ [] ∧ (∀ d ∈ ds, d < 10) ∧ ds.foldl (fun a d => 10 * a + d) 0 = n := by
  intro ds
  by_cases h0 : n = 0
  · subst h0
    simp [ds]
  · have hds : ds = (Nat.digits 10 n).reverse := by simp [ds, h0]
    rw [hds]
    refine ⟨?_, ?_, ?_⟩
    · simp [Nat.digits_eq_nil_iff_eq_zero, h0]
    · intro d hd
      exact Nat.digits_lt_base (by norm_num) (List.mem_reverse.1 hd)
    · rw [List.foldl_reverse]
      have h := Nat.ofDigits_digits 10 n
      rw [Nat.ofDigits_eq_foldr] at h
      simp only [Nat.cast_id] at h
      conv_rhs => rw [← h]
      congr 1
      funext d a
      ring

/-- Reading back the written digits gives the number. -/
theorem foldl_digit_chars (ds : List Nat) (hlt : ∀ d ∈ ds, d < 10) (a : Nat) :
    (ds.map fun d => Char.ofNat (d + 48)).foldl
        (fun a c => 10 * a + (c.toNat - '0'.toNat)) a
      = ds.foldl (fun a d => 10 * a + d) a := by
  induction ds generalizing a with
  | nil => rfl
  | cons d ds ih =>
    simp only [List.map_cons, List.foldl_cons]
    rw [(digit_char_facts d (hlt d (List.mem_cons_self _ _))).2.2.2.2]
    exact ih (fun d hd => hlt d (List.mem_cons_of_mem _ hd)) _

/-- Copying through an `ostream_joiner` continues the loop of
`String.intercalate`. -/
theorem ostream_joiner_copy_go (del : String) (ts : List String) (os : String) :
    ostream_joiner_copy del ts false os = String.intercalate.go os del ts := by
  induction ts generalizing os with
  | nil => rfl
  | cons t ts ih =>
    simp only [ostream_joiner_copy, String.intercalate.go]
    exact ih _

/-- Copying through an `ostream_joiner` writes the elements separated by the
delimiter. -/
theorem joined_eq_intercalate (xs : List String) (del : String) :
    joined xs del = del.intercalate xs := by
  cases xs with
  | nil => rfl
  | cons t ts =>
    simp only [joined, ostream_joiner_copy, String.intercalate]
    rw [ostream_joiner_copy_go]
    simp

mutual
/-- What `class_generate` appends to the stream for one type. -/
theorem class_generate_eq : ∀ (t : type_base) (os : ostream),
    class_generate t os = os ++ class_definition t
  | .builtin k, os => by simp [class_generate, class_definition]
  | .complex_type name cen anonymous mts dms, os => by
    simp [class_generate, class_definition, class_generate_member_types_eq mts,
      List.append_assoc]
/-- What `class_generate_member_types` appends to the stream. -/
theorem class_generate_member_types_eq : ∀ (mts : List (String × type_base))
    (os : ostream),
    class_generate_member_types mts os = os ++ class_definitions mts
  | [], os => by simp [class_generate_member_types, class_definitions]
  | kt :: rest, os => by
    simp [class_generate_member_types, class_definitions, class_generate_eq kt.2,
      class_generate_member_types_eq rest, List.append_assoc]
end

/-! ## C26: what the class-style family writes for a complex type -/

/-- C26: for a complex type with data members `dms`, the class-style family
appends to the stream: the opening line and `private:`; the classes of the member
types; one private field `T n;` per member, in order; `public:`; one constructor
whose parameters are `T n` for each member in order, separated by commas, and whose
initialisers are `n(move(n))` for each member in order; the classes of the member
types once more; then for each member, in order, one setter taking `T const &`, one
getter qualified `&&` returning `T` by `std::move`, one getter qualified `const &`
returning `T const &`, and an empty line; then the closing line. -/
theorem class_style_emission (name cen : String) (anonymous : Bool)
    (mts : List (String × type_base)) (dms : List data_member) (os : ostream) :
    class_generate (.complex_type name cen anonymous mts dms) os
      = os ++ [Tok.text ("class " ++ name ++ "\x7b\nprivate:\n"), Tok.indent]
        ++ class_definitions mts
        ++ dms.map (fun dm => Tok.text (dm.type.name ++ " " ++ dm.name ++ ";\n"))
        ++ [Tok.unindent, Tok.text "public:\n", Tok.indent]
        ++ [Tok.text (name ++ "("),
            Tok.text (", ".intercalate (dms.map fun dm => dm.type.name ++ " " ++ dm.name)
              ++ ")\n  : "),
            Tok.text (", ".intercalate
              (dms.map fun dm => dm.name ++ "(move(" ++ dm.name ++ "))") ++ " \x7b\x7d\n")]
        ++ class_definitions mts
        ++ (dms.map fun dm =>
            [ Tok.text ("void set_" ++ dm.name ++ "(" ++ dm.type.name ++ " const & x) \x7b\n"),
              Tok.indent, Tok.text (dm.name ++ " = x;\n"), Tok.unindent, Tok.text "\x7d\n",
              Tok.text (dm.type.name ++ " get_" ++ dm.name ++ "() && \x7b\n"),
              Tok.indent, Tok.text ("return std::move(" ++ dm.name ++ ");\n"),
              Tok.unindent, Tok.text "\x7d\n",
              Tok.text (dm.type.name ++ " const & get_" ++ dm.name ++ "() const & \x7b\n"),
              Tok.indent, Tok.text ("return " ++ dm.name ++ ";\n"),
              Tok.unindent, Tok.text "\x7d\n",
              Tok.text "\n" ]).flatten
        ++ [Tok.unindent, Tok.text "\x7d;\n\n"] := by
  rw [class_generate_eq]
  simp only [class_definition, class_generate_begin, generate_data_members_private,
    generate_constructor, generate_data_members_public, generate_setters,
    generate_getters, class_generate_end, joined_eq_intercalate, List.append_assoc,
    List.cons_append, List.nil_append]

/-! ## C27: the class-style family writes no serializer and no deserializer -/

/-- Two texts whose endings differ are different: `lit` and `f` are the endings,
compared from the last character backwards over the shorter of the two. -/
theorem suffix_differs (B lit A f : String)
    (hne : lit.data.reverse.take f.data.length ≠ f.data.reverse.take lit.data.length) :
    B ++ lit ≠ A ++ f := by
  intro h
  apply hne
  have hX : lit.data.reverse ++ B.data.reverse = f.data.reverse ++ A.data.reverse := by
    have := congrArg (fun s : String => s.data.reverse) h
    simpa [String.data_append] using this
  calc lit.data.reverse.take f.data.length
      = ((lit.data.reverse ++ B.data.reverse).take lit.data.length).take f.data.length := by
        rw [List.take_left' (by simp)]
    _ = ((f.data.reverse ++ A.data.reverse).take lit.data.length).take f.data.length := by
        rw [hX]
    _ = ((f.data.reverse ++ A.data.reverse).take f.data.length).take lit.data.length := by
        rw [List.take_take, List.take_take, min_comm]
    _ = f.data.reverse.take lit.data.length := by
        rw [List.take_left' (by simp)]

/-- A text that ends in `lit` is not a text that ends like the opening line of a
function definition. -/
theorem not_function_text (B lit : String)
    (hne : lit.data.reverse.take ("e) \x7b\n" : String).data.length
      ≠ ("e) \x7b\n" : String).data.reverse.take lit.data.length) :
    ∀ A : String, Tok.text (B ++ lit) ≠ Tok.text (A ++ "e) \x7b\n") :=
  fun A h => suffix_differs B lit A _ hne (Tok.text.inj h)

/-- The same for a text that is `lit`. -/
theorem not_function_lit (lit : String)
    (hne : lit.data.reverse.take ("e) \x7b\n" : String).data.length
      ≠ ("e) \x7b\n" : String).data.reverse.take lit.data.length) :
    ∀ A : String, Tok.text lit ≠ Tok.text (A ++ "e) \x7b\n") := by
  intro A
  have h := not_function_text "" lit hne A
  simpa using h

/-- A text shorter than the ending `e) {` and a newline does not have it. -/
theorem not_function_short (lit : String)
    (hlen : lit.data.length < ("e) \x7b\n" : String).data.length) :
    ∀ A : String, Tok.text lit ≠ Tok.text (A ++ "e) \x7b\n") := by
  intro A h
  have e : ("e) \x7b\n" : String).data.length = 5 := by decide
  rw [e] at hlen
  have h1 := congrArg (fun s : String => s.data.length) (Tok.text.inj h)
  simp only [String.data_append, List.length_append, List.length_cons, List.length_nil]
    at h1
  omega

/-- The ending of the opening line of a serializer definition. -/
theorem serializer_line_ending (name : String) :
    serializer_specialization name ++ " \x7b\n"
      = ("template<>\nvoid toXML<" ++ name ++ ">(" ++ name
          ++ " const& x, xml::serializer &s, std::string nam") ++ "e) \x7b\n" := by
  unfold serializer_specialization
  have e : (" const& x, xml::serializer &s, std::string name)" : String)
      = " const& x, xml::serializer &s, std::string nam" ++ "e)" := by decide
  rw [e]
  simp only [String.append_assoc]
  rfl

/-- The ending of the opening line of a deserializer definition. -/
theorem deserializer_line_ending (name : String) :
    deserializer_specialization name ++ " \x7b\n"
      = ("template<>\n" ++ name ++ " fromXML<" ++ name
          ++ ">(xml::parser &p, std::string nam") ++ "e) \x7b\n" := by
  unfold deserializer_specialization
  have e : (">(xml::parser &p, std::string name)" : String)
      = ">(xml::parser &p, std::string nam" ++ "e)" := by decide
  rw [e]
  simp only [String.append_assoc]
  rfl

/-- The opening line of a function definition ends in `e) {` and a newline. -/
theorem opens_function_ending (t : Tok) (h : opens_function t) :
    ∃ A : String, t = Tok.text (A ++ "e) \x7b\n") := by
  obtain ⟨name, h | h⟩ := h
  · exact ⟨_, by rw [h, serializer_line_ending]⟩
  · exact ⟨_, by rw [h, deserializer_line_ending]⟩

/-- No token written for the accessors of a member ends like the opening line of
a function definition. -/
theorem accessors_no_function (dm : data_member) :
    ∀ t ∈ generate_setters dm ++ generate_getters dm ++ [Tok.text "\n"],
      ∀ A : String, t ≠ Tok.text (A ++ "e) \x7b\n") := by
  simp only [generate_setters, generate_getters, List.cons_append, List.nil_append,
    List.forall_mem_cons, List.not_mem_nil, false_implies, implies_true, and_true]
  refine ⟨?_, ?_, ?_, ?_, ?_, ?_, ?_, ?_, ?_, ?_, ?_, ?_, ?_, ?_, ?_, ?_⟩ <;>
    first
    | exact fun A h => Tok.noConfusion h
    | exact not_function_text _ _ (by decide)
    | exact not_function_short _ (by decide)

/-- No token of the constructor ends like the opening line of a function
definition. -/
theorem constructor_no_function (name : String) (dms : List data_member) :
    ∀ t ∈ generate_constructor name dms, ∀ A : String, t ≠ Tok.text (A ++ "e) \x7b\n") := by
  simp only [generate_constructor, List.forall_mem_cons, List.not_mem_nil, false_implies,
    implies_true, and_true]
  refine ⟨?_, ?_, ?_⟩ <;> exact not_function_text _ _ (by decide)

mutual
/-- No token of a class definition ends like the opening line of a function
definition. -/
theorem class_definition_no_function : ∀ (T : type_base),
    ∀ t ∈ class_definition T, ∀ A : String, t ≠ Tok.text (A ++ "e) \x7b\n")
  | .builtin _ => by
    intro t ht
    simp [class_definition] at ht
  | .complex_type name cen a mts dms => by
    intro t ht A
    simp only [class_definition, List.mem_append] at ht
    rcases ht with ((((((h | h) | h) | h) | h) | h) | h) | h
    · simp only [class_generate_begin, List.mem_cons, List.not_mem_nil, or_false] at h
      rcases h with rfl | rfl
      · exact not_function_text _ _ (by decide) A
      · exact fun h => Tok.noConfusion h
    · exact class_definitions_no_function mts t h A
    · simp only [generate_data_members_private, List.mem_map] at h
      obtain ⟨dm, _, rfl⟩ := h
      exact not_function_text _ _ (by decide) A
    · simp only [List.mem_cons, List.not_mem_nil, or_false] at h
      rcases h with rfl | rfl | rfl
      · exact fun h => Tok.noConfusion h
      · exact not_function_lit _ (by decide) A
      · exact fun h => Tok.noConfusion h
    · exact constructor_no_function name dms t h A
    · exact class_definitions_no_function mts t h A
    · simp only [generate_data_members_public, List.mem_flatten, List.mem_map] at h
      obtain ⟨l, ⟨dm, _, rfl⟩, hl⟩ := h
      exact accessors_no_function dm t hl A
    · simp only [class_generate_end, List.mem_cons, List.not_mem_nil, or_false] at h
      rcases h with rfl | rfl
      · exact fun h => Tok.noConfusion h
      · exact not_function_lit _ (by decide) A
/-- No token of a list of class definitions ends like the opening line of a
function definition. -/
theorem class_definitions_no_function : ∀ (mts : List (String × type_base)),
    ∀ t ∈ class_definitions mts, ∀ A : String, t ≠ Tok.text (A ++ "e) \x7b\n")
  | [] => by
    intro t ht
    simp [class_definitions] at ht
  | kt :: rest => by
    intro t ht A
    simp only [class_definitions, List.mem_append] at ht
    rcases ht with h | h
    · exact class_definition_no_function kt.2 t h A
    · exact class_definitions_no_function rest t h A
end

/-- The function definitions of a member type are among those of the list. -/
theorem function_bodies_mem (mts : List (String × type_base)) (k : String)
    (T : type_base) (hT : (k, T) ∈ mts) :
    ∀ t ∈ function_body T, t ∈ function_bodies mts := by
  induction mts with
  | nil => cases hT
  | cons kt rest ih =>
    intro t ht
    rcases List.mem_cons.mp hT with h | h
    · subst h
      simp [function_bodies, ht]
    · simp [function_bodies, ih h t ht]

/-- C27 fails at the note schema: the class-style family writes the class
`note_type` and nothing else; none of its tokens is the opening line of
`toXML<note_type>` or of `fromXML<note_type>`, which the struct-style family writes
to its cache of function definitions. -/
theorem class_style_note_no_functions :
    class_generate_global note_graph [] = note_class ∧
    Tok.text (serializer_specialization "note_type" ++ " \x7b\n") ∉ note_class ∧
    Tok.text (deserializer_specialization "note_type" ++ " \x7b\n") ∉ note_class ∧
    Tok.text (serializer_specialization "note_type" ++ " \x7b\n")
      ∈ (struct_generate_member_types note_graph.memberTypes ⟨[], []⟩).cache ∧
    Tok.text (deserializer_specialization "note_type" ++ " \x7b\n")
      ∈ (struct_generate_member_types note_graph.memberTypes ⟨[], []⟩).cache := by
  refine ⟨rfl, by decide, by decide, ?_, ?_⟩
  · rw [struct_generate_member_types_eq]
    decide
  · rw [struct_generate_member_types_eq]
    decide

/-! ## C28: field types in the class-style family -/

/-- C28 (the code at the failing inputs): the class-style family writes the
private field, the constructor parameter, the setter parameter and the return
types of both getters with the plain target name `T` of the member's type, for a
member of every kind. For the Optional member `cc` of the note schema it writes
`std::string cc;`, where the struct-style family writes
`std::optional<std::string> cc;`; for a Repeated member `item` it writes
`std::string item;`, where the struct-style family writes
`std::vector<std::string> item;`. -/
theorem class_fields_not_wrapped :
    (∀ (k : member_kind) (n T : String) (path : List String) (c : String),
      generate_data_members_private [⟨k, n, ⟨path, T⟩⟩]
        = [Tok.text (T ++ " " ++ n ++ ";\n")] ∧
      generate_constructor c [⟨k, n, ⟨path, T⟩⟩]
        = [Tok.text (c ++ "("), Tok.text (T ++ " " ++ n ++ ")\n  : "),
           Tok.text (n ++ "(move(" ++ n ++ "))" ++ " \x7b\x7d\n")] ∧
      generate_setters ⟨k, n, ⟨path, T⟩⟩
        = [Tok.text ("void set_" ++ n ++ "(" ++ T ++ " const & x) \x7b\n"),
           Tok.indent, Tok.text (n ++ " = x;\n"), Tok.unindent, Tok.text "\x7d\n"] ∧
      generate_getters ⟨k, n, ⟨path, T⟩⟩
        = [Tok.text (T ++ " get_" ++ n ++ "() && \x7b\n"),
           Tok.indent, Tok.text ("return std::move(" ++ n ++ ");\n"), Tok.unindent,
           Tok.text "\x7d\n",
           Tok.text (T ++ " const & get_" ++ n ++ "() const & \x7b\n"),
           Tok.indent, Tok.text ("return " ++ n ++ ";\n"), Tok.unindent,
           Tok.text "\x7d\n"]) ∧
    Tok.text "std::string cc;\n" ∈ class_generate_global note_graph [] ∧
    Tok.text "std::optional<std::string> cc;\n" ∉ class_generate_global note_graph [] ∧
    field_declaration ⟨.optional, "cc", ⟨["xs:string"], "std::string"⟩⟩
      = Tok.text "std::optional<std::string> cc;\n" ∧
    generate_data_members_private [⟨.multiple, "item", ⟨["xs:string"], "std::string"⟩⟩]
      = [Tok.text "std::string item;\n"] ∧
    field_declaration ⟨.multiple, "item", ⟨["xs:string"], "std::string"⟩⟩
      = Tok.text "std::vector<std::string> item;\n" := by
  refine ⟨?_, by decide, by decide, by decide, by decide, by decide⟩
  intro k n T path c
  refine ⟨rfl, ?_, rfl, rfl⟩
  simp [generate_constructor, joined, ostream_joiner_copy]

/-! ## C29: the declaration-only family -/

mutual
/-- The declarations written for a node are the pairs of declarations of the
nodes at and below it. -/
theorem forward_declaration_nodes : ∀ (t : type_base),
    forward_declaration t = (t.nodes.map declaration_pair).flatten
  | .builtin k => by
    simp [forward_declaration, type_base.nodes, declaration_pair, type_base.name]
  | .complex_type name cen a mts dms => by
    simp [forward_declaration, type_base.nodes, declaration_pair, type_base.name,
      forward_declarations_nodes mts]
/-- The declarations written for a list of member types. -/
theorem forward_declarations_nodes : ∀ (mts : List (String × type_base)),
    forward_declarations mts = ((nodes_of mts).map declaration_pair).flatten
  | [] => by simp [forward_declarations, nodes_of]
  | kt :: rest => by
    simp [forward_declarations, nodes_of, forward_declaration_nodes kt.2,
      forward_declarations_nodes rest]
end

/-- A type bound in a scope is one of its nodes. -/
theorem map_find_nodes (mts : List (String × type_base)) (key : String) (t : type_base)
    (h : map_find mts key = some t) : t ∈ nodes_of mts := by
  induction mts with
  | nil => simp [map_find] at h
  | cons kt rest ih =>
    simp only [map_find] at h
    by_cases hk : kt.1 = key
    · simp only [hk, if_true, Option.some.injEq] at h
      subst h
      simp only [nodes_of, List.mem_append]
      left
      cases kt.2 <;> simp [type_base.nodes]
    · simp only [hk, if_false] at h
      simp only [nodes_of, List.mem_append]
      exact Or.inr (ih h)

/-- The nodes below a type bound in a scope are nodes of the scope. -/
theorem nodes_of_bound (mts : List (String × type_base)) (key : String) (t : type_base)
    (h : map_find mts key = some t) : ∀ x ∈ t.nodes, x ∈ nodes_of mts := by
  induction mts with
  | nil => simp [map_find] at h
  | cons kt rest ih =>
    intro x hx
    simp only [map_find] at h
    by_cases hk : kt.1 = key
    · simp only [hk, if_true, Option.some.injEq] at h
      subst h
      simp only [nodes_of, List.mem_append]
      exact Or.inl hx
    · simp only [hk, if_false] at h
      simp only [nodes_of, List.mem_append]
      exact Or.inr (ih h x hx)

/-- A type bound in a scope of the graph, at any nesting depth, is a node of the
graph. -/
theorem scope_at_nodes (path : List String) :
    ∀ (g s : scope) (key : String) (t : type_base), scope_at path g = some s →
      map_find s.memberTypes key = some t → t ∈ nodes_of g.memberTypes := by
  induction path with
  | nil =>
    intro g s key t hs ht
    simp only [scope_at, Option.some.injEq] at hs
    subst hs
    exact map_find_nodes _ key t ht
  | cons k ks ih =>
    intro g s key t hs ht
    simp only [scope_at] at hs
    cases hk : map_find g.memberTypes k with
    | none => simp [hk] at hs
    | some T =>
      cases T with
      | builtin b => simp [hk] at hs
      | complex_type n c a mts dms =>
        simp only [hk] at hs
        have hin := ih ⟨mts, dms⟩ s key t hs ht
        exact nodes_of_bound _ k _ hk t (by simp [type_base.nodes, hin])

/-- C29: for every type graph the declaration-only family, visiting the global
scope, appends to the stream exactly one pair of declarations for every node at
and below the member types of the global scope, in the order of visit, and nothing
else (nothing for the global scope itself): the pair for a node is the
deserializer and the serializer specialisation for the node's target name, each
followed by `;` and a newline. Every type bound in some scope of the graph, at any
nesting depth, is one of these nodes and has its pair in the output; for a new
global scope the nodes are the four builtin types. -/
theorem declaration_only_emission (g : global_scope) (os : ostream) :
    decl_generate_member_types g.memberTypes os
      = os ++ ((nodes_of g.memberTypes).map declaration_pair).flatten ∧
    (∀ t : type_base, declaration_pair t
      = [Tok.text ("template<>\n" ++ t.name ++ " fromXML<" ++ t.name
            ++ ">(xml::parser &p, std::string name)" ++ ";\n"),
         Tok.text ("template<>\nvoid toXML<" ++ t.name ++ ">(" ++ t.name
            ++ " const& x, xml::serializer &s, std::string name)" ++ ";\n")]) ∧
    (∀ (path : List String) (s : scope) (key : String) (t : type_base),
      scope_at path g = some s → map_find s.memberTypes key = some t →
      t ∈ nodes_of g.memberTypes ∧
      ∀ d ∈ declaration_pair t, d ∈ decl_generate_member_types g.memberTypes os) ∧
    nodes_of global_scope.new.memberTypes
      = [.builtin .boolean_type, .builtin .byte_type, .builtin .int_type,
         .builtin .string_type] := by
  have heq : decl_generate_member_types g.memberTypes os
      = os ++ ((nodes_of g.memberTypes).map declaration_pair).flatten := by
    rw [decl_generate_member_types_eq, forward_declarations_nodes]
  refine ⟨heq, fun t => rfl, ?_, rfl⟩
  intro path s key t hs ht
  have hin := scope_at_nodes path g s key t hs ht
  refine ⟨hin, ?_⟩
  intro d hd
  rw [heq, List.mem_append]
  right
  rw [List.mem_flatten]
  exact ⟨declaration_pair t, List.mem_map.2 ⟨t, hin, rfl⟩, hd⟩

/-! ## C31: a named complexType directly under `schema` -/

/-- C31 (the code at the failing inputs): when a complexType starts while the
element stack is empty, the constructor of `complex_type` evaluates the default
argument `cur_element().defaultTypeName()`, that is `elementStack.top()` on the
empty stack, whether or not the attribute `name` is present; the behaviour of this
event, and of every ingestion that contains it, is undefined. -/
theorem toplevel_complexType_undefined (st : ingest_state) (attrs : List (String × String))
    (rest : List SchemaEvent) (top : elt) (ps : List elt)
    (hp : st.eventProcessors = top :: ps) (he : st.elementStack = []) :
    process st (.start_element "complexType" attrs) = .undefined .empty_element_stack ∧
    process_all st (.start_element "complexType" attrs :: rest)
      = .undefined .empty_element_stack := by
  have hstep : process st (.start_element "complexType" attrs)
      = .undefined .empty_element_stack := by
    unfold process
    simp [hp, afterProcess_start, complex_type_elt.construct, he]
  refine ⟨hstep, ?_⟩
  simp only [process_all, hstep, Outcome.bind]

/-- C31 at `<schema><complexType name="N">`: the start tag of the named
complexType, and the ingestion of `toplevel_type_schema` from there on. -/
theorem toplevel_complexType_undefined_witness :
    process (in_schema global_scope.new) (.start_element "complexType" [("name", "N")])
      = .undefined .empty_element_stack ∧
    process_all (in_schema global_scope.new)
        (.start_element "complexType" [("name", "N")] :: toplevel_type_schema.drop 2)
      = .undefined .empty_element_stack :=
  toplevel_complexType_undefined (in_schema global_scope.new) [("name", "N")]
    (toplevel_type_schema.drop 2) .schema_elt [.event_processor] rfl rfl

/-! ## C36: nested types in the class-style family -/

/-- C36 (the code at the failing input): ingestion of `nested_schema` gives the
graph in which `inner_type` is a member type of `outer_type`. The class-style
family writes the opening line of `class inner_type` twice, once in the private
and once in the public part of `class outer_type`, and the opening line of
`class outer_type` once; the struct-style family writes the opening line of
`struct inner_type` once. -/
theorem nested_class_defined_twice :
    (inhaleSchema nested_schema).bind (fun st => .ok st.global) = .ok nested_graph ∧
    (class_generate_global nested_graph []).count
        (Tok.text "class inner_type\x7b\nprivate:\n") = 2 ∧
    (class_generate_global nested_graph []).count
        (Tok.text "class outer_type\x7b\nprivate:\n") = 1 ∧
    (struct_definitions nested_graph.memberTypes).count
        (Tok.text "struct inner_type \x7b\n") = 1 :=
  ⟨rfl, by decide, by decide, by decide⟩

/-! ## C37: `ostream_joiner` -/

/-- The loop of `String.intercalate` on a stream that already holds `a`. -/
theorem intercalate_go_append (d : String) (xs : List String) :
    ∀ a b : String, String.intercalate.go (a ++ b) d xs = a ++ String.intercalate.go b d xs := by
  induction xs with
  | nil => intro a b; rfl
  | cons x xs ih =>
    intro a b
    simp only [String.intercalate.go]
    rw [String.append_assoc, String.append_assoc, ih, ← String.append_assoc b]

/-- After the first element, `std::copy` into the joiner of `hw13/13.1` continues
the loop of `String.intercalate`. -/
theorem copy_to_joiner_go (d : String) (xs : List String) :
    ∀ os : String, copy_to_joiner xs ⟨os, d, false⟩
      = ⟨String.intercalate.go os d xs, d, false⟩ := by
  induction xs with
  | nil => intro os; rfl
  | cons x xs ih =>
    intro os
    simp only [copy_to_joiner, ostream_joiner.assign, String.intercalate.go]
    exact ih _

/-- What `std::copy` into a new joiner of `hw13/13.1` appends to the stream. -/
theorem copy_to_joiner_os (d os : String) (xs : List String) :
    (copy_to_joiner xs ⟨os, d, true⟩).os = os ++ d.intercalate xs := by
  cases xs with
  | nil => simp [copy_to_joiner, String.intercalate]
  | cons x xs =>
    simp only [copy_to_joiner, ostream_joiner.assign, String.intercalate]
    rw [show (if (!true) = true then ({ os := os ++ d, delimiter := d, first_elem := true }
          : ostream_joiner)
        else { os := os, delimiter := d, first_elem := false })
        = { os := os, delimiter := d, first_elem := false } from rfl]
    rw [copy_to_joiner_go, intercalate_go_append]

/-- What `std::copy` through the joiner of `hw16` appends to the stream. -/
theorem ostream_joiner_copy_os (d os : String) (xs : List String) :
    ostream_joiner_copy d xs true os = os ++ d.intercalate xs := by
  cases xs with
  | nil => simp [ostream_joiner_copy, String.intercalate]
  | cons x xs =>
    simp only [ostream_joiner_copy, String.intercalate]
    rw [ostream_joiner_copy_go]
    exact intercalate_go_append d xs os x

/-- C37: `std::copy` of the elements `xs` into an `ostream_joiner` with delimiter
`d`, built on a stream that holds `os`, leaves the stream holding `os` followed by
the elements separated by `d` (nothing for no element, the element alone for one
element, no delimiter in front or at the end); this holds for the joiner of
`hw13/13.1` and for the one of `hw16`. A vector is printed as `[`, its elements
separated by a comma and a blank, and `]`; the empty vector as `[]`. -/
theorem ostream_joiner_separates (d os : String) (xs : List String) :
    (copy_to_joiner xs ⟨os, d, true⟩).os = os ++ d.intercalate xs ∧
    ostream_joiner_copy d xs true os = os ++ d.intercalate xs ∧
    d.intercalate [] = "" ∧
    (∀ x : String, d.intercalate [x] = x) ∧
    (∀ (x y : String) (ys : List String),
      d.intercalate (x :: y :: ys) = x ++ d ++ d.intercalate (y :: ys)) ∧
    vector_print os xs = os ++ "[" ++ ", ".intercalate xs ++ "]" ∧
    vector_print os [] = os ++ "[" ++ "]" ∧
    vector_print "" ["matcha", "hojicha", "black tea"] = "[matcha, hojicha, black tea]" := by
  have hv : ∀ ys : List String,
      vector_print os ys = os ++ "[" ++ ", ".intercalate ys ++ "]" := by
    intro ys
    unfold vector_print
    rw [copy_to_joiner_os]
  refine ⟨copy_to_joiner_os d os xs, ostream_joiner_copy_os d os xs, rfl, fun x => rfl,
    ?_, hv xs, ?_, by decide⟩
  · intro x y ys
    simp only [String.intercalate, String.intercalate.go]
    rw [intercalate_go_append]
  · rw [hv]
    simp [String.intercalate]

/-! ## C32: stack discipline -/

/-- The level after a concatenation. -/
theorem indent_level_append (a b : ostream) :
    ∀ n, indent_level (a ++ b) n = (indent_level a n).bind (indent_level b) := by
  induction a with
  | nil => intro n; rfl
  | cons t a ih =>
    intro n
    cases t with
    | text s => simpa [indent_level] using ih n
    | indent => simpa [indent_level] using ih (n + 1)
    | unindent =>
      cases n with
      | zero => simp [indent_level]
      | succ m => simpa [indent_level] using ih m

/-- Two streams that each return to the level they start from. -/
theorem level_kept_append (a b : ostream) (ha : ∀ n, indent_level a n = some n)
    (hb : ∀ n, indent_level b n = some n) : ∀ n, indent_level (a ++ b) n = some n := by
  intro n
  rw [indent_level_append, ha]
  exact hb n

/-- A stream of text only keeps the level. -/
theorem level_kept_texts (os : ostream) (h : ∀ t ∈ os, ∃ s, t = Tok.text s) :
    ∀ n, indent_level os n = some n := by
  induction os with
  | nil => intro n; rfl
  | cons t os ih =>
    intro n
    obtain ⟨s, rfl⟩ := h t (List.mem_cons_self _ _)
    simp only [indent_level]
    exact ih (fun t ht => h t (List.mem_cons_of_mem _ ht)) n

/-- A concatenation of streams that each keep the level. -/
theorem level_kept_flatten (ls : List ostream)
    (h : ∀ l ∈ ls, ∀ n, indent_level l n = some n) :
    ∀ n, indent_level ls.flatten n = some n := by
  induction ls with
  | nil => intro n; rfl
  | cons l ls ih =>
    rw [List.flatten_cons]
    exact level_kept_append l _ (h l (List.mem_cons_self _ _))
      (ih fun l' hl' => h l' (List.mem_cons_of_mem _ hl'))

/-- A stream between `indent` and `unindent`. -/
theorem level_kept_wrap (a : ostream) (ha : ∀ n, indent_level a n = some n) :
    ∀ n, indent_level (Tok.indent :: (a ++ [Tok.unindent])) n = some n := by
  intro n
  simp [indent_level, indent_level_append, ha]

/-- A stream that returns to the level it starts from is well bracketed. -/
theorem indent_level_take (os : ostream) :
    ∀ (n m : Nat), indent_level os n = some m → ∀ k, ∃ m0, indent_level (os.take k) n = some m0 := by
  induction os with
  | nil =>
    intro n m _ k
    exact ⟨n, by simp [indent_level]⟩
  | cons t os ih =>
    intro n m h k
    cases k with
    | zero => exact ⟨n, by simp [indent_level]⟩
    | succ k =>
      cases t with
      | text s => exact ih n m (by simpa [indent_level] using h) k
      | indent => exact ih (n + 1) m (by simpa [indent_level] using h) k
      | unindent =>
        cases n with
        | zero => simp [indent_level] at h
        | succ n0 => exact ih n0 m (by simpa [indent_level] using h) k

/-- A stream that keeps every level is well bracketed. -/
theorem well_bracketed_of_kept (os : ostream) (h : ∀ n, indent_level os n = some n) :
    well_bracketed os :=
  ⟨indent_level_take os 0 0 (h 0), h 0⟩

/-- The indent of the decorator after a stream has been written through it: 4
columns per level. -/
theorem myIndent_level (os : ostream) :
    ∀ (n m : Nat) (b : IndentStreamBuf), indent_level os n = some m →
      (os.foldl IndentStreamBuf.write b).myIndent = b.myIndent + 4 * ((m : Int) - n) := by
  have hput : ∀ (cs : List Char) (b : IndentStreamBuf),
      (cs.foldl IndentStreamBuf.put b).myIndent = b.myIndent := by
    intro cs
    induction cs with
    | nil => intro b; rfl
    | cons c cs ih =>
      intro b
      simp only [List.foldl_cons]
      rw [ih]
      unfold IndentStreamBuf.put
      split
      · rfl
      · split <;> rfl
  induction os with
  | nil =>
    intro n m b h
    simp only [indent_level, Option.some.injEq] at h
    subst h
    simp
  | cons t os ih =>
    intro n m b h
    cases t with
    | text s =>
      simp only [indent_level] at h
      simp only [List.foldl_cons, IndentStreamBuf.write]
      rw [ih n m _ h, hput]
    | indent =>
      simp only [indent_level] at h
      simp only [List.foldl_cons, IndentStreamBuf.write]
      rw [ih (n + 1) m _ h]
      push_cast
      ring
    | unindent =>
      cases n with
      | zero => simp [indent_level] at h
      | succ n0 =>
        simp only [indent_level] at h
        simp only [List.foldl_cons, IndentStreamBuf.write]
        rw [ih n0 m _ h]
        push_cast
        ring

/-- The statements written for one member keep the level. -/
theorem generateDeserializer_level (dm : data_member) :
    ∀ n, indent_level (generateDeserializer dm) n = some n := by
  intro n
  unfold generateDeserializer generateDeserializer_required
  cases dm.kind <;> simp [indent_level]

/-- The statements written for one member keep the level. -/
theorem generateSerializer_level (dm : data_member) :
    ∀ n, indent_level (generateSerializer dm) n = some n := by
  intro n
  unfold generateSerializer
  cases dm.kind <;> simp [indent_level]

/-- The serializer written for a complex type keeps the level. -/
theorem generate_serializer_level (name cen : String) (a : Bool) (dms : List data_member) :
    ∀ n, indent_level (generate_serializer name cen a dms) n = some n := by
  intro n
  have h1 : ∀ n, indent_level (dms.map generateSerializer).flatten n = some n :=
    level_kept_flatten _ (by
      intro l hl
      obtain ⟨dm, _, rfl⟩ := List.mem_map.1 hl
      exact generateSerializer_level dm)
  unfold generate_serializer default_name_line
  cases a <;> simp [indent_level, indent_level_append, h1]

/-- The deserializer written for a complex type keeps the level. -/
theorem generate_deserializer_level (name cen : String) (a : Bool)
    (dms : List data_member) :
    ∀ n, indent_level (generate_deserializer name cen a dms) n = some n := by
  intro n
  have h1 : ∀ n, indent_level
      (dms.map fun dm => Tok.text "munchSpace(p);\n" :: generateDeserializer dm).flatten n
        = some n :=
    level_kept_flatten _ (by
      intro l hl
      obtain ⟨dm, _, rfl⟩ := List.mem_map.1 hl
      intro n
      simp [indent_level, generateDeserializer_level dm])
  unfold generate_deserializer default_name_line
  cases a <;> simp [indent_level, indent_level_append, h1]

mutual
/-- The function definitions of a type keep the level. -/
theorem function_body_level : ∀ (T : type_base) (n : Nat),
    indent_level (function_body T) n = some n
  | .builtin k, n => by
    simp [function_body, builtin_generate_deserializer, builtin_generate_serializer,
      indent_level]
  | .complex_type name cen a mts dms, n => by
    simp only [function_body]
    exact level_kept_append _ _
      (level_kept_append _ _ (function_bodies_level mts)
        (generate_serializer_level name cen a dms))
      (generate_deserializer_level name cen a dms) n
/-- The function definitions of a list of types keep the level. -/
theorem function_bodies_level : ∀ (mts : List (String × type_base)) (n : Nat),
    indent_level (function_bodies mts) n = some n
  | [], n => by simp [function_bodies, indent_level]
  | kt :: rest, n => by
    simp only [function_bodies]
    exact level_kept_append _ _ (function_body_level kt.2) (function_bodies_level rest) n
end

mutual
/-- The struct definition of a type keeps the level. -/
theorem struct_definition_level : ∀ (T : type_base) (n : Nat),
    indent_level (struct_definition T) n = some n
  | .builtin k, n => by simp [struct_definition, indent_level]
  | .complex_type name cen a mts dms, n => by
    have h1 := struct_definitions_level mts
    have h2 : ∀ n, indent_level (generate_data_members dms) n = some n :=
      level_kept_texts _ (by
        intro t ht
        simp only [generate_data_members, List.mem_map] at ht
        obtain ⟨dm, _, rfl⟩ := ht
        exact ⟨_, rfl⟩)
    simp [struct_definition, generate_begin, generate_end, indent_level,
      indent_level_append, h1, h2]
/-- The struct definitions of a list of types keep the level. -/
theorem struct_definitions_level : ∀ (mts : List (String × type_base)) (n : Nat),
    indent_level (struct_definitions mts) n = some n
  | [], n => by simp [struct_definitions, indent_level]
  | kt :: rest, n => by
    simp only [struct_definitions]
    exact level_kept_append _ _ (struct_definition_level kt.2)
      (struct_definitions_level rest) n
end

mutual
/-- The declarations of a type keep the level. -/
theorem forward_declaration_level : ∀ (T : type_base) (n : Nat),
    indent_level (forward_declaration T) n = some n
  | .builtin k, n => by simp [forward_declaration, indent_level]
  | .complex_type name cen a mts dms, n => by
    simp [forward_declaration, indent_level, forward_declarations_level mts]
/-- The declarations of a list of types keep the level. -/
theorem forward_declarations_level : ∀ (mts : List (String × type_base)) (n : Nat),
    indent_level (forward_declarations mts) n = some n
  | [], n => by simp [forward_declarations, indent_level]
  | kt :: rest, n => by
    simp only [forward_declarations]
    exact level_kept_append _ _ (forward_declaration_level kt.2)
      (forward_declarations_level rest) n
end

/-- The accessors written for one member keep the level. -/
theorem accessors_level (dms : List data_member) :
    ∀ n, indent_level (generate_data_members_public dms) n = some n := by
  unfold generate_data_members_public
  refine level_kept_flatten _ ?_
  intro l hl
  obtain ⟨dm, _, rfl⟩ := List.mem_map.1 hl
  intro n
  simp [generate_setters, generate_getters, indent_level]

mutual
/-- The class definition of a type keeps the level. -/
theorem class_definition_level : ∀ (T : type_base) (n : Nat),
    indent_level (class_definition T) n = some n
  | .builtin k, n => by simp [class_definition, indent_level]
  | .complex_type name cen a mts dms, n => by
    have h1 := class_definitions_level mts
    have h2 : ∀ n, indent_level (generate_data_members_private dms) n = some n :=
      level_kept_texts _ (by
        intro t ht
        simp only [generate_data_members_private, List.mem_map] at ht
        obtain ⟨dm, _, rfl⟩ := ht
        exact ⟨_, rfl⟩)
    have h3 := accessors_level dms
    simp [class_definition, class_generate_begin, class_generate_end, generate_constructor,
      indent_level, indent_level_append, h1, h2, h3]
/-- The class definitions of a list of types keep the level. -/
theorem class_definitions_level : ∀ (mts : List (String × type_base)) (n : Nat),
    indent_level (class_definitions mts) n = some n
  | [], n => by simp [class_definitions, indent_level]
  | kt :: rest, n => by
    simp only [class_definitions]
    exact level_kept_append _ _ (class_definition_level kt.2)
      (class_definitions_level rest) n
end

/-- C33: for every type graph, the markers `indent` and `unindent` are well
bracketed in what the struct-style family writes to the main stream, in what it
writes to the deferred buffer, in what the class-style family writes and in what
the declaration-only family writes: after every initial part the level is at
least the starting level and at the end it is the starting level. Accordingly the
indent of the decorator is, after each of these streams, what it was before. -/
theorem indentation_balanced (g : global_scope) (c : ostream) :
    well_bracketed (struct_generate_global g ⟨[], c⟩).os ∧
    well_bracketed (struct_generate_member_types g.memberTypes ⟨[], []⟩).cache ∧
    well_bracketed (class_generate_global g []) ∧
    well_bracketed (decl_generate_member_types g.memberTypes []) ∧
    (∀ (os : ostream) (b : IndentStreamBuf), well_bracketed os →
      (os.foldl IndentStreamBuf.write b).myIndent = b.myIndent ∧
      ∀ k, b.myIndent ≤ ((os.take k).foldl IndentStreamBuf.write b).myIndent) := by
  refine ⟨?_, ?_, ?_, ?_, ?_⟩
  · apply well_bracketed_of_kept
    intro n
    rw [struct_generate_global_os]
    simp [indent_level, indent_level_append, struct_definitions_level,
      forward_declarations_level]
  · apply well_bracketed_of_kept
    intro n
    rw [struct_generate_member_types_eq]
    simpa using function_bodies_level g.memberTypes n
  · apply well_bracketed_of_kept
    intro n
    unfold class_generate_global
    rw [class_generate_member_types_eq]
    simpa using class_definitions_level g.memberTypes n
  · apply well_bracketed_of_kept
    intro n
    rw [decl_generate_member_types_eq]
    simpa using forward_declarations_level g.memberTypes n
  · intro os b hw
    refine ⟨?_, ?_⟩
    · have := myIndent_level os 0 0 b hw.2
      simpa using this
    · intro k
      obtain ⟨m, hm⟩ := hw.1 k
      have := myIndent_level (os.take k) 0 m b hm
      rw [this]
      have : (0 : Int) ≤ (m : Int) := Int.ofNat_nonneg m
      push_cast
      omega

/-! ## C34: two struct-style generations in a row -/

/-- After a text that ends with a newline the decorator is at a line start. -/
theorem put_newline_last (cs : List Char) (h : cs.getLast? = some '\n')
    (b : IndentStreamBuf) : (cs.foldl IndentStreamBuf.put b).isLineStart = true := by
  obtain ⟨ys, rfl⟩ := List.getLast?_eq_some_iff.1 h
  rw [List.foldl_append]
  simp [IndentStreamBuf.put]

/-- A stream whose texts all end with a newline leaves the decorator at a line
start. -/
theorem ends_lines_lineStart (os : ostream) (h : ends_lines os) :
    ∀ b : IndentStreamBuf, b.isLineStart = true →
      (os.foldl IndentStreamBuf.write b).isLineStart = true := by
  induction os with
  | nil => intro b hb; exact hb
  | cons t os ih =>
    intro b hb
    simp only [List.foldl_cons]
    apply ih (fun t ht => h t (List.mem_cons_of_mem _ ht))
    cases t with
    | text s =>
      exact put_newline_last s.data (h _ (List.mem_cons_self _ _) s rfl) b
    | indent => exact hb
    | unindent => exact hb

/-- A text whose last piece ends with a newline ends with a newline. -/
theorem ends_newline_append (B lit : String) (h : lit.data.getLast? = some '\n') :
    ∀ s, Tok.text (B ++ lit) = Tok.text s → s.data.getLast? = some '\n' := by
  intro s hs
  cases hs
  simp [String.data_append, h]

/-- A marker is not a text. -/
theorem ends_newline_indent : ∀ s, Tok.indent = Tok.text s → s.data.getLast? = some '\n' :=
  fun _ h => Tok.noConfusion h

/-- A marker is not a text. -/
theorem ends_newline_unindent :
    ∀ s, Tok.unindent = Tok.text s → s.data.getLast? = some '\n' :=
  fun _ h => Tok.noConfusion h

/-- A text that ends with a newline. -/
theorem ends_newline_lit (lit : String) (h : lit.data.getLast? = some '\n') :
    ∀ s, Tok.text lit = Tok.text s → s.data.getLast? = some '\n' := by
  intro s hs
  cases hs
  exact h

/-- Concatenation of streams whose texts end with a newline. -/
theorem ends_lines_append (a b : ostream) (ha : ends_lines a) (hb : ends_lines b) :
    ends_lines (a ++ b) := by
  intro t ht
  rcases List.mem_append.1 ht with h | h
  · exact ha t h
  · exact hb t h

/-- Concatenation of a list of streams whose texts end with a newline. -/
theorem ends_lines_flatten (ls : List ostream) (h : ∀ l ∈ ls, ends_lines l) :
    ends_lines ls.flatten := by
  intro t ht
  obtain ⟨l, hl, htl⟩ := List.mem_flatten.1 ht
  exact h l hl t htl

/-- The texts written for the serialization of one member end with a newline. -/
theorem generateSerializer_lines (dm : data_member) : ends_lines (generateSerializer dm) := by
  unfold ends_lines generateSerializer
  cases dm.kind <;>
    simp only [List.forall_mem_cons, List.not_mem_nil, false_implies, implies_true, and_true] <;>
    exact ends_newline_append _ _ (by decide)

/-- The texts written for the deserialization of one member end with a newline. -/
theorem generateDeserializer_lines (dm : data_member) :
    ends_lines (generateDeserializer dm) := by
  unfold ends_lines generateDeserializer generateDeserializer_required
  cases dm.kind
  · simp only [List.forall_mem_cons, List.not_mem_nil, false_implies, implies_true, and_true]
    exact ends_newline_append _ _ (by decide)
  · simp only [List.cons_append, List.nil_append, List.forall_mem_cons, List.not_mem_nil,
      false_implies, implies_true, and_true]
    exact ⟨ends_newline_append _ _ (by decide), ends_newline_indent,
      ends_newline_append _ _ (by decide), ends_newline_unindent,
      ends_newline_lit _ (by decide)⟩
  · simp only [List.forall_mem_cons, List.not_mem_nil, false_implies, implies_true, and_true]
    exact ends_newline_append _ _ (by decide)

/-- The texts of the line giving the default tag name end with a newline. -/
theorem default_name_line_lines (cen : String) (a : Bool) :
    ends_lines (default_name_line cen a) := by
  unfold ends_lines default_name_line
  cases a
  · simp only [Bool.not_false, if_true, List.forall_mem_cons, List.not_mem_nil, false_implies,
      implies_true, and_true]
    exact ends_newline_append _ _ (by decide)
  · simp

/-- The texts of a generated serializer end with a newline. -/
theorem generate_serializer_lines (name cen : String) (a : Bool) (dms : List data_member) :
    ends_lines (generate_serializer name cen a dms) := by
  unfold generate_serializer
  refine ends_lines_append _ _ (ends_lines_append _ _ (ends_lines_append _ _
    (ends_lines_append _ _ ?_ (default_name_line_lines cen a)) ?_) ?_) ?_
  · unfold ends_lines
    simp only [List.forall_mem_cons, List.not_mem_nil, false_implies, implies_true, and_true]
    exact ⟨ends_newline_append _ _ (by decide), ends_newline_indent⟩
  · unfold ends_lines
    simp only [List.forall_mem_cons, List.not_mem_nil, false_implies, implies_true, and_true]
    exact ends_newline_lit _ (by decide)
  · refine ends_lines_flatten _ ?_
    intro l hl
    obtain ⟨dm, _, rfl⟩ := List.mem_map.1 hl
    exact generateSerializer_lines dm
  · unfold ends_lines
    simp only [List.forall_mem_cons, List.not_mem_nil, false_implies, implies_true, and_true]
    exact ⟨ends_newline_lit _ (by decide), ends_newline_unindent,
      ends_newline_lit _ (by decide)⟩

/-- The texts of a generated deserializer end with a newline. -/
theorem generate_deserializer_lines (name cen : String) (a : Bool)
    (dms : List data_member) : ends_lines (generate_deserializer name cen a dms) := by
  unfold generate_deserializer
  refine ends_lines_append _ _ (ends_lines_append _ _ (ends_lines_append _ _
    (ends_lines_append _ _ ?_ (default_name_line_lines cen a)) ?_) ?_) ?_
  · unfold ends_lines
    simp only [List.forall_mem_cons, List.not_mem_nil, false_implies, implies_true, and_true]
    exact ⟨ends_newline_append _ _ (by decide), ends_newline_indent⟩
  · unfold ends_lines
    simp only [List.forall_mem_cons, List.not_mem_nil, false_implies, implies_true, and_true]
    exact ends_newline_append _ _ (by decide)
  · refine ends_lines_flatten _ ?_
    intro l hl
    obtain ⟨dm, _, rfl⟩ := List.mem_map.1 hl
    refine ends_lines_append _ _ ?_ (generateDeserializer_lines dm)
    unfold ends_lines
    simp only [List.forall_mem_cons, List.not_mem_nil, false_implies, implies_true, and_true]
    exact ends_newline_lit _ (by decide)
  · unfold ends_lines
    simp only [List.forall_mem_cons, List.not_mem_nil, false_implies, implies_true, and_true]
    exact ⟨ends_newline_lit _ (by decide), ends_newline_unindent,
      ends_newline_lit _ (by decide)⟩

/-- The texts of the builtin functions end with a newline. -/
theorem builtin_functions_lines (k : builtin_kind) :
    ends_lines (builtin_generate_deserializer k ++ builtin_generate_serializer k) := by
  unfold ends_lines builtin_generate_deserializer builtin_generate_serializer
  simp only [List.cons_append, List.nil_append, List.forall_mem_cons, List.not_mem_nil,
    false_implies, implies_true, and_true]
  exact ⟨ends_newline_append _ _ (by decide), ends_newline_indent,
    ends_newline_append _ _ (by decide), ends_newline_unindent,
    ends_newline_lit _ (by decide),
    ends_newline_append _ _ (by decide), ends_newline_indent,
    ends_newline_append _ _ (by decide), ends_newline_unindent,
    ends_newline_lit _ (by decide)⟩

mutual
/-- The texts of the function definitions of a type end with a newline. -/
theorem function_body_lines : ∀ (T : type_base), ends_lines (function_body T)
  | .builtin k => by
    simp only [function_body]
    exact builtin_functions_lines k
  | .complex_type name cen a mts dms => by
    simp only [function_body]
    exact ends_lines_append _ _
      (ends_lines_append _ _ (function_bodies_lines mts)
        (generate_serializer_lines name cen a dms))
      (generate_deserializer_lines name cen a dms)
/-- The texts of the function definitions of a list of types end with a newline. -/
theorem function_bodies_lines : ∀ (mts : List (String × type_base)),
    ends_lines (function_bodies mts)
  | [] => by
    intro t ht
    simp [function_bodies] at ht
  | kt :: rest => by
    simp only [function_bodies]
    exact ends_lines_append _ _ (function_body_lines kt.2) (function_bodies_lines rest)
end

/-- The state of the decorator `cachedDeserializers` after the function
definitions of a graph have been written through it from the state of a new
decorator: the indent is 0 again and the next character starts a line. -/
theorem cache_decorator_restored (g : global_scope) :
    ((function_bodies g.memberTypes).foldl IndentStreamBuf.write ⟨[], 0, true⟩).myIndent = 0 ∧
    ((function_bodies g.memberTypes).foldl IndentStreamBuf.write ⟨[], 0, true⟩).isLineStart
      = true := by
  refine ⟨?_, ends_lines_lineStart _ (function_bodies_lines g.memberTypes) _ rfl⟩
  have h := myIndent_level (function_bodies g.memberTypes) 0 0 ⟨[], 0, true⟩
    (function_bodies_level g.memberTypes 0)
  simpa using h

/-- C34: let the struct-style family generate twice in a row from the graph `g`,
the first time with the static decorator `cachedDeserializers` in the state of a
new decorator. The first run leaves the decorator with indent 0 at a line start,
the second run empties the collected text, and the main stream written by the
second run is the one written by the first: the text deferred by the first run does
not appear again. In terms of `toCPP`, the output does not depend on what the
deferred buffer holds on entry. -/
theorem struct_generation_repeatable (g : global_scope) (c1 c2 : ostream) :
    (struct_generate_global_run g (struct_generate_global_run g ⟨[], 0, true⟩).2).1
      = (struct_generate_global_run g ⟨[], 0, true⟩).1 ∧
    (struct_generate_global_run g (struct_generate_global_run g ⟨[], 0, true⟩).2).2
      = (struct_generate_global_run g ⟨[], 0, true⟩).2 ∧
    (struct_generate_global_run g ⟨[], 0, true⟩).1 = (struct_generate_global g ⟨[], c1⟩).os ∧
    toCPP_struct g c1 = toCPP_struct g c2 := by
  obtain ⟨hind, hline⟩ := cache_decorator_restored g
  have hb : ({ (struct_generate_global_run g ⟨[], 0, true⟩).2 with out := [] }
      : IndentStreamBuf) = ⟨[], 0, true⟩ := by
    simp only [struct_generate_global_run, struct_generate_member_types_eq,
      List.nil_append]
    rw [hind, hline]
  have hrun : ∀ b : IndentStreamBuf, struct_generate_global_run g b
      = struct_generate_global_run g { b with out := [] } := fun b => rfl
  refine ⟨?_, ?_, ?_, ?_⟩
  · rw [hrun (struct_generate_global_run g ⟨[], 0, true⟩).2, hb]
  · rw [hrun (struct_generate_global_run g ⟨[], 0, true⟩).2, hb]
  · rw [struct_generate_global_os]
    simp [struct_generate_global_run, struct_generate_member_types_eq,
      decl_generate_member_types_eq, render, List.append_assoc]
  · unfold toCPP_struct
    rw [struct_generate_global_os, struct_generate_global_os]

/-! ## C35: every node once in the struct-style output -/

mutual
/-- The cached function definitions of a type are those of the nodes at and below
it, in order of completion. -/
theorem function_body_nodes : ∀ (T : type_base),
    function_body T = (T.nodes_after.map own_functions).flatten
  | .builtin k => by simp [function_body, type_base.nodes_after, own_functions]
  | .complex_type name cen a mts dms => by
    simp [function_body, type_base.nodes_after, own_functions, function_bodies_nodes mts,
      List.append_assoc]
/-- The cached function definitions of a list of member types. -/
theorem function_bodies_nodes : ∀ (mts : List (String × type_base)),
    function_bodies mts = ((nodes_after_of mts).map own_functions).flatten
  | [] => by simp [function_bodies, nodes_after_of]
  | kt :: rest => by
    simp [function_bodies, nodes_after_of, function_body_nodes kt.2,
      function_bodies_nodes rest]
end

mutual
/-- The two orders of visit go through the same nodes. -/
theorem nodes_after_perm : ∀ (T : type_base), T.nodes_after.Perm T.nodes
  | .builtin k => by simp [type_base.nodes_after, type_base.nodes]
  | .complex_type name cen a mts dms => by
    simp only [type_base.nodes_after, type_base.nodes]
    exact (List.perm_append_singleton _ _).trans
      (List.Perm.cons _ (nodes_after_of_perm mts))
/-- The two orders of visit go through the same nodes. -/
theorem nodes_after_of_perm : ∀ (mts : List (String × type_base)),
    (nodes_after_of mts).Perm (nodes_of mts)
  | [] => by simp [nodes_after_of, nodes_of]
  | kt :: rest => by
    simp only [nodes_after_of, nodes_of]
    exact List.Perm.append (nodes_after_perm kt.2) (nodes_after_of_perm rest)
end

/-- The opening lines of two structs are equal only for equal names. -/
theorem struct_opening_inj (a b : String) :
    Tok.text ("struct " ++ a ++ " \x7b\n") = Tok.text ("struct " ++ b ++ " \x7b\n") ↔ a = b := by
  constructor
  · intro h
    have h1 := congrArg String.data (Tok.text.inj h)
    simp only [String.data_append, List.append_cancel_right_eq, List.append_cancel_left_eq]
      at h1
    exact String.ext h1
  · intro h
    rw [h]

/-- The complex types among a concatenation of nodes. -/
theorem complex_names_append (a b : List type_base) :
    complex_names (a ++ b) = complex_names a ++ complex_names b := by
  induction a with
  | nil => rfl
  | cons t a ih => cases t <;> simp [complex_names, ih]

mutual
/-- The opening line of `struct N` occurs in the struct definition of a type as
often as a complex type named `N` occurs among the nodes at and below it. -/
theorem struct_definition_count : ∀ (T : type_base) (N : String),
    (struct_definition T).count (Tok.text ("struct " ++ N ++ " \x7b\n"))
      = (complex_names T.nodes).count N
  | .builtin k, N => by simp [struct_definition, type_base.nodes, complex_names]
  | .complex_type name cen a mts dms, N => by
    have hfields : (generate_data_members dms).count (Tok.text ("struct " ++ N ++ " \x7b\n"))
        = 0 := by
      rw [List.count_eq_zero]
      intro hmem
      simp only [generate_data_members, List.mem_map] at hmem
      obtain ⟨dm, _, hdm⟩ := hmem
      exact suffix_differs _ ";\n" _ " \x7b\n" (by decide) (Tok.text.inj hdm)
    have hend : generate_end.count (Tok.text ("struct " ++ N ++ " \x7b\n")) = 0 := by
      rw [List.count_eq_zero]
      intro hmem
      simp only [generate_end, List.mem_cons, List.not_mem_nil, or_false] at hmem
      rcases hmem with h | h
      · cases h
      · have h1 := Tok.text.inj h
        have h2 : ("" : String) ++ "\x7d;\n\n" = ("struct " ++ N) ++ " \x7b\n" := by
          simpa using h1.symm
        exact suffix_differs _ _ _ _ (by decide) h2
    have hbegin : (generate_begin name).count (Tok.text ("struct " ++ N ++ " \x7b\n"))
        = [name].count N := by
      simp only [generate_begin, List.count_cons, List.count_nil, beq_iff_eq,
        struct_opening_inj, Nat.zero_add]
      simp
    simp only [struct_definition, type_base.nodes, complex_names, List.count_append, hfields,
      hend, struct_definitions_count mts N, hbegin]
    simp [List.count_cons]
    omega
/-- The opening line of `struct N` in the struct definitions of a list of member
types. -/
theorem struct_definitions_count : ∀ (mts : List (String × type_base)) (N : String),
    (struct_definitions mts).count (Tok.text ("struct " ++ N ++ " \x7b\n"))
      = (complex_names (nodes_of mts)).count N
  | [], N => by simp [struct_definitions, nodes_of, complex_names]
  | kt :: rest, N => by
    simp only [struct_definitions, nodes_of, complex_names_append, List.count_append,
      struct_definition_count kt.2 N, struct_definitions_count rest N]
end

/-! ## The class `Date` -/

/-- Leading zeros do not change the number read. -/
theorem foldl_leading_zeros (k : Nat) (ds : List Nat) :
    (List.replicate k 0 ++ ds).foldl (fun a d => 10 * a + d) 0
      = ds.foldl (fun a d => 10 * a + d) 0 := by
  induction k with
  | zero => simp
  | succ k ih =>
    rw [List.replicate_succ, List.cons_append, List.foldl_cons]
    simpa using ih

/-- The text written for a non-negative `int` in a field of width `w`: digit
characters only, at least one, with the value of the number. -/
theorem put_int_digits (w : Nat) (n : Int) (h0 : 0 ≤ n) :
    ∃ ds : List Nat, ds ≠ [] ∧ (∀ d ∈ ds, d < 10) ∧
      (put_int w n).data = ds.map (fun d => Char.ofNat (d + 48)) ∧
      ds.foldl (fun a d => 10 * a + d) 0 = n.natAbs ∧
      w ≤ ds.length := by
  obtain ⟨hne, hlt, hval⟩ := decimal_digits_facts n.natAbs
  generalize hds : (if n.natAbs = 0 then [0] else (Nat.digits 10 n.natAbs).reverse) = ds
    at hne hlt hval
  have hts : (to_string n).data = ds.map fun d => Char.ofNat (d + 48) := by
    unfold to_string
    rw [hds]
    have : ¬ n < 0 := by omega
    simp [this]
  refine ⟨List.replicate (w - ds.length) 0 ++ ds, by simp [hne], ?_, ?_, ?_, ?_⟩
  · intro d hd
    rcases List.mem_append.1 hd with h | h
    · rw [(List.mem_replicate.1 h).2]
      norm_num
    · exact hlt d h
  · unfold put_int
    rw [String.data_append, hts]
    simp only [List.length_map, List.map_append, List.map_replicate]
  · rw [foldl_leading_zeros, hval]
  · simp only [List.length_append, List.length_replicate]
    omega

/-- Digit characters followed by the end of the text, or by a `-`, are read back
as the number written, and the extraction stops behind them. -/
theorem get_int_digits (ds : List Nat) (hne : ds ≠ []) (hlt : ∀ d ∈ ds, d < 10)
    (rest : List Char) (hrest : rest = [] ∨ ∃ r, rest = '-' :: r)
    (hmax : ds.foldl (fun a d => 10 * a + d) 0 ≤ 2147483647) :
    get_int (ds.map (fun d => Char.ofNat (d + 48)) ++ rest)
      = some (((ds.foldl (fun a d => 10 * a + d) 0 : Nat) : Int), rest) := by
  obtain ⟨d0, ds', rfl⟩ := List.exists_cons_of_ne_nil hne
  have hd0 := digit_char_facts d0 (hlt d0 (List.mem_cons_self _ _))
  have hall : ∀ c ∈ (d0 :: ds').map (fun d => Char.ofNat (d + 48)), c.isDigit = true := by
    intro c hc
    obtain ⟨d, hd, rfl⟩ := List.mem_map.1 hc
    exact (digit_char_facts d (hlt d hd)).1
  have hrd : rest.takeWhile Char.isDigit = [] ∧ rest.dropWhile Char.isDigit = rest := by
    rcases hrest with rfl | ⟨r, rfl⟩
    · simp
    · constructor
      · rw [List.takeWhile_cons_of_neg]
        decide
      · rw [List.dropWhile_cons_of_neg]
        decide
  have htw : ((d0 :: ds').map (fun d => Char.ofNat (d + 48)) ++ rest).takeWhile Char.isDigit
      = (d0 :: ds').map (fun d => Char.ofNat (d + 48)) := by
    rw [List.takeWhile_append_of_pos hall, hrd.1, List.append_nil]
  have hdw : ((d0 :: ds').map (fun d => Char.ofNat (d + 48)) ++ rest).dropWhile Char.isDigit
      = rest := by
    rw [List.dropWhile_append_of_pos hall, hrd.2]
  have hfold := foldl_digit_chars (d0 :: ds') hlt 0
  have hws : List.dropWhile isspace ((d0 :: ds').map (fun d => Char.ofNat (d + 48)) ++ rest)
      = (d0 :: ds').map (fun d => Char.ofNat (d + 48)) ++ rest := by
    rw [List.map_cons, List.cons_append, List.dropWhile_cons_of_neg]
    simp [hd0.2.1]
  have hsign : (match ((d0 :: ds').map (fun d => Char.ofNat (d + 48)) ++ rest) with
      | '-' :: r => (true, r)
      | '+' :: r => (false, r)
      | _ => (false, ((d0 :: ds').map (fun d => Char.ofNat (d + 48)) ++ rest)))
      = (false, ((d0 :: ds').map (fun d => Char.ofNat (d + 48)) ++ rest)) := by
    rw [List.map_cons, List.cons_append]
    split
    · next r heq =>
      simp only [List.cons.injEq] at heq
      exact absurd heq.1 hd0.2.2.1
    · next r heq =>
      simp only [List.cons.injEq] at heq
      exact absurd heq.1 hd0.2.2.2.1
    · rfl
  unfold get_int
  rw [hws]
  simp only [hsign, htw, hdw, hfold]
  simp only [List.map_cons, List.isEmpty_cons, Bool.false_eq_true, if_false]
  rw [if_neg (by omega)]

/-- A dash is extracted as one character. -/
theorem get_char_dash (r : List Char) : get_char ('-' :: r) = some ('-', r) := by
  unfold get_char
  rw [List.dropWhile_cons_of_neg (by decide)]

/-- C38: for every `Date` whose year, month and day are non-negative
`int` values, `Date::fromString` applied to the text of `Date::toString` succeeds
and returns the same date; the text is the year in at least four decimal digits,
a dash, the month in at least two digits, a dash and the day in at least two
digits, each numeral having the value of its field. -/
theorem date_round_trip (d : Date)
    (hy : 0 ≤ d.year ∧ d.year ≤ 2147483647) (hm : 0 ≤ d.month ∧ d.month ≤ 2147483647)
    (hd : 0 ≤ d.day ∧ d.day ≤ 2147483647) :
    Date.fromString d.toString = .ok d ∧
    d.toString = put_int 4 d.year ++ "-" ++ put_int 2 d.month ++ "-" ++ put_int 2 d.day ∧
    ∃ ys ms ds : List Nat,
      (put_int 4 d.year).data = ys.map (fun n => Char.ofNat (n + 48)) ∧
      (put_int 2 d.month).data = ms.map (fun n => Char.ofNat (n + 48)) ∧
      (put_int 2 d.day).data = ds.map (fun n => Char.ofNat (n + 48)) ∧
      4 ≤ ys.length ∧ 2 ≤ ms.length ∧ 2 ≤ ds.length ∧
      (∀ n ∈ ys ++ ms ++ ds, n < 10) ∧
      ((ys.foldl (fun a n => 10 * a + n) 0 : Nat) : Int) = d.year ∧
      ((ms.foldl (fun a n => 10 * a + n) 0 : Nat) : Int) = d.month ∧
      ((ds.foldl (fun a n => 10 * a + n) 0 : Nat) : Int) = d.day := by
  obtain ⟨ys, hy1, hy2, hy3, hy4, hy5⟩ := put_int_digits 4 d.year hy.1
  obtain ⟨ms, hm1, hm2, hm3, hm4, hm5⟩ := put_int_digits 2 d.month hm.1
  obtain ⟨dd, hd1, hd2, hd3, hd4, hd5⟩ := put_int_digits 2 d.day hd.1
  have e1 : ((d.year.natAbs : Nat) : Int) = d.year := by omega
  have e2 : ((d.month.natAbs : Nat) : Int) = d.month := by omega
  have e3 : ((d.day.natAbs : Nat) : Int) = d.day := by omega
  refine ⟨?_, rfl, ys, ms, dd, hy3, hm3, hd3, hy5, hm5, hd5, ?_, by rw [hy4, e1],
    by rw [hm4, e2], by rw [hd4, e3]⟩
  · have hdata : d.toString.data
        = ys.map (fun d => Char.ofNat (d + 48)) ++ ('-' ::
            (ms.map (fun d => Char.ofNat (d + 48)) ++ ('-' ::
              (dd.map (fun d => Char.ofNat (d + 48)) ++ [])))) := by
      unfold Date.toString
      simp only [String.data_append, hy3, hm3, hd3, List.append_assoc]
      simp
    have gy := get_int_digits ys hy1 hy2
      ('-' :: (ms.map (fun d => Char.ofNat (d + 48)) ++ ('-' ::
        (dd.map (fun d => Char.ofNat (d + 48)) ++ []))))
      (Or.inr ⟨_, rfl⟩) (by rw [hy4]; omega)
    have gm := get_int_digits ms hm1 hm2 ('-' :: (dd.map (fun d => Char.ofNat (d + 48)) ++ []))
      (Or.inr ⟨_, rfl⟩) (by rw [hm4]; omega)
    have gd := get_int_digits dd hd1 hd2 [] (Or.inl rfl) (by rw [hd4]; omega)
    unfold Date.fromString
    rw [hdata]
    simp only [gy, Option.some_bind, get_char_dash, gm, gd, hy4, hm4, hd4]
    rw [e1, e2, e3]
  · intro n hn
    rcases List.mem_append.1 hn with h | h
    · rcases List.mem_append.1 h with h | h
      · exact hy2 n h
      · exact hm2 n h
    · exact hd2 n h

/-- The date 2024-03-07 is written and read back. -/
theorem date_round_trip_witness :
    Date.fromString (Date.toString ⟨2024, 3, 7⟩) = .ok ⟨2024, 3, 7⟩ := by
  have h := date_round_trip ⟨2024, 3, 7⟩ (by decide) (by decide) (by decide)
  exact h.1


/-! ## The merge sort -/

/-- In a strict weak ordering, `b` not before `a` and `c` not before `b` give `c`
not before `a`. -/
theorem swo_not_before {α : Type} {comp : α → α → Bool} (h : strict_weak_ordering comp)
    (a b c : α) (hab : comp b a = false) (hbc : comp c b = false) : comp c a = false := by
  obtain ⟨hirr, htr, heq⟩ := h
  by_contra hca
  have hca : comp c a = true := by simpa using hca
  have hbc2 : comp b c = false := by
    by_contra hx
    have hx : comp b c = true := by simpa using hx
    have := htr b c a hx hca
    rw [hab] at this
    exact Bool.false_ne_true this
  have hab2 : comp a b = false := by
    by_contra hx
    have hx : comp a b = true := by simpa using hx
    have := htr c a b hca hx
    rw [hbc] at this
    exact Bool.false_ne_true this
  have e1 : equivalent comp a b = true := by simp [equivalent, hab, hab2]
  have e2 : equivalent comp b c = true := by simp [equivalent, hbc, hbc2]
  have e3 := heq a b c e1 e2
  simp [equivalent, hca] at e3

/-- In a strict weak ordering, a value equivalent to one that is before `c` is
before `c`. -/
theorem swo_equivalent_before {α : Type} {comp : α → α → Bool}
    (h : strict_weak_ordering comp) (x y z c : α)
    (hy : equivalent comp x y = true) (hz : equivalent comp x z = true)
    (hyc : comp y c = true) : comp z c = true := by
  obtain ⟨hirr, htr, heq⟩ := h
  have hyx : equivalent comp y x = true := by
    simp only [equivalent, Bool.and_eq_true, Bool.not_eq_true'] at hy ⊢
    exact ⟨hy.2, hy.1⟩
  have hyz := heq y x z hyx hz
  by_contra hzc
  have hzc : comp z c = false := by simpa using hzc
  have hcz : comp c z = false := by
    by_contra hx
    have hx : comp c z = true := by simpa using hx
    have := htr y c z hyc hx
    simp [equivalent, this] at hyz
  have e : equivalent comp z c = true := by simp [equivalent, hzc, hcz]
  have := heq y z c hyz e
  simp [equivalent, hyc] at this

/-- The buffer filled by the merging loops holds the elements of both parts. -/
theorem merge_loop_perm {α : Type} (comp : α → α → Bool) (xs ys : List α) :
    (merge_loop comp xs ys).Perm (xs ++ ys) := by
  induction xs generalizing ys with
  | nil => simp [merge_loop]
  | cons x xs ihx =>
    induction ys with
    | nil => simp [merge_loop]
    | cons y ys ihy =>
      rw [merge_loop]
      split
      · refine (List.Perm.cons y ihy).trans ?_
        exact (@List.perm_middle _ y (x :: xs) ys).symm
      · exact List.Perm.cons x (ihx (y :: ys))

/-- Merging two sorted parts gives a sorted buffer. -/
theorem merge_loop_sorted {α : Type} {comp : α → α → Bool} (h : strict_weak_ordering comp)
    (xs ys : List α) (hx : sorted_by comp xs) (hy : sorted_by comp ys) :
    sorted_by comp (merge_loop comp xs ys) := by
  induction xs generalizing ys with
  | nil => simpa [merge_loop] using hy
  | cons x xs ihx =>
    induction ys with
    | nil => simpa [merge_loop] using hx
    | cons y ys ihy =>
      have hx2 := List.pairwise_cons.1 hx
      have hy2 := List.pairwise_cons.1 hy
      rw [merge_loop]
      split
      · next hc =>
        refine List.pairwise_cons.2 ⟨?_, ihy hy2.2⟩
        intro z hz
        rcases List.mem_append.1 ((merge_loop_perm comp (x :: xs) ys).subset hz) with hz | hz
        · by_contra hzy
          have hzy : comp z y = true := by simpa using hzy
          have hzx := h.2.1 z y x hzy hc
          rcases List.mem_cons.1 hz with rfl | hz
          · rw [h.1 z] at hzx
            exact Bool.false_ne_true hzx
          · rw [hx2.1 z hz] at hzx
            exact Bool.false_ne_true hzx
        · exact hy2.1 z hz
      · next hc =>
        have hc : comp y x = false := by simpa using hc
        refine List.pairwise_cons.2 ⟨?_, ihx (y :: ys) hx2.2 hy⟩
        intro z hz
        rcases List.mem_append.1 ((merge_loop_perm comp xs (y :: ys)).subset hz) with hz | hz
        · exact hx2.1 z hz
        · rcases List.mem_cons.1 hz with rfl | hz
          · exact hc
          · exact swo_not_before h x y z hc (hy2.1 z hz)

/-- Merging keeps the values equivalent to `v` in the order left part first, each
part in its own order, when the left part is sorted. -/
theorem merge_loop_stable {α : Type} {comp : α → α → Bool} (h : strict_weak_ordering comp)
    (v : α) (xs ys : List α) (hx : sorted_by comp xs) :
    (merge_loop comp xs ys).filter (equivalent comp v)
      = xs.filter (equivalent comp v) ++ ys.filter (equivalent comp v) := by
  induction xs generalizing ys with
  | nil => simp [merge_loop]
  | cons x xs ihx =>
    induction ys with
    | nil => simp [merge_loop]
    | cons y ys ihy =>
      have hx2 := List.pairwise_cons.1 hx
      rw [merge_loop]
      split
      · next hc =>
        by_cases hvy : equivalent comp v y = true
        · have hnone : (x :: xs).filter (equivalent comp v) = [] := by
            rw [List.filter_eq_nil_iff]
            intro z hz hvz
            have hzx := swo_equivalent_before h v y z x hvy hvz hc
            rcases List.mem_cons.1 hz with rfl | hz
            · rw [h.1 z] at hzx
              exact Bool.false_ne_true hzx
            · rw [hx2.1 z hz] at hzx
              exact Bool.false_ne_true hzx
          rw [List.filter_cons_of_pos hvy, ihy, hnone, List.filter_cons_of_pos hvy]
          rfl
        · rw [List.filter_cons_of_neg hvy, ihy, List.filter_cons_of_neg hvy]
      · by_cases hvx : equivalent comp v x = true
        · rw [List.filter_cons_of_pos hvx, ihx (y :: ys) hx2.2, List.filter_cons_of_pos hvx]
          rfl
        · rw [List.filter_cons_of_neg hvx, ihx (y :: ys) hx2.2, List.filter_cons_of_neg hvx]

/-- The sort on a range of fewer than two elements. -/
theorem forward_iterator_sort_short {α : Type} (comp : α → α → Bool) (l : List α)
    (hl : l.length < 2) : forward_iterator_sort comp l = l := by
  rw [forward_iterator_sort]
  exact dif_pos hl

/-- The sort on a range of at least two elements. -/
theorem forward_iterator_sort_long {α : Type} (comp : α → α → Bool) (l : List α)
    (hl : ¬ l.length < 2) :
    forward_iterator_sort comp l
      = merge_loop comp (forward_iterator_sort comp (l.take (l.length / 2)))
          (forward_iterator_sort comp (l.drop (l.length / 2))) := by
  rw [forward_iterator_sort]
  exact dif_neg hl

/-- The three properties of the sort, by induction on the length of the range. -/
theorem forward_iterator_sort_spec {α : Type} {comp : α → α → Bool}
    (h : strict_weak_ordering comp) (n : Nat) :
    ∀ l : List α, l.length = n →
      (forward_iterator_sort comp l).Perm l ∧ sorted_by comp (forward_iterator_sort comp l) ∧
      ∀ v, (forward_iterator_sort comp l).filter (equivalent comp v)
        = l.filter (equivalent comp v) := by
  induction n using Nat.strong_induction_on with
  | _ n ih =>
    intro l hn
    by_cases hl : l.length < 2
    · rw [forward_iterator_sort_short comp l hl]
      refine ⟨List.Perm.refl _, ?_, fun _ => rfl⟩
      match l, hl with
      | [], _ => exact List.Pairwise.nil
      | [a], _ => exact List.pairwise_singleton _ _
    · rw [forward_iterator_sort_long comp l hl]
      have h1 := ih (l.take (l.length / 2)).length
        (by rw [List.length_take]; omega) _ rfl
      have h2 := ih (l.drop (l.length / 2)).length
        (by rw [List.length_drop]; omega) _ rfl
      refine ⟨?_, merge_loop_sorted h _ _ h1.2.1 h2.2.1, ?_⟩
      · refine (merge_loop_perm comp _ _).trans ?_
        have := List.Perm.append h1.1 h2.1
        rwa [List.take_append_drop] at this
      · intro v
        rw [merge_loop_stable h v _ _ h1.2.1, h1.2.2 v, h2.2.2 v, ← List.filter_append,
          List.take_append_drop]

/-- The comparison `less` is a strict weak ordering. -/
theorem less_strict_weak_ordering : strict_weak_ordering less := by
  refine ⟨?_, ?_, ?_⟩
  · intro a
    simp [less]
  · intro a b c
    simp only [less, decide_eq_true_eq]
    omega
  · intro a b c
    simp only [equivalent, less, Bool.and_eq_true, Bool.not_eq_true', decide_eq_false_iff_not]
    omega

/-- C39: `forward_iterator_sort` returns on every finite range (the function
is total: each recursive call is on a strictly shorter range), and for every
strict weak ordering `comp` the range it leaves is a permutation of the original
one, is sorted with respect to `comp`, and holds the elements equivalent to any
given value in their original order. -/
theorem forward_iterator_sort_correct {α : Type} (comp : α → α → Bool)
    (h : strict_weak_ordering comp) (l : List α) :
    (∃ r, forward_iterator_sort comp l = r ∧ r.length = l.length) ∧
    (forward_iterator_sort comp l).Perm l ∧
    sorted_by comp (forward_iterator_sort comp l) ∧
    ∀ v, (forward_iterator_sort comp l).filter (equivalent comp v)
      = l.filter (equivalent comp v) := by
  have hs := forward_iterator_sort_spec h l.length l rfl
  refine ⟨⟨_, rfl, ?_⟩, hs⟩
  exact hs.1.length_eq

/-- The list of the check in `main` is sorted into `1, ..., 9`. -/
theorem forward_iterator_sort_correct_witness :
    strict_weak_ordering less ∧
    forward_iterator_sort less small_list = [1, 2, 3, 4, 5, 6, 7, 8, 9] ∧
    (forward_iterator_sort less small_list).Perm small_list ∧
    sorted_by less (forward_iterator_sort less small_list) := by
  have hc := forward_iterator_sort_correct less less_strict_weak_ordering small_list
  refine ⟨less_strict_weak_ordering, ?_, hc.2.1, hc.2.2.1⟩
  simp [small_list, forward_iterator_sort, merge_loop, less]

/-! ## One definition of each function per node -/

/-- The serializer specialisations of two names are equal only for equal names. -/
theorem serializer_specialization_inj (a b : String)
    (h : serializer_specialization a = serializer_specialization b) : a = b := by
  have h1 := congrArg String.data h
  simp only [serializer_specialization, String.data_append, List.append_assoc,
    List.append_cancel_left_eq] at h1
  have hlen := congrArg List.length h1
  simp only [List.length_append] at hlen
  have hl : a.data.length = b.data.length := by omega
  exact String.ext (List.append_inj_left h1 hl)

/-- The deserializer specialisations of two names are equal only for equal
names. -/
theorem deserializer_specialization_inj (a b : String)
    (h : deserializer_specialization a = deserializer_specialization b) : a = b := by
  have h1 := congrArg String.data h
  simp only [deserializer_specialization, String.data_append, List.append_assoc,
    List.append_cancel_left_eq] at h1
  have hlen := congrArg List.length h1
  simp only [List.length_append] at hlen
  have hl : a.data.length = b.data.length := by omega
  exact String.ext (List.append_inj_left h1 hl)

/-- A serializer specialisation followed by `e` is never a deserializer
specialisation followed by `e`: the parameter lists differ. -/
theorem serializer_ne_deserializer (a b e : String) :
    serializer_specialization a ++ e ≠ deserializer_specialization b ++ e := by
  intro h
  have h1 : serializer_specialization a = deserializer_specialization b := by
    have := congrArg String.data h
    simp only [String.data_append, List.append_cancel_right_eq] at this
    exact String.ext this
  have e1 : serializer_specialization a
      = ("template<>\nvoid toXML<" ++ a ++ ">(" ++ a)
        ++ " const& x, xml::serializer &s, std::string name)" := by
    simp [serializer_specialization, String.append_assoc]
  have e2 : deserializer_specialization b
      = ("template<>\n" ++ b ++ " fromXML<" ++ b)
        ++ ">(xml::parser &p, std::string name)" := by
    simp [deserializer_specialization, String.append_assoc]
  rw [e1, e2] at h1
  exact suffix_differs _ _ _ _ (by decide) h1

/-- The opening line of a function definition ends in an opening brace and a
newline. -/
theorem opening_brace_end (spec : String) :
    Tok.text (spec ++ " \x7b\n") = Tok.text ((spec ++ " ") ++ "\x7b\n") := by
  rw [String.append_assoc]
  rfl

/-- A text that ends in `lit`, where `lit` does not end in an opening brace and a
newline, is not the opening line of a function definition. -/
theorem not_opening_text (B lit : String)
    (hne : lit.data.reverse.take ("\x7b\n" : String).data.length
      ≠ ("\x7b\n" : String).data.reverse.take lit.data.length) :
    ∀ spec : String, Tok.text (B ++ lit) ≠ Tok.text (spec ++ " \x7b\n") := by
  intro spec h
  rw [opening_brace_end] at h
  exact suffix_differs B lit _ _ hne (Tok.text.inj h)

/-- The same for a text that is `lit`. -/
theorem not_opening_lit (lit : String)
    (hne : lit.data.reverse.take ("\x7b\n" : String).data.length
      ≠ ("\x7b\n" : String).data.reverse.take lit.data.length) :
    ∀ spec : String, Tok.text lit ≠ Tok.text (spec ++ " \x7b\n") := by
  intro spec
  have h := not_opening_text "" lit hne spec
  simpa using h

/-- No statement written for the members in a serializer is the opening line of
a function definition. -/
theorem serializer_statements_not_opening (dms : List data_member) :
    ∀ t ∈ (dms.map generateSerializer).flatten,
      ∀ spec : String, t ≠ Tok.text (spec ++ " \x7b\n") := by
  intro t ht spec
  simp only [List.mem_flatten, List.mem_map] at ht
  obtain ⟨l, ⟨dm, _, rfl⟩, hl⟩ := ht
  unfold generateSerializer at hl
  cases hk : dm.kind <;> simp only [hk, List.mem_singleton] at hl <;> subst hl <;>
    exact not_opening_text _ "\");\n" (by decide) spec

/-- No statement written for the members in a deserializer is the opening line
of a function definition. -/
theorem deserializer_statements_not_opening (dms : List data_member) :
    ∀ t ∈ (dms.map fun dm => [Tok.text "munchSpace(p);\n"] ++ generateDeserializer dm).flatten,
      ∀ spec : String, t ≠ Tok.text (spec ++ " \x7b\n") := by
  intro t ht spec
  simp only [List.mem_flatten, List.mem_map] at ht
  obtain ⟨l, ⟨dm, _, rfl⟩, hl⟩ := ht
  simp only [List.singleton_append, List.mem_cons] at hl
  rcases hl with rfl | hl
  · exact not_opening_lit _ (by decide) spec
  · unfold generateDeserializer generateDeserializer_required at hl
    cases hk : dm.kind
    · simp only [hk, List.mem_singleton] at hl
      subst hl
      exact not_opening_text _ "\");\n" (by decide) spec
    · simp only [hk, List.cons_append, List.nil_append, List.mem_cons, List.mem_singleton,
        List.not_mem_nil, or_false] at hl
      rcases hl with rfl | rfl | rfl | rfl | rfl
      · exact not_opening_text _ "\") \x7b \n" (by decide) spec
      · exact fun h => Tok.noConfusion h
      · exact not_opening_text _ "\");\n" (by decide) spec
      · exact fun h => Tok.noConfusion h
      · exact not_opening_lit _ (by decide) spec
    · simp only [hk, List.mem_singleton] at hl
      subst hl
      exact not_opening_text _ "\"));\n\x7d\n" (by decide) spec

/-- The line giving the default tag name is not the opening line of a function
definition. -/
theorem default_name_line_not_opening (cen : String) (a : Bool) :
    ∀ t ∈ default_name_line cen a, ∀ spec : String, t ≠ Tok.text (spec ++ " \x7b\n") := by
  intro t ht spec
  unfold default_name_line at ht
  cases a
  · simp only [Bool.not_false, if_true, List.mem_singleton] at ht
    subst ht
    exact not_opening_text _ "\";\n" (by decide) spec
  · simp at ht

/-- Occurrences of a token that differs from every element. -/
theorem count_of_ne (l : List Tok) (t : Tok) (h : ∀ x ∈ l, x ≠ t) : l.count t = 0 :=
  List.count_eq_zero.2 fun hm => h t hm rfl

/-- The function definition written by `generate_serializer` for a complex type:
the opening line of the serializer of the type, the body, the closing brace. -/
theorem generate_serializer_definition (name cen : String) (a : Bool)
    (dms : List data_member) :
    one_definition (serializer_specialization name) (generate_serializer name cen a dms) := by
  refine ⟨default_name_line cen a ++ [Tok.text "s.start_element(name);\n"]
      ++ (dms.map generateSerializer).flatten ++ [Tok.text "s.end_element();\n"],
    "\x7d\n", ?_, Or.inl rfl, ?_⟩
  · simp [generate_serializer]
  · intro t ht spec
    simp only [List.mem_append, List.mem_singleton] at ht
    rcases ht with ((h | rfl) | h) | rfl
    · exact default_name_line_not_opening cen a t h spec
    · exact not_opening_lit _ (by decide) spec
    · exact serializer_statements_not_opening dms t h spec
    · exact not_opening_lit _ (by decide) spec

/-- The function definition written by `generate_deserializer` for a complex
type. -/
theorem generate_deserializer_definition (name cen : String) (a : Bool)
    (dms : List data_member) :
    one_definition (deserializer_specialization name)
      (generate_deserializer name cen a dms) := by
  refine ⟨default_name_line cen a
      ++ [Tok.text (name ++ " result;\np.next_expect(xml::parser::start_element);\n"
        ++ "if(p.name() != name)\n"
        ++ "    throw std::runtime_error(\"expected \" + name + \". Got \" + p.name());\n")]
      ++ (dms.map fun dm => [Tok.text "munchSpace(p);\n"] ++ generateDeserializer dm).flatten
      ++ [Tok.text
        "munchSpace(p);\np.next_expect(xml::parser::end_element);\nreturn result;\n"],
    "\x7d\n\n", ?_, Or.inr rfl, ?_⟩
  · simp [generate_deserializer]
  · intro t ht spec
    simp only [List.mem_append, List.mem_singleton] at ht
    rcases ht with ((h | rfl) | h) | rfl
    · exact default_name_line_not_opening cen a t h spec
    · exact not_opening_text _
        "    throw std::runtime_error(\"expected \" + name + \". Got \" + p.name());\n"
        (by decide) spec
    · exact deserializer_statements_not_opening dms t h spec
    · exact not_opening_lit _ (by decide) spec

/-- The function definition written by `generate_serializer` for a builtin
type. -/
theorem builtin_generate_serializer_definition (k : builtin_kind) :
    one_definition (serializer_specialization k.name) (builtin_generate_serializer k) := by
  refine ⟨[Tok.text ("s.start_element(name);\ns.characters(" ++ xToChars k
      ++ "),\ns.end_element();\n")], "\x7d\n", rfl, Or.inl rfl, ?_⟩
  intro t ht spec
  simp only [List.mem_singleton] at ht
  subst ht
  exact not_opening_text _ "),\ns.end_element();\n" (by decide) spec

/-- The function definition written by `generate_deserializer` for a builtin
type. -/
theorem builtin_generate_deserializer_definition (k : builtin_kind) :
    one_definition (deserializer_specialization k.name)
      (builtin_generate_deserializer k) := by
  refine ⟨[Tok.text ("p.next_expect(xml::parser::start_element);\nstd::string x;\n"
      ++ "while(p.peek() == xml::parser::characters) \x7b\n    p.next();\n"
      ++ "    x += p.value();\n\x7d\np.next_expect(xml::parser::end_element);\nreturn "
      ++ charsToX k ++ ";        \n")], "\x7d\n\n", ?_, Or.inr rfl, ?_⟩
  · simp [builtin_generate_deserializer, deserializer_specialization, String.append_assoc]
  · intro t ht spec
    simp only [List.mem_singleton] at ht
    subst ht
    exact not_opening_text _ ";        \n" (by decide) spec

/-- In one function definition for `spec`, the opening line of a definition for
`spec2` occurs once when `spec2` is `spec` and not otherwise. -/
theorem one_definition_count (spec spec2 : String) (ts : ostream)
    (h : one_definition spec ts) :
    ts.count (Tok.text (spec2 ++ " \x7b\n")) = if spec = spec2 then 1 else 0 := by
  obtain ⟨body, close, hts, hclose, hbody⟩ := h
  have hrest : (Tok.indent :: (body ++ [Tok.unindent, Tok.text close])).count
      (Tok.text (spec2 ++ " \x7b\n")) = 0 := by
    apply count_of_ne
    intro t ht
    simp only [List.mem_cons, List.mem_append, List.not_mem_nil, or_false] at ht
    rcases ht with rfl | h | rfl | rfl
    · exact fun h => Tok.noConfusion h
    · exact hbody t h spec2
    · exact fun h => Tok.noConfusion h
    · rcases hclose with rfl | rfl
      · exact not_opening_lit _ (by decide) spec2
      · exact not_opening_lit _ (by decide) spec2
  rw [hts, List.count_cons, hrest]
  by_cases hs : spec = spec2
  · subst hs
    simp
  · have : ¬ (spec ++ " \x7b\n" = spec2 ++ " \x7b\n") := by
      intro h
      apply hs
      have := congrArg String.data h
      simp only [String.data_append, List.append_cancel_right_eq] at this
      exact String.ext this
    simp [this, hs]

/-- A serializer specialisation is never a deserializer specialisation. -/
theorem serializer_specialization_ne (a b : String) :
    serializer_specialization a ≠ deserializer_specialization b := by
  intro h
  apply serializer_ne_deserializer a b ""
  rw [h]

/-- The functions written for a node are one definition of its deserializer and
one definition of its serializer: the deserializer first for a builtin type, the
serializer first for a complex type. -/
theorem own_functions_definitions (T : type_base) :
    ∃ d s : ostream, one_definition (deserializer_specialization T.name) d ∧
      one_definition (serializer_specialization T.name) s ∧
      (own_functions T = d ++ s ∨ own_functions T = s ++ d) := by
  cases T with
  | builtin k =>
    exact ⟨_, _, builtin_generate_deserializer_definition k,
      builtin_generate_serializer_definition k, Or.inl rfl⟩
  | complex_type name cen a mts dms =>
    exact ⟨_, _, generate_deserializer_definition name cen a dms,
      generate_serializer_definition name cen a dms, Or.inr rfl⟩

/-- Among the functions written for a node, the opening line of the deserializer
of `N` and that of the serializer of `N` occur once each when the node is named
`N`, and not otherwise. -/
theorem own_functions_count (T : type_base) (N : String) :
    (own_functions T).count (Tok.text (deserializer_specialization N ++ " \x7b\n"))
      = [T.name].count N ∧
    (own_functions T).count (Tok.text (serializer_specialization N ++ " \x7b\n"))
      = [T.name].count N := by
  obtain ⟨d, s, hd, hs, hds⟩ := own_functions_definitions T
  have hdd := one_definition_count _ (deserializer_specialization N) d hd
  have hds2 := one_definition_count _ (serializer_specialization N) d hd
  have hsd := one_definition_count _ (deserializer_specialization N) s hs
  have hss := one_definition_count _ (serializer_specialization N) s hs
  rw [if_neg (fun h => serializer_specialization_ne _ _ h.symm)] at hds2
  rw [if_neg (serializer_specialization_ne _ _)] at hsd
  have hname : [T.name].count N = if T.name = N then 1 else 0 := by
    by_cases h : T.name = N <;> simp [List.count_cons, h]
  have e1 : (if deserializer_specialization T.name = deserializer_specialization N
      then 1 else 0) = if T.name = N then 1 else 0 := by
    by_cases h : T.name = N
    · simp [h]
    · rw [if_neg h, if_neg (fun h2 => h (deserializer_specialization_inj _ _ h2))]
  have e2 : (if serializer_specialization T.name = serializer_specialization N
      then 1 else 0) = if T.name = N then 1 else 0 := by
    by_cases h : T.name = N
    · simp [h]
    · rw [if_neg h, if_neg (fun h2 => h (serializer_specialization_inj _ _ h2))]
  rw [e1] at hdd
  rw [e2] at hss
  rcases hds with h | h <;> rw [h, List.count_append, List.count_append, hname]
  · constructor <;> omega
  · constructor <;> omega

/-- In the functions written for a list of nodes, the opening lines for `N` occur
as often as `N` occurs among the names of the nodes. -/
theorem functions_count (l : List type_base) (N : String) :
    ((l.map own_functions).flatten).count
        (Tok.text (deserializer_specialization N ++ " \x7b\n")) = (node_names l).count N ∧
    ((l.map own_functions).flatten).count
        (Tok.text (serializer_specialization N ++ " \x7b\n")) = (node_names l).count N := by
  induction l with
  | nil => simp [node_names]
  | cons T l ih =>
    obtain ⟨h1, h2⟩ := own_functions_count T N
    simp only [List.map_cons, List.flatten_cons, List.count_append, h1, h2, ih.1, ih.2,
      node_names]
    simp only [List.count_cons, List.count_nil]
    omega

/-- In the declarations written for a list of nodes, the declarations for `N`
occur as often as `N` occurs among the names of the nodes. -/
theorem declarations_count (l : List type_base) (N : String) :
    ((l.map declaration_pair).flatten).count
        (Tok.text (deserializer_specialization N ++ ";\n")) = (node_names l).count N ∧
    ((l.map declaration_pair).flatten).count
        (Tok.text (serializer_specialization N ++ ";\n")) = (node_names l).count N := by
  have hcancel : ∀ x y : String, x ++ ";\n" = y ++ ";\n" → x = y := by
    intro x y h
    have := congrArg String.data h
    simp only [String.data_append, List.append_cancel_right_eq] at this
    exact String.ext this
  induction l with
  | nil => simp [node_names]
  | cons T l ih =>
    have hd : (declaration_pair T).count (Tok.text (deserializer_specialization N ++ ";\n"))
        = if T.name = N then 1 else 0 := by
      have h2 : ¬ (serializer_specialization T.name ++ ";\n"
          = deserializer_specialization N ++ ";\n") := serializer_ne_deserializer _ _ _
      by_cases h : T.name = N
      · rw [h] at h2
        simp [declaration_pair, List.count_cons, h, h2]
      · have h1 : ¬ (deserializer_specialization T.name ++ ";\n"
            = deserializer_specialization N ++ ";\n") :=
          fun e => h (deserializer_specialization_inj _ _ (hcancel _ _ e))
        simp [declaration_pair, List.count_cons, h, h1, h2]
    have hs : (declaration_pair T).count (Tok.text (serializer_specialization N ++ ";\n"))
        = if T.name = N then 1 else 0 := by
      have h2 : ¬ (deserializer_specialization T.name ++ ";\n"
          = serializer_specialization N ++ ";\n") :=
        fun e => serializer_ne_deserializer _ _ _ e.symm
      by_cases h : T.name = N
      · rw [h] at h2
        simp [declaration_pair, List.count_cons, h, h2]
      · have h1 : ¬ (serializer_specialization T.name ++ ";\n"
            = serializer_specialization N ++ ";\n") :=
          fun e => h (serializer_specialization_inj _ _ (hcancel _ _ e))
        simp [declaration_pair, List.count_cons, h, h1, h2]
    simp only [List.map_cons, List.flatten_cons, List.count_append, hd, hs, ih.1, ih.2,
      node_names]
    simp only [List.count_cons, List.count_nil, beq_iff_eq]
    omega

/-! ## Line ends in the text that reaches the wrapped stream -/

/-- Two lists whose endings differ are different: `lit` and `f` are the endings,
compared from the last element backwards over the shorter of the two. -/
theorem list_suffix_differs (B lit A f : List Char)
    (hne : lit.reverse.take f.length ≠ f.reverse.take lit.length) :
    B ++ lit ≠ A ++ f := by
  intro h
  have h1 : (⟨B⟩ : String) ++ ⟨lit⟩ = (⟨A⟩ : String) ++ ⟨f⟩ := by
    apply String.ext
    simpa [String.data_append] using h
  exact suffix_differs ⟨B⟩ ⟨lit⟩ ⟨A⟩ ⟨f⟩ hne h1

/-- A text whose ending differs from `e) {` does not end in `e) {`, whatever
precedes it. -/
theorem not_line_ending (w : List Char)
    (hne : w.reverse.take 4 ≠ function_line_ending.reverse.take w.length) :
    ∀ pre, ¬ function_line_ending <:+ pre ++ w := by
  intro pre h
  obtain ⟨A, hA⟩ := h
  exact list_suffix_differs pre w A function_line_ending hne hA.symm

/-- A text without line break is free of line ends. -/
theorem line_end_free_of_no_newline (cs : List Char) (h : '\n' ∉ cs) :
    line_end_free cs := by
  intro u v huv
  exfalso
  apply h
  rw [huv]
  simp

/-- Texts free of the line end `e) {` stay so when written one after the
other. -/
theorem line_end_free_append (a b : List Char) (ha : line_end_free a)
    (hb : line_end_free b) : line_end_free (a ++ b) := by
  intro u v huv pre
  rcases List.append_eq_append_iff.1 huv with ⟨a', rfl, hb'⟩ | ⟨c', rfl, hc'⟩
  · have := hb a' v hb' (pre ++ a)
    simpa [List.append_assoc] using this
  · cases c' with
    | nil =>
      simp only [List.nil_append] at hc'
      have := hb [] v hc'.symm (pre ++ u)
      simpa using this
    | cons x c'' =>
      simp only [List.cons_append, List.cons.injEq] at hc'
      obtain ⟨hx, _⟩ := hc'
      subst hx
      exact ha u c'' rfl pre

/-- A literal text in which every line break follows an ending other than `e) {`
is free of line ends. -/
theorem line_end_free_of_check (cs : List Char)
    (h : ∀ i, i < cs.length → cs.get? i = some '\n' →
      (cs.take i).reverse.take 4 ≠ function_line_ending.reverse.take (cs.take i).length) :
    line_end_free cs := by
  intro u v huv
  have hi : u.length < cs.length := by
    rw [huv]
    simp
  have hget : cs.get? u.length = some '\n' := by
    rw [huv, List.get?_eq_getElem?, List.getElem?_append_right (le_refl _)]
    simp
  have htake : cs.take u.length = u := by
    rw [huv]
    simp
  have := h u.length hi hget
  rw [htake] at this
  exact not_line_ending u this

/-- A list is empty or has a last element. -/
theorem nil_or_snoc (l : List Char) : l = [] ∨ ∃ l0 x, l = l0 ++ [x] := by
  rcases List.eq_nil_or_concat l with h | ⟨l0, x, h⟩
  · exact Or.inl h
  · exact Or.inr ⟨l0, x, by rw [h, List.concat_eq_append]⟩

/-- Lists with a last element are equal when the parts are. -/
theorem snoc_inj (a b : List Char) (x y : Char) (h : a ++ [x] = b ++ [y]) :
    a = b ∧ x = y := by
  have h1 := List.append_inj_left' h rfl
  have h2 := List.append_inj_right' h rfl
  simp only [List.cons.injEq, and_true] at h2
  exact ⟨h1, h2⟩

/-- An occurrence of `x` followed by `c` in a text to which one character is
appended lies in the text or ends with the new character. -/
theorem occurrence_concat_cases (x l : List Char) (c d : Char)
    (h : x ++ [c] <:+: l ++ [d]) : x ++ [c] <:+: l ∨ (c = d ∧ x <:+ l) := by
  obtain ⟨s, t, hst⟩ := h
  rcases nil_or_snoc t with rfl | ⟨t0, e, rfl⟩
  · right
    rw [List.append_nil, ← List.append_assoc] at hst
    obtain ⟨h1, h2⟩ := snoc_inj _ _ _ _ hst
    exact ⟨h2, ⟨s, h1⟩⟩
  · left
    rw [← List.append_assoc] at hst
    obtain ⟨h1, _⟩ := snoc_inj _ _ _ _ hst
    exact ⟨s, t0, h1⟩

/-- A text ending with `x` that ends a text ending with `y`. -/
theorem suffix_snoc (q l : List Char) (x y : Char) (h : q ++ [x] <:+ l ++ [y]) :
    x = y ∧ q <:+ l := by
  obtain ⟨s, hs⟩ := h
  rw [← List.append_assoc] at hs
  obtain ⟨h1, h2⟩ := snoc_inj _ _ _ _ hs
  exact ⟨h2, ⟨s, h1⟩⟩

/-- Nothing with an element ends the empty text. -/
theorem not_suffix_nil (q : List Char) (x : Char) : ¬ q ++ [x] <:+ [] := by
  intro h
  have := List.IsSuffix.length_le h
  simp at this

/-- A text whose last character is a line break. -/
theorem ends_with_newline (l : List Char) (h : l.getLast? = some '\n') :
    ∃ l0, l = l0 ++ ['\n'] := by
  rcases nil_or_snoc l with rfl | ⟨l0, y, rfl⟩
  · simp at h
  · rw [List.getLast?_concat] at h
    simp only [Option.some.injEq] at h
    exact ⟨l0, by rw [h]⟩

/-- The state of the decorator after writing the text `u`: `e) {` followed by a
line break occurs nowhere in what was passed on; at a line start the text passed on
is empty or ends with a line break; and a beginning of `e) {` that ends the text
passed on also ends the text written. -/
theorem put_keeps_line_ends (b : IndentStreamBuf) (u : List Char) (c : Char)
    (hgood : ¬ function_line_ending ++ ['\n'] <:+: b.out)
    (hstart : b.isLineStart = true → b.out = [] ∨ b.out.getLast? = some '\n')
    (hend : ∀ q, q ≠ [] → q <+: function_line_ending → q <:+ b.out → q <:+ u)
    (hc : c = '\n' → ¬ function_line_ending <:+ u) :
    (¬ function_line_ending ++ ['\n'] <:+: (b.put c).out) ∧
    ((b.put c).isLineStart = true →
      (b.put c).out = [] ∨ (b.put c).out.getLast? = some '\n') ∧
    (∀ q, q ≠ [] → q <+: function_line_ending → q <:+ (b.put c).out → q <:+ u ++ [c]) := by
  have hmem : ∀ q : List Char, q <+: function_line_ending → ∀ x ∈ q, x ≠ '\n' := by
    intro q hq x hx
    have := hq.subset hx
    simp only [function_line_ending, List.mem_cons, List.mem_singleton, List.not_mem_nil,
      or_false] at this
    rcases this with rfl | rfl | rfl | rfl <;> decide
  have hlast : ∀ (q1 : List Char) (x : Char) (l : List Char),
      q1 ++ [x] <+: function_line_ending → (l = [] ∨ l.getLast? = some '\n') →
      ¬ q1 ++ [x] <:+ l := by
    intro q1 x l hpre hl hsuf
    rcases hl with rfl | hl
    · exact not_suffix_nil _ _ hsuf
    · obtain ⟨l0, rfl⟩ := ends_with_newline l hl
      exact hmem _ hpre x (by simp) (suffix_snoc _ _ _ _ hsuf).1
  have hshort : ∀ q0 : List Char, q0 ≠ [] → q0 ++ [c] <+: function_line_ending →
      ∀ l : List Char, (l = [] ∨ l.getLast? = some '\n') →
      ∀ k, ¬ q0 <:+ l ++ List.replicate k ' ' := by
    intro q0 hq0 hpre l hl k hsuf
    have hpre0 : q0 <+: function_line_ending :=
      List.IsPrefix.trans (List.prefix_append _ _) hpre
    obtain ⟨q1, x, rfl⟩ : ∃ q1 x, q0 = q1 ++ [x] := by
      rcases nil_or_snoc q0 with h | h
      · exact absurd h hq0
      · exact h
    cases k with
    | zero =>
      simp only [List.replicate_zero, List.append_nil] at hsuf
      exact hlast q1 x l hpre0 hl hsuf
    | succ k =>
      rw [List.replicate_succ', ← List.append_assoc] at hsuf
      obtain ⟨hx, hq1⟩ := suffix_snoc _ _ _ _ hsuf
      subst hx
      obtain ⟨t, ht⟩ := hpre
      rcases q1 with _ | ⟨a, _ | ⟨a2, q3⟩⟩
      · simp [function_line_ending] at ht
      · simp [function_line_ending] at ht
      · simp only [function_line_ending, List.cons_append, List.nil_append,
          List.cons.injEq] at ht
        obtain ⟨rfl, rfl, hrest⟩ := ht
        cases k with
        | zero =>
          simp only [List.replicate_zero, List.append_nil] at hq1
          have hp : ['e'] ++ [')'] <+: function_line_ending := ⟨[' ', '\x7b'], rfl⟩
          rcases q3 with _ | ⟨a3, q4⟩
          · exact hlast ['e'] ')' l hp hl hq1
          · have hlen := congrArg List.length hrest
            simp only [List.length_append, List.length_cons, List.length_nil] at hlen
            omega
        | succ k =>
          rw [List.replicate_succ', ← List.append_assoc] at hq1
          rcases q3 with _ | ⟨a3, q4⟩
          · have := (suffix_snoc ['e'] _ ')' ' ' hq1).1
            exact absurd this (by decide)
          · have hlen := congrArg List.length hrest
            simp only [List.length_append, List.length_cons, List.length_nil] at hlen
            omega
  unfold IndentStreamBuf.put
  by_cases hnl : c = '\n'
  · subst hnl
    simp only [if_true]
    refine ⟨?_, ?_, ?_⟩
    · intro h
      rcases occurrence_concat_cases _ _ _ _ h with h1 | ⟨_, h2⟩
      · exact hgood h1
      · exact hc rfl (hend _ (by simp [function_line_ending]) (List.prefix_refl _) h2)
    · intro _
      right
      simp
    · intro q hq hpre hsuf
      exfalso
      obtain ⟨q1, x, rfl⟩ : ∃ q1 x, q = q1 ++ [x] := by
        rcases nil_or_snoc q with h | h
        · exact absurd h hq
        · exact h
      exact hmem _ hpre x (by simp) (suffix_snoc _ _ _ _ hsuf).1
  · simp only [if_neg hnl]
    have hJ : ∀ (mid : List Char), (∀ q0, q0 ≠ [] → q0 ++ [c] <+: function_line_ending →
          q0 <:+ b.out ++ mid → q0 <:+ u) →
        ∀ q, q ≠ [] → q <+: function_line_ending → q <:+ b.out ++ mid ++ [c] →
          q <:+ u ++ [c] := by
      intro mid hmid q hq hpre hsuf
      obtain ⟨q1, x, rfl⟩ : ∃ q1 x, q = q1 ++ [x] := by
        rcases nil_or_snoc q with h | h
        · exact absurd h hq
        · exact h
      obtain ⟨hx, hq1⟩ := suffix_snoc _ _ _ _ hsuf
      subst hx
      by_cases hq1n : q1 = []
      · subst hq1n
        exact ⟨u, rfl⟩
      · obtain ⟨s0, hs0⟩ := hmid q1 hq1n hpre hq1
        exact ⟨s0, by rw [← hs0, List.append_assoc]⟩
    have hG : ∀ (mid : List Char), ¬ function_line_ending ++ ['\n'] <:+: b.out ++ mid →
        ¬ function_line_ending ++ ['\n'] <:+: b.out ++ mid ++ [c] := by
      intro mid hmid h
      rcases occurrence_concat_cases _ _ _ _ h with h1 | ⟨h2, _⟩
      · exact hmid h1
      · exact hnl h2.symm
    by_cases hls : b.isLineStart = true
    · simp only [hls, if_true]
      refine ⟨hG _ ?_, by simp, hJ _ ?_⟩
      · generalize b.myIndent.toNat = k
        induction k with
        | zero => simpa using hgood
        | succ k ih =>
          rw [List.replicate_succ', ← List.append_assoc]
          intro h
          rcases occurrence_concat_cases _ _ _ _ h with h1 | ⟨h2, _⟩
          · exact ih h1
          · exact absurd h2 (by decide)
      · intro q0 hq0 hpre hsuf
        exact absurd hsuf (hshort q0 hq0 hpre b.out (hstart hls) _)
    · simp only [hls, Bool.false_eq_true, if_false]
      have h0 := hG [] (by simpa using hgood)
      have h1 := hJ [] (by
        intro q0 hq0 hpre hsuf
        rw [List.append_nil] at hsuf
        exact hend q0 hq0 (List.IsPrefix.trans (List.prefix_append _ _) hpre) hsuf)
      simp only [List.append_nil] at h0 h1
      exact ⟨h0, by simp, h1⟩

/-- Writing characters through the decorator keeps the relation between what is
written and what is passed on, as long as no line break is written directly after
`e) {`. -/
theorem put_fold_line_ends (cs : List Char) :
    ∀ (b : IndentStreamBuf) (u : List Char), line_ends_kept b u →
      (∀ x y, cs = x ++ '\n' :: y → ¬ function_line_ending <:+ u ++ x) →
      line_ends_kept (cs.foldl IndentStreamBuf.put b) (u ++ cs) := by
  induction cs with
  | nil =>
    intro b u h _
    simpa using h
  | cons c cs ih =>
    intro b u h hcs
    have hstep := put_keeps_line_ends b u c h.1 h.2.1 h.2.2 (by
      intro hc
      have := hcs [] cs (by rw [hc]; rfl)
      simpa using this)
    have := ih (b.put c) (u ++ [c]) hstep (by
      intro x y hxy
      have := hcs (c :: x) y (by rw [hxy]; rfl)
      simpa [List.append_assoc] using this)
    simpa [List.append_assoc] using this

/-- Writing a stream through the decorator: the same, for the pieces of text of
the stream. -/
theorem write_fold_line_ends (os : ostream) :
    ∀ (b : IndentStreamBuf) (u : List Char), line_ends_kept b u →
      (∀ x y, plain_text os = x ++ '\n' :: y → ¬ function_line_ending <:+ u ++ x) →
      line_ends_kept (os.foldl IndentStreamBuf.write b) (u ++ plain_text os) := by
  induction os with
  | nil =>
    intro b u h _
    simpa [plain_text] using h
  | cons t os ih =>
    intro b u h hos
    cases t with
    | text s =>
      have h1 := put_fold_line_ends s.data b u h (by
        intro x y hxy
        exact hos x (y ++ plain_text os) (by simp [plain_text, hxy]))
      have h2 := ih (s.data.foldl IndentStreamBuf.put b) (u ++ s.data) h1 (by
        intro x y hxy
        have := hos (s.data ++ x) y (by simp [plain_text, hxy])
        simpa [List.append_assoc] using this)
      simpa [plain_text, IndentStreamBuf.write, List.append_assoc] using h2
    | indent =>
      exact ih { b with myIndent := b.myIndent + 4 } u h (by simpa [plain_text] using hos)
    | unindent =>
      exact ih { b with myIndent := b.myIndent - 4 } u h (by simpa [plain_text] using hos)

/-- When no line break follows `e) {` in the pieces of text written to a stream,
none does in the text that reaches the wrapped stream: the indentation adds blanks
at line starts only. -/
theorem render_line_end_free (os : ostream) (h : line_end_free (plain_text os)) :
    ¬ function_line_ending ++ ['\n'] <:+: (render os).data := by
  have h0 : line_ends_kept ⟨[], 0, true⟩ [] := by
    refine ⟨?_, fun _ => Or.inl rfl, ?_⟩
    · intro hi
      have := List.IsInfix.length_le hi
      simp [function_line_ending] at this
    · intro q hq _ hsuf
      exact absurd (List.eq_nil_of_suffix_nil hsuf) hq
  have := write_fold_line_ends os ⟨[], 0, true⟩ [] h0 (by
    intro x y hxy
    have := h x y hxy []
    simpa using this)
  exact this.1

/-- The pieces of text of two streams written one after the other. -/
theorem plain_text_append (a b : ostream) :
    plain_text (a ++ b) = plain_text a ++ plain_text b := by
  induction a with
  | nil => rfl
  | cons t a ih => cases t <;> simp [plain_text, ih]

/-- A stream all of whose pieces of text are free of line ends. -/
theorem line_end_free_tokens (os : ostream)
    (h : ∀ s, Tok.text s ∈ os → line_end_free s.data) : line_end_free (plain_text os) := by
  induction os with
  | nil =>
    exact line_end_free_of_no_newline [] (by simp)
  | cons t os ih =>
    have ih0 := ih fun s hs => h s (List.mem_cons_of_mem _ hs)
    cases t with
    | text s => exact line_end_free_append _ _ (h s (List.mem_cons_self _ _)) ih0
    | indent => exact ih0
    | unindent => exact ih0

/-- A name without line break. -/
theorem no_newline_mem (s : String) (h : no_newline s = true) : '\n' ∉ s.data := by
  intro hm
  simp only [no_newline, List.all_eq_true] at h
  have := h _ hm
  simp at this

/-- A name without blank and line break. -/
theorem no_blank_mem (s : String) (h : no_blank s = true) :
    '\n' ∉ s.data ∧ ' ' ∉ s.data := by
  simp only [no_blank, List.all_eq_true, Bool.and_eq_true, bne_iff_ne, ne_eq] at h
  exact ⟨fun hm => (h _ hm).2 rfl, fun hm => (h _ hm).1 rfl⟩

/-- A text without line break followed by a literal text that is free of line
ends. -/
theorem line_end_free_text (p lit : String) (hp : '\n' ∉ p.data)
    (hlit : line_end_free lit.data) : line_end_free (p ++ lit).data := by
  rw [String.data_append]
  exact line_end_free_append _ _ (line_end_free_of_no_newline _ hp) hlit

/-- What `copy` through an `ostream_joiner` leaves in the stream holds no line
break when the elements, the delimiter and the stream hold none. -/
theorem ostream_joiner_copy_no_newline (del : String) (hdel : '\n' ∉ del.data)
    (xs : List String) (hxs : ∀ x ∈ xs, '\n' ∉ x.data) :
    ∀ (first : Bool) (os : String), '\n' ∉ os.data →
      '\n' ∉ (ostream_joiner_copy del xs first os).data := by
  induction xs with
  | nil =>
    intro first os hos
    simpa [ostream_joiner_copy] using hos
  | cons t ts ih =>
    intro first os hos
    simp only [ostream_joiner_copy]
    apply ih (fun x hx => hxs x (List.mem_cons_of_mem _ hx))
    have ht := hxs t (List.mem_cons_self _ _)
    cases first <;> simp [String.data_append, hos, hdel, ht]

/-- A line without line break that does not end in `e) {`. -/
theorem line_end_free_line (a : List Char) (hn : '\n' ∉ a)
    (hc : ∀ pre, ¬ function_line_ending <:+ pre ++ a) : line_end_free (a ++ ['\n']) := by
  intro u v huv pre
  have hu : u = a := by
    rcases List.append_eq_append_iff.1 huv with ⟨a0, rfl, hb⟩ | ⟨c0, rfl, hc0⟩
    · cases a0 with
      | nil => simp
      | cons x a1 =>
        simp only [List.cons_append, List.cons.injEq] at hb
        have := congrArg List.length hb.2
        simp only [List.length_nil, List.length_append, List.length_cons] at this
        omega
    · cases c0 with
      | nil => simp
      | cons x c1 =>
        simp only [List.cons_append, List.cons.injEq] at hc0
        exfalso
        apply hn
        rw [← hc0.1]
        simp
  rw [hu]
  exact hc pre

/-- The opening of a class definition: a complex type name without blank keeps
the opening brace from following `e) `. -/
theorem class_opening_line_end_free (name : String) (h : no_blank name = true) :
    line_end_free ("class " ++ name ++ "\x7b\nprivate:\n").data := by
  obtain ⟨hnl, hbl⟩ := no_blank_mem name h
  have e : ("class " ++ name ++ "\x7b\nprivate:\n").data
      = (("class ".data ++ name.data ++ ['\x7b']) ++ ['\n']) ++ "private:\n".data := by
    simp only [String.data_append, List.append_assoc]
    rfl
  rw [e]
  refine line_end_free_append _ _ (line_end_free_line _ ?_ ?_)
    (line_end_free_of_check _ (by decide))
  · intro hm
    simp only [List.mem_append, List.mem_singleton] at hm
    rcases hm with (hm | hm) | hm
    · revert hm
      decide
    · exact hnl hm
    · revert hm
      decide
  · intro pre hsuf
    have hsuf2 : ['e', ')', ' '] ++ ['\x7b'] <:+ (pre ++ ("class ".data ++ name.data)) ++ ['\x7b'] := by
      simpa [function_line_ending, List.append_assoc] using hsuf
    have h1 := (suffix_snoc _ _ _ _ hsuf2).2
    rcases nil_or_snoc name.data with hn | ⟨n0, x, hn⟩
    · rw [hn, List.append_nil] at h1
      have h2 : ['e', ')'] ++ [' '] <:+ (pre ++ ['c', 'l', 'a', 's', 's']) ++ [' '] := by
        simpa [List.append_assoc] using h1
      have h3 := (suffix_snoc _ _ _ _ h2).2
      have h4 : ['e'] ++ [')'] <:+ (pre ++ ['c', 'l', 'a', 's']) ++ ['s'] := by
        simpa [List.append_assoc] using h3
      exact absurd (suffix_snoc _ _ _ _ h4).1 (by decide)
    · rw [hn] at h1
      have h2 : ['e', ')'] ++ [' '] <:+ (pre ++ ("class ".data ++ n0)) ++ [x] := by
        simpa [List.append_assoc] using h1
      have hx := (suffix_snoc _ _ _ _ h2).1
      apply hbl
      rw [hn, hx]
      simp

/-- The names of the data members of a type with plain names. -/
theorem plain_member_names (dms : List data_member)
    (h : (dms.all fun dm => no_newline dm.name && no_newline dm.type.name) = true) :
    ∀ dm ∈ dms, '\n' ∉ dm.name.data ∧ '\n' ∉ dm.type.name.data := by
  intro dm hdm
  simp only [List.all_eq_true, Bool.and_eq_true] at h
  exact ⟨no_newline_mem _ (h dm hdm).1, no_newline_mem _ (h dm hdm).2⟩

/-- The private fields of a class: no line ends in `e) {`. -/
theorem private_members_line_end_free (dms : List data_member)
    (h : ∀ dm ∈ dms, '\n' ∉ dm.name.data ∧ '\n' ∉ dm.type.name.data) :
    line_end_free (plain_text (generate_data_members_private dms)) := by
  apply line_end_free_tokens
  intro s hs
  simp only [generate_data_members_private, List.mem_map, Tok.text.injEq] at hs
  obtain ⟨dm, hdm, rfl⟩ := hs
  obtain ⟨h1, h2⟩ := h dm hdm
  refine line_end_free_text _ _ ?_ (line_end_free_of_check _ (by decide))
  simp only [String.data_append, List.mem_append, not_or]
  exact ⟨⟨h2, by decide⟩, h1⟩

/-- The constructor of a class: no line ends in `e) {`. -/
theorem constructor_line_end_free (name : String) (hname : '\n' ∉ name.data)
    (dms : List data_member)
    (h : ∀ dm ∈ dms, '\n' ∉ dm.name.data ∧ '\n' ∉ dm.type.name.data) :
    line_end_free (plain_text (generate_constructor name dms)) := by
  have hj1 : '\n' ∉ (joined (dms.map fun dm => dm.type.name ++ " " ++ dm.name) ", ").data := by
    apply ostream_joiner_copy_no_newline _ (by decide) _ _ _ _ (by decide)
    intro x hx
    obtain ⟨dm, hdm, rfl⟩ := List.mem_map.1 hx
    obtain ⟨h1, h2⟩ := h dm hdm
    simp only [String.data_append, List.mem_append, not_or]
    exact ⟨⟨h2, by decide⟩, h1⟩
  have hj2 : '\n' ∉ (joined (dms.map fun dm => dm.name ++ "(move(" ++ dm.name ++ "))")
      ", ").data := by
    apply ostream_joiner_copy_no_newline _ (by decide) _ _ _ _ (by decide)
    intro x hx
    obtain ⟨dm, hdm, rfl⟩ := List.mem_map.1 hx
    obtain ⟨h1, _⟩ := h dm hdm
    simp only [String.data_append, List.mem_append, not_or]
    exact ⟨⟨⟨h1, by decide⟩, h1⟩, by decide⟩
  apply line_end_free_tokens
  intro s hs
  simp only [generate_constructor, List.mem_cons, Tok.text.injEq, List.not_mem_nil,
    or_false] at hs
  rcases hs with rfl | rfl | rfl
  · apply line_end_free_of_no_newline
    simp only [String.data_append, List.mem_append, not_or]
    exact ⟨hname, by decide⟩
  · exact line_end_free_text _ _ hj1 (line_end_free_of_check _ (by decide))
  · exact line_end_free_text _ _ hj2 (line_end_free_of_check _ (by decide))

/-- The accessors of a member, with the empty line that follows them: no line
ends in `e) {`. -/
theorem accessors_line_end_free (dm : data_member)
    (h : '\n' ∉ dm.name.data ∧ '\n' ∉ dm.type.name.data) :
    line_end_free
      (plain_text (generate_setters dm ++ generate_getters dm ++ [Tok.text "\n"])) := by
  obtain ⟨h1, h2⟩ := h
  have e : generate_setters dm ++ generate_getters dm ++ [Tok.text "\n"]
      = [Tok.text ("void set_" ++ dm.name ++ "(" ++ dm.type.name ++ " const & x) \x7b\n"),
          .indent, .text (dm.name ++ " = x;\n"), .unindent, .text "\x7d\n",
          .text (dm.type.name ++ " get_" ++ dm.name ++ "() && \x7b\n"),
          .indent, .text ("return std::move(" ++ dm.name ++ ");\n"), .unindent,
          .text "\x7d\n",
          .text (dm.type.name ++ " const & get_" ++ dm.name ++ "() const & \x7b\n"),
          .indent, .text ("return " ++ dm.name ++ ";\n"), .unindent]
        ++ [Tok.text "\x7d\n", Tok.text "\n"] := rfl
  rw [e, plain_text_append]
  refine line_end_free_append _ _ (line_end_free_tokens _ ?_)
    (line_end_free_of_check _ (by decide))
  intro s hs
  simp only [List.mem_cons, Tok.text.injEq, List.not_mem_nil, or_false, false_or,
    reduceCtorEq] at hs
  rcases hs with rfl | rfl | rfl | rfl | rfl | rfl | rfl | rfl
  · refine line_end_free_text _ _ ?_ (line_end_free_of_check _ (by decide))
    simp only [String.data_append, List.mem_append, not_or]
    exact ⟨⟨⟨by decide, h1⟩, by decide⟩, h2⟩
  · exact line_end_free_text _ _ h1 (line_end_free_of_check _ (by decide))
  · exact line_end_free_of_check _ (by decide)
  · refine line_end_free_text _ _ ?_ (line_end_free_of_check _ (by decide))
    simp only [String.data_append, List.mem_append, not_or]
    exact ⟨⟨h2, by decide⟩, h1⟩
  · refine line_end_free_text _ _ ?_ (line_end_free_of_check _ (by decide))
    simp only [String.data_append, List.mem_append, not_or]
    exact ⟨by decide, h1⟩
  · exact line_end_free_of_check _ (by decide)
  · refine line_end_free_text _ _ ?_ (line_end_free_of_check _ (by decide))
    simp only [String.data_append, List.mem_append, not_or]
    exact ⟨⟨h2, by decide⟩, h1⟩
  · refine line_end_free_text _ _ ?_ (line_end_free_of_check _ (by decide))
    simp only [String.data_append, List.mem_append, not_or]
    exact ⟨by decide, h1⟩

/-- The accessors of all members: no line ends in `e) {`. -/
theorem public_members_line_end_free (dms : List data_member)
    (h : ∀ dm ∈ dms, '\n' ∉ dm.name.data ∧ '\n' ∉ dm.type.name.data) :
    line_end_free (plain_text (generate_data_members_public dms)) := by
  unfold generate_data_members_public
  induction dms with
  | nil => exact line_end_free_of_no_newline [] (by simp)
  | cons dm dms ih =>
    rw [List.map_cons, List.flatten_cons, plain_text_append]
    exact line_end_free_append _ _ (accessors_line_end_free dm (h dm (List.mem_cons_self _ _)))
      (ih fun d hd => h d (List.mem_cons_of_mem _ hd))

mutual
/-- In the class definition of a type with plain names, no line break follows
`e) {`. -/
theorem class_definition_line_end_free : ∀ (T : type_base), T.plain_names = true →
    line_end_free (plain_text (class_definition T))
  | .builtin _, _ => by
    simp only [class_definition, plain_text]
    exact line_end_free_of_no_newline [] (by simp)
  | .complex_type name cen a mts dms, h => by
    simp only [type_base.plain_names, Bool.and_eq_true] at h
    obtain ⟨⟨hname, hmts⟩, hdms⟩ := h
    have hm := plain_member_names dms hdms
    have hsub := class_definitions_line_end_free mts hmts
    simp only [class_definition, plain_text_append]
    refine line_end_free_append _ _ (line_end_free_append _ _ (line_end_free_append _ _
      (line_end_free_append _ _ (line_end_free_append _ _ (line_end_free_append _ _
      (line_end_free_append _ _ ?_ hsub) (private_members_line_end_free dms hm)) ?_)
      (constructor_line_end_free name (no_blank_mem name hname).1 dms hm)) hsub)
      (public_members_line_end_free dms hm)) ?_
    · simp only [class_generate_begin, plain_text, List.append_nil]
      exact class_opening_line_end_free name hname
    · simp only [plain_text, List.append_nil]
      exact line_end_free_of_check _ (by decide)
    · simp only [class_generate_end, plain_text, List.append_nil]
      exact line_end_free_of_check _ (by decide)
/-- In the class definitions of member types with plain names, no line break
follows `e) {`. -/
theorem class_definitions_line_end_free : ∀ (mts : List (String × type_base)),
    plain_names_of mts = true → line_end_free (plain_text (class_definitions mts))
  | [], _ => by
    simp only [class_definitions, plain_text]
    exact line_end_free_of_no_newline [] (by simp)
  | kt :: rest, h => by
    simp only [plain_names_of, Bool.and_eq_true] at h
    simp only [class_definitions, plain_text_append]
    exact line_end_free_append _ _ (class_definition_line_end_free kt.2 h.1)
      (class_definitions_line_end_free rest h.2)
end

/-! ## Where the function definitions stand in the struct-style output -/

/-- With indent 0 the decorator passes text on as it is. -/
theorem put_fold_indent_zero (cs : List Char) :
    ∀ b : IndentStreamBuf, b.myIndent = 0 →
      (cs.foldl IndentStreamBuf.put b).out = b.out ++ cs := by
  induction cs with
  | nil =>
    intro b _
    simp
  | cons c cs ih =>
    intro b hb
    have h1 : (b.put c).out = b.out ++ [c] ∧ (b.put c).myIndent = 0 := by
      unfold IndentStreamBuf.put
      by_cases hc : c = '\n'
      · simp [hc, hb]
      · by_cases hl : b.isLineStart = true <;> simp [hc, hl, hb]
    rw [List.foldl_cons, ih _ h1.2, h1.1, List.append_assoc]
    rfl

/-- What the decorator has passed on stays in front of what it passes on later. -/
theorem write_fold_extends (os : ostream) :
    ∀ b : IndentStreamBuf, b.out <+: (os.foldl IndentStreamBuf.write b).out := by
  have hput : ∀ (cs : List Char) (b : IndentStreamBuf),
      b.out <+: (cs.foldl IndentStreamBuf.put b).out := by
    intro cs
    induction cs with
    | nil =>
      intro b
      exact List.prefix_refl _
    | cons c cs ih =>
      intro b
      refine List.IsPrefix.trans ?_ (ih (b.put c))
      unfold IndentStreamBuf.put
      by_cases hc : c = '\n'
      · simp [hc]
      · by_cases hl : b.isLineStart = true <;> simp [hc, hl, List.append_assoc]
  induction os with
  | nil =>
    intro b
    exact List.prefix_refl _
  | cons t os ih =>
    intro b
    rw [List.foldl_cons]
    refine List.IsPrefix.trans ?_ (ih _)
    cases t with
    | text s => exact hput s.data b
    | indent => exact List.prefix_refl _
    | unindent => exact List.prefix_refl _

/-- A piece of text written at level 0 stands as it is in the text that reaches
the wrapped stream. -/
theorem render_holds_text (A B : ostream) (s : String) (hA : indent_level A 0 = some 0) :
    s.data <:+: (render (A ++ Tok.text s :: B)).data := by
  have hlev := myIndent_level A 0 0 ⟨[], 0, true⟩ hA
  have h0 : (A.foldl IndentStreamBuf.write ⟨[], 0, true⟩).myIndent = 0 := by
    simpa using hlev
  have hs := put_fold_indent_zero s.data _ h0
  have hpre := write_fold_extends B
    (s.data.foldl IndentStreamBuf.put (A.foldl IndentStreamBuf.write ⟨[], 0, true⟩))
  unfold render
  simp only [List.foldl_append, List.foldl_cons, IndentStreamBuf.write]
  rw [hs] at hpre
  obtain ⟨r, hr⟩ := hpre
  exact ⟨_, r, hr⟩

/-- The functions written for a node keep the level. -/
theorem own_functions_level (T : type_base) :
    ∀ n, indent_level (own_functions T) n = some n := by
  cases T with
  | builtin k =>
    intro n
    simp [own_functions, builtin_generate_deserializer, builtin_generate_serializer,
      indent_level]
  | complex_type name cen a mts dms =>
    simp only [own_functions]
    exact level_kept_append _ _ (generate_serializer_level name cen a dms)
      (generate_deserializer_level name cen a dms)

/-- In the functions written for a node, the opening of the deserializer and the
opening of the serializer are written at the level at which the functions
start. -/
theorem own_functions_openings (T : type_base) :
    (∃ A B, own_functions T
        = A ++ Tok.text (deserializer_specialization T.name ++ " \x7b\n") :: B ∧
      ∀ n, indent_level A n = some n) ∧
    (∃ A B, own_functions T
        = A ++ Tok.text (serializer_specialization T.name ++ " \x7b\n") :: B ∧
      ∀ n, indent_level A n = some n) := by
  cases T with
  | builtin k =>
    refine ⟨⟨[], (builtin_generate_deserializer k).tail ++ builtin_generate_serializer k, ?_,
      fun n => rfl⟩, ⟨builtin_generate_deserializer k, _, rfl, ?_⟩⟩
    · simp [own_functions, builtin_generate_deserializer, builtin_generate_serializer,
        deserializer_specialization, type_base.name, String.append_assoc]
    · intro n
      simp [builtin_generate_deserializer, indent_level]
  | complex_type name cen a mts dms =>
    refine ⟨⟨generate_serializer name cen a dms, (generate_deserializer name cen a dms).tail,
      ?_, generate_serializer_level name cen a dms⟩,
      ⟨[], (generate_serializer name cen a dms).tail ++ generate_deserializer name cen a dms,
        ?_, fun n => rfl⟩⟩
    · simp [own_functions, generate_deserializer, type_base.name]
    · simp [own_functions, generate_serializer, type_base.name]

/-- The text of the struct-style family holds, for every node of the graph, the
opening of the definition of its deserializer and the opening of the definition of
its serializer. -/
theorem struct_output_holds_openings (g : global_scope) (c : ostream) (T : type_base)
    (hT : T ∈ nodes_of g.memberTypes) :
    (deserializer_specialization T.name ++ " \x7b\n").data <:+: (toCPP_struct g c).data ∧
    (serializer_specialization T.name ++ " \x7b\n").data <:+: (toCPP_struct g c).data := by
  have hT2 : T ∈ nodes_after_of g.memberTypes :=
    (nodes_after_of_perm g.memberTypes).mem_iff.2 hT
  obtain ⟨L1, L2, hL⟩ := List.append_of_mem hT2
  have hbodies : function_bodies g.memberTypes
      = (L1.map own_functions).flatten ++ (own_functions T ++ (L2.map own_functions).flatten) := by
    rw [function_bodies_nodes, hL]
    simp
  have hL1 : ∀ n, indent_level (L1.map own_functions).flatten n = some n :=
    level_kept_flatten _ (by
      intro l hl
      obtain ⟨T0, _, rfl⟩ := List.mem_map.1 hl
      exact own_functions_level T0)
  have hcache : ∀ s : String, (∃ A B, own_functions T = A ++ Tok.text s :: B ∧
      ∀ n, indent_level A n = some n) →
      s.data <:+: (render (function_bodies g.memberTypes)).data := by
    rintro s ⟨A, B, hAB, hA⟩
    have e : function_bodies g.memberTypes
        = ((L1.map own_functions).flatten ++ A)
          ++ Tok.text s :: (B ++ (L2.map own_functions).flatten) := by
      rw [hbodies, hAB]
      simp
    rw [e]
    exact render_holds_text _ _ s (level_kept_append _ _ hL1 hA 0)
  have hmain : (render (function_bodies g.memberTypes)).data <:+: (toCPP_struct g c).data := by
    unfold toCPP_struct
    rw [struct_generate_global_os]
    have e : ([] : ostream) ++ [Tok.text outputHeader] ++ struct_definitions g.memberTypes
        ++ forward_declarations g.memberTypes
        ++ [Tok.text "\n\n", Tok.text (render (function_bodies g.memberTypes))]
        = ([Tok.text outputHeader] ++ struct_definitions g.memberTypes
            ++ forward_declarations g.memberTypes ++ [Tok.text "\n\n"])
          ++ Tok.text (render (function_bodies g.memberTypes)) :: [] := by
      simp
    rw [e]
    apply render_holds_text
    simp [indent_level, indent_level_append, struct_definitions_level,
      forward_declarations_level]
  obtain ⟨hd, hs⟩ := own_functions_openings T
  exact ⟨(hcache _ hd).trans hmain, (hcache _ hs).trans hmain⟩

/-! ## C27: the lines of the class-style output -/

/-- A line that opens a function definition ends in `e) {`. -/
theorem opens_definition_ending (l : List Char) (h : opens_definition l) :
    function_line_ending <:+ l := by
  obtain ⟨name, k, h | h⟩ := h
  · have e : (" const& x, xml::serializer &s, std::string name) \x7b" : String)
        = " const& x, xml::serializer &s, std::string nam" ++ "e) \x7b" := by decide
    refine ⟨List.replicate k ' ' ++ ("void toXML<" ++ name ++ ">(" ++ name
      ++ " const& x, xml::serializer &s, std::string nam").data, ?_⟩
    rw [h, e]
    simp [function_line_ending, String.data_append, List.append_assoc]
  · have e : (">(xml::parser &p, std::string name) \x7b" : String)
        = ">(xml::parser &p, std::string nam" ++ "e) \x7b" := by decide
    refine ⟨List.replicate k ' ' ++ (name ++ " fromXML<" ++ name
      ++ ">(xml::parser &p, std::string nam").data, ?_⟩
    rw [h, e]
    simp [function_line_ending, String.data_append, List.append_assoc]

/-- The opening of a function definition, as the struct-style family writes it, is
the line `template<>` followed by a line that opens a function definition. -/
theorem specialization_opening_lines (name : String) :
    (∃ l, opens_definition l ∧
      (serializer_specialization name ++ " \x7b\n").data
        = "template<>\n".data ++ l ++ ['\n']) ∧
    (∃ l, opens_definition l ∧
      (deserializer_specialization name ++ " \x7b\n").data
        = "template<>\n".data ++ l ++ ['\n']) := by
  constructor
  · refine ⟨_, ⟨name, 0, Or.inl rfl⟩, ?_⟩
    simp [serializer_specialization, String.data_append, List.append_assoc]
  · refine ⟨_, ⟨name, 0, Or.inr rfl⟩, ?_⟩
    simp [deserializer_specialization, String.data_append, List.append_assoc]

mutual
/-- A class definition is empty or ends with the closing line of a class. -/
theorem class_definition_last : ∀ (T : type_base),
    class_definition T = [] ∨ ∃ os, class_definition T = os ++ [Tok.text "\x7d;\n\n"]
  | .builtin _ => Or.inl rfl
  | .complex_type name cen a mts dms => by
    right
    refine ⟨class_generate_begin name ++ class_definitions mts
      ++ generate_data_members_private dms
      ++ [.unindent, .text "public:\n", .indent]
      ++ generate_constructor name dms ++ class_definitions mts
      ++ generate_data_members_public dms ++ [.unindent], ?_⟩
    simp [class_definition, class_generate_end, List.append_assoc]
/-- The class definitions of a list of member types are empty or end with the
closing line of a class. -/
theorem class_definitions_last : ∀ (mts : List (String × type_base)),
    class_definitions mts = [] ∨ ∃ os, class_definitions mts = os ++ [Tok.text "\x7d;\n\n"]
  | [] => Or.inl rfl
  | kt :: rest => by
    simp only [class_definitions]
    rcases class_definitions_last rest with h | ⟨os, h⟩
    · rw [h, List.append_nil]
      exact class_definition_last kt.2
    · right
      exact ⟨class_definition kt.2 ++ os, by rw [h, List.append_assoc]⟩
end

/-- After a text that ends with a line break, what the decorator has passed on
ends with a line break. -/
theorem put_fold_last_newline (cs : List Char) (b : IndentStreamBuf)
    (h : cs.getLast? = some '\n') :
    (cs.foldl IndentStreamBuf.put b).out.getLast? = some '\n' := by
  obtain ⟨cs0, rfl⟩ := ends_with_newline cs h
  rw [List.foldl_append]
  simp [IndentStreamBuf.put]

/-- The text of the class-style family is empty or ends with a line break. -/
theorem toCPP_class_last (g : global_scope) :
    (toCPP_class g).data = [] ∨ (toCPP_class g).data.getLast? = some '\n' := by
  unfold toCPP_class class_generate_global
  rw [class_generate_member_types_eq, List.nil_append]
  rcases class_definitions_last g.memberTypes with h | ⟨os, h⟩
  · left
    rw [h]
    rfl
  · right
    rw [h]
    unfold render
    simp only [List.foldl_append, List.foldl_cons, List.foldl_nil, IndentStreamBuf.write]
    exact put_fold_last_newline ("\x7d;\n\n" : String).data _ (by decide)

/-- A line of a text in which no line break follows `e) {` and which is empty or
ends with a line break does not end in `e) {`. -/
theorem line_not_ending (cs l : List Char)
    (hcs : ¬ function_line_ending ++ ['\n'] <:+: cs)
    (hlast : cs = [] ∨ cs.getLast? = some '\n') (hl : is_line cs l) :
    ¬ function_line_ending <:+ l := by
  intro hsuf
  obtain ⟨hnl, before, after, hcs2, _, hafter⟩ := hl
  obtain ⟨A, hA⟩ := hsuf
  rcases hafter with rfl | hafter
  · rw [List.append_nil] at hcs2
    rcases hlast with h0 | h0
    · rw [h0] at hcs2
      have := congrArg List.length hcs2
      rw [← hA] at this
      simp only [List.length_nil, List.length_append, function_line_ending,
        List.length_cons] at this
      omega
    · obtain ⟨cs0, h1⟩ := ends_with_newline cs h0
      rw [h1, ← hA, ← List.append_assoc] at hcs2
      have e : before ++ A ++ function_line_ending
          = (before ++ A ++ ['e', ')', ' ']) ++ ['\x7b'] := by
        simp [function_line_ending, List.append_assoc]
      rw [e] at hcs2
      exact absurd (snoc_inj _ _ _ _ hcs2).2 (by decide)
  · cases after with
    | nil => simp at hafter
    | cons x after0 =>
      simp only [List.head?_cons, Option.some.injEq] at hafter
      subst hafter
      apply hcs
      refine ⟨before ++ A, after0, ?_⟩
      rw [hcs2, ← hA]
      simp [List.append_assoc]

/-- C27, amended: for every type graph whose names are plain (no line break in a
name, no blank in the name of a complex type), the class-style family writes the
class definitions and nothing else; none of the pieces of text it writes is the
opening of a serializer or deserializer definition, and no line of its output,
the last one included, opens the definition of a `toXML` or `fromXML`
specialisation (no line ends in `e) {`). The struct-style family writes such an
opening as the line `template<>` followed by such a line, and its output holds the
opening of the serializer and the opening of the deserializer of every complex
type of the graph, nested ones included. -/
theorem class_style_no_functions (g : global_scope) (c : ostream)
    (hnames : plain_names_of g.memberTypes = true) :
    class_generate_global g [] = class_definitions g.memberTypes ∧
    (∀ t ∈ class_generate_global g [], ¬ opens_function t) ∧
    (∀ l, is_line (toCPP_class g).data l →
      ¬ function_line_ending <:+ l ∧ ¬ opens_definition l) ∧
    (∀ name : String,
      (∃ l, opens_definition l ∧
        (serializer_specialization name ++ " \x7b\n").data
          = "template<>\n".data ++ l ++ ['\n']) ∧
      (∃ l, opens_definition l ∧
        (deserializer_specialization name ++ " \x7b\n").data
          = "template<>\n".data ++ l ++ ['\n'])) ∧
    (∀ (name cen : String) (a : Bool) (mts : List (String × type_base))
        (dms : List data_member),
      type_base.complex_type name cen a mts dms ∈ nodes_of g.memberTypes →
      (serializer_specialization name ++ " \x7b\n").data <:+: (toCPP_struct g c).data ∧
      (deserializer_specialization name ++ " \x7b\n").data <:+: (toCPP_struct g c).data) := by
  have hclass : class_generate_global g [] = class_definitions g.memberTypes := by
    unfold class_generate_global
    rw [class_generate_member_types_eq, List.nil_append]
  have hfree : ¬ function_line_ending ++ ['\n'] <:+: (toCPP_class g).data := by
    unfold toCPP_class
    rw [hclass]
    exact render_line_end_free _ (class_definitions_line_end_free g.memberTypes hnames)
  refine ⟨hclass, ?_, ?_, specialization_opening_lines, ?_⟩
  · intro t ht hf
    obtain ⟨A, hA⟩ := opens_function_ending t hf
    rw [hclass] at ht
    exact class_definitions_no_function g.memberTypes t ht A hA
  · intro l hl
    have h1 := line_not_ending _ l hfree (toCPP_class_last g) hl
    exact ⟨h1, fun ho => h1 (opens_definition_ending l ho)⟩
  · intro name cen a mts dms hT
    have h := struct_output_holds_openings g c _ hT
    exact ⟨h.2, h.1⟩

/-- C27, amended, at the note schema: the names of its graph are plain; no line of
the class-style output opens a function definition, and the struct-style output
holds the openings of `toXML<note_type>` and `fromXML<note_type>`. -/
theorem class_style_no_functions_witness :
    plain_names_of note_graph.memberTypes = true ∧
    (∀ l, is_line (toCPP_class note_graph).data l →
      ¬ function_line_ending <:+ l ∧ ¬ opens_definition l) ∧
    (serializer_specialization "note_type" ++ " \x7b\n").data
      <:+: (toCPP_struct note_graph []).data ∧
    (deserializer_specialization "note_type" ++ " \x7b\n").data
      <:+: (toCPP_struct note_graph []).data := by
  have hn : plain_names_of note_graph.memberTypes = true := by decide
  have h := class_style_no_functions note_graph [] hn
  have h2 := h.2.2.2.2 "note_type" "note" false []
    [ ⟨.required, "to", ⟨["xs:string"], "std::string"⟩⟩,
      ⟨.optional, "cc", ⟨["xs:string"], "std::string"⟩⟩,
      ⟨.required, "from", ⟨["xs:string"], "std::string"⟩⟩ ]
    (by simp [note_graph, nodes_of, type_base.nodes])
  exact ⟨hn, h.2.2.1, h2.1, h2.2⟩

/-! ## C35: every node once in the struct-style output, counted -/

/-- C35: for every type graph, in the output of the struct-style family:
* the main stream is the header, the struct definitions, the forward
  declarations and the text of the deferred buffer; the forward declarations are
  one pair (deserializer, serializer) per node at or below the member types of the
  global scope, and the deferred buffer holds the functions of every such node
  (the same nodes, in order of completion);
* the functions of a node are one definition of the deserializer and one
  definition of the serializer for the target name of the node: opening line,
  indented body without a further opening line, closing brace;
* for every name `N`, the forward declaration of the deserializer for `N`, that of
  the serializer, the opening line of the definition of the deserializer in the
  deferred buffer and that of the serializer occur equally often, namely as often
  as a node (builtin or complex) has the target name `N`: what is declared is
  what is defined, once per node;
* the opening line of `struct N` occurs as often as a complex type node is named
  `N`: one struct definition per complex type node;
* the text that reaches the output holds, for every node, the opening of the
  definition of its deserializer and of its serializer as they were written. -/
theorem struct_style_once (g : global_scope) (c : ostream) (N : String) :
    (struct_generate_global g ⟨[], c⟩).os
      = [Tok.text outputHeader] ++ struct_definitions g.memberTypes
        ++ forward_declarations g.memberTypes
        ++ [Tok.text "\n\n", Tok.text (render (function_bodies g.memberTypes))] ∧
    forward_declarations g.memberTypes
      = ((nodes_of g.memberTypes).map declaration_pair).flatten ∧
    function_bodies g.memberTypes
      = ((nodes_after_of g.memberTypes).map own_functions).flatten ∧
    (nodes_after_of g.memberTypes).Perm (nodes_of g.memberTypes) ∧
    (∀ T ∈ nodes_of g.memberTypes, ∃ d s : ostream,
      one_definition (deserializer_specialization T.name) d ∧
      one_definition (serializer_specialization T.name) s ∧
      (own_functions T = d ++ s ∨ own_functions T = s ++ d)) ∧
    (forward_declarations g.memberTypes).count
        (Tok.text (deserializer_specialization N ++ ";\n"))
      = (node_names (nodes_of g.memberTypes)).count N ∧
    (forward_declarations g.memberTypes).count
        (Tok.text (serializer_specialization N ++ ";\n"))
      = (node_names (nodes_of g.memberTypes)).count N ∧
    (function_bodies g.memberTypes).count
        (Tok.text (deserializer_specialization N ++ " \x7b\n"))
      = (node_names (nodes_of g.memberTypes)).count N ∧
    (function_bodies g.memberTypes).count
        (Tok.text (serializer_specialization N ++ " \x7b\n"))
      = (node_names (nodes_of g.memberTypes)).count N ∧
    (struct_definitions g.memberTypes).count (Tok.text ("struct " ++ N ++ " \x7b\n"))
      = (complex_names (nodes_of g.memberTypes)).count N ∧
    (∀ T ∈ nodes_of g.memberTypes,
      (deserializer_specialization T.name ++ " \x7b\n").data
        <:+: (toCPP_struct g c).data ∧
      (serializer_specialization T.name ++ " \x7b\n").data
        <:+: (toCPP_struct g c).data) := by
  have hperm := nodes_after_of_perm g.memberTypes
  have hnames : (node_names (nodes_after_of g.memberTypes)).count N
      = (node_names (nodes_of g.memberTypes)).count N :=
    (hperm.map type_base.name).count_eq N
  have hdecl := declarations_count (nodes_of g.memberTypes) N
  have hfun := functions_count (nodes_after_of g.memberTypes) N
  rw [← forward_declarations_nodes] at hdecl
  rw [← function_bodies_nodes, hnames] at hfun
  refine ⟨?_, forward_declarations_nodes _, function_bodies_nodes _, hperm,
    fun T _ => own_functions_definitions T, hdecl.1, hdecl.2, hfun.1, hfun.2,
    struct_definitions_count g.memberTypes N,
    fun T hT => struct_output_holds_openings g c T hT⟩
  rw [struct_generate_global_os]
  simp

end XmlBind
